import Mathlib

/-!
# Verification of the adaptix structural-transformation compiler (model loader / dumper)

This file gives a shallow embedding of the code that `ModelLoaderGen.produce_code`
(`src/adaptix/_internal/morphing/model/loader_gen.py`) generates, together with the
dump-direction extraction code generated by `BuiltinOutputExtractionGen`
(`dataclass_factory_30/provider/model/output_extraction_gen.py`), and proves
properties of the generated routines.

The generator emits Python source; the embedding reproduces the *semantics of the
emitted code*: external data is a dynamically-typed value, the emitted routine walks
a crown, keeps an `errors` accumulator and a `has_unexpected_error` flag (under the
`ALL` debug trail), per-parent "already type checked" knowledge (mirroring the
compile-time `type_checked_type_paths` set, which evolves in generation order
= execution order), per-branch `has_not_found_error` flags and per-branch `extra`
containers, and finally either raises an exception or builds the record.
-/

namespace Adaptix

/-- A path element inside external data: a mapping key or a sequence index. -/
inductive PathElem where
  | key (k : String)
  | idx (i : Nat)
deriving DecidableEq, Repr

/-- A path from the crown root to a node (`CrownPath` in the source). -/
abbrev Path := List PathElem

/-- The universe of external (and field) values: a model of the Python values the
generated loader manipulates (nested mappings / sequences of primitives). -/
inductive Value where
  | vstr (s : String)
  | vint (n : Int)
  | vbool (b : Bool)
  | vnone
  | vlist (xs : List Value)
  | vdict (entries : List (String × Value))
deriving Repr

/-- `DebugTrail` from `adaptix/_internal/definitions.py` (`DISABLE`/`FIRST`/`ALL`);
the spec's "None"/"First"/"All" error-detail levels. -/
inductive DebugTrail where
  | disable
  | first
  | all
deriving DecidableEq, Repr

/-- Unknown-data policy of a branch crown (`ExtraForbid` / `ExtraSkip` / `ExtraCollect`). -/
inductive ExtraPolicy where
  | forbid
  | skip
  | collect
deriving DecidableEq, Repr

/-- Input crowns (`InpDictCrown` / `InpListCrown` / `InpFieldCrown` / `InpNoneCrown`
from `crown_definitions.py`, shapes as used by `loader_gen.py`). -/
inductive InpCrown where
  | dict (map : List (String × InpCrown)) (extraPolicy : ExtraPolicy)
  | list (map : List InpCrown) (extraPolicy : ExtraPolicy)
  | field (id : String)
  | leafNone
deriving Repr

/-- A field default (`NoDefault` / `DefaultValue` / `DefaultFactory`).  A factory is
modelled by the value it produces: the compiled routine is a pure function of its
input (spec §5), so a factory always yields the same value. -/
inductive FieldDefault where
  | noDefault
  | value (v : Value)
  | factory (v : Value)
deriving Repr

/-- `InputField`: stable id, required flag and default. -/
structure InputField where
  id : String
  isRequired : Bool
  default : FieldDefault
deriving Repr

/-- The "expected type" tag carried by `TypeLoadError` (`CollectionsMapping` or
`CollectionsSequence`). -/
inductive TypeTag where
  | mapping
  | sequence
deriving DecidableEq, Repr

/-- `LoadError` values the generated code constructs (module `adaptix.load_error`).
`leafError` stands for a `LoadError` raised by an elementary field loader;
its payload tag distinguishes different such errors. -/
inductive LErr where
  | typeLoad (t : TypeTag) (data : Value)
  | excludedType (data : Value)
  | noRequiredFields (fields : List String) (data : Value)
  | noRequiredItems (n : Nat) (data : Value)
  | extraFields (keys : List String) (data : Value)
  | extraItems (n : Nat) (data : Value)
  | leafError (tag : Nat)
deriving Repr

/-- Tags for exceptions that are *not* `LoadError`s: a `NameError` from reading an
unbound generated variable, a raw `TypeError`, or an arbitrary exception raised by
an elementary converter (a converter bug). -/
inductive UTag where
  | nameError
  | pyTypeError
  | bug (tag : Nat)
deriving DecidableEq, Repr

/-- Exceptions as observed by the caller of the compiled loader.  `load`/`unexpected`
carry their struct trail (attached via `append_trail`/`extend_trail`); `aggregate`
is `AggregateLoadError` and `excGroup` is `CompatExceptionGroup`. -/
inductive Exc where
  | load (e : LErr) (trail : Path)
  | unexpected (u : UTag) (trail : Path)
  | aggregate (causes : List Exc)
  | excGroup (causes : List Exc)
deriving Repr

/-- An exception raised by an elementary field loader: either a `LoadError`
(the recognized kind) or an unexpected exception (a converter bug). -/
inductive RawExc where
  | lerr (e : LErr)
  | unexp (u : UTag)
deriving Repr

/-- `extra_move` of the input name layout (`None` / `ExtraKwargs` / `ExtraSaturate` /
`ExtraTargets`).  The saturator is modelled by the record value it leaves behind. -/
inductive ExtraMove where
  | nomove
  | kwargs
  | saturate (f : Value → Value → Value)
  | targets (ids : List String)

/-! ## Python value semantics -/

mutual

/-- Boolean equality of values (Python `==` on this universe). -/
def Value.beq : Value → Value → Bool
  | .vstr a, .vstr b => a == b
  | .vint a, .vint b => a == b
  | .vbool a, .vbool b => a == b
  | .vnone, .vnone => true
  | .vlist xs, .vlist ys => Value.beqList xs ys
  | .vdict xs, .vdict ys => Value.beqEntries xs ys
  | _, _ => false

/-- Elementwise equality of value lists. -/
def Value.beqList : List Value → List Value → Bool
  | [], [] => true
  | x :: xs, y :: ys => Value.beq x y && Value.beqList xs ys
  | _, _ => false

/-- Elementwise equality of dict entry lists. -/
def Value.beqEntries : List (String × Value) → List (String × Value) → Bool
  | [], [] => true
  | (k, v) :: xs, (k', v') :: ys => k == k' && Value.beq v v' && Value.beqEntries xs ys
  | _, _ => false

end

/-- Association-list lookup (Python `dict` access by key; first match). -/
def alookup (m : List (String × Value)) (k : String) : Option Value :=
  match m with
  | [] => Option.none
  | (k', v) :: rest => if k' = k then some v else alookup rest k

/-- Association-list insert-or-replace (Python `d[k] = v`). -/
def upsert (m : List (String × Value)) (k : String) (v : Value) : List (String × Value) :=
  match m with
  | [] => [(k, v)]
  | (k', v') :: rest => if k' = k then (k, v) :: rest else (k', v') :: upsert rest k v

/-- The keys of a mapping value (empty for non-mappings; only used on mappings). -/
def Value.keys : Value → List String
  | .vdict m => m.map Prod.fst
  | _ => []

/-- `isinstance(v, collections.abc.Mapping)`. -/
def Value.isMapping : Value → Bool
  | .vdict _ => true
  | _ => false

/-- `isinstance(v, collections.abc.Sequence)` — Python `str` *is* a `Sequence`. -/
def Value.isSequence : Value → Bool
  | .vlist _ => true
  | .vstr _ => true
  | _ => false

/-- `len(v)` for the values on which the generated code calls it. -/
def pyLen : Value → Nat
  | .vlist xs => xs.length
  | .vstr s => s.length
  | .vdict m => m.length
  | _ => 0

/-- Result of a Python subscript `v[el]`: the value, a lookup error (`KeyError`
for string keys / `IndexError` for indices), or an error of the "wrong container
type" class the generated code catches as `bad_type_error` (`(TypeError, IndexError)`
for string keys and `(TypeError, KeyError)` for indices — indexing a `dict` with an
integer raises `KeyError`, hence lands in that class). -/
inductive Sub where
  | found (v : Value)
  | missing
  | badType
deriving Repr

/-- Python subscript on this value universe.  Indexing a `str` yields the
one-character string at that position (strings are sequences in Python). -/
def subscript : Value → PathElem → Sub
  | .vdict m, .key k =>
    match alookup m k with
    | some v => .found v
    | Option.none => .missing
  | _, .key _ => .badType
  | .vlist xs, .idx i =>
    match xs.get? i with
    | some v => .found v
    | Option.none => .missing
  | .vstr s, .idx i =>
    match s.data.get? i with
    | some c => .found (.vstr ⟨[c]⟩)
    | Option.none => .missing
  | .vdict _, .idx _ => .badType
  | _, .idx _ => .badType

/-- Python `k in v` (`__contains__`); for mappings a key test, for lists a member
test, for strings a substring test; `TypeError` otherwise. -/
def pyContains (v : Value) (k : String) : Except UTag Bool :=
  match v with
  | .vdict m => .ok (alookup m k).isSome
  | .vlist xs => .ok (xs.any fun x => x.beq (.vstr k))
  | .vstr s => .ok (decide (List.IsInfix k.data s.data))
  | _ => .error .pyTypeError

/-- `xs - set(ys)` on string key sets, in the order of `xs`. -/
def setDiff (xs ys : List String) : List String :=
  xs.filter fun k => !(ys.contains k)

/-! ## Loader generator configuration and runtime state -/

/-- Everything `ModelLoaderGen.__init__` receives that the generated code closes
over: debug trail, strict-coercion flag, `ModelLoaderProps.use_default_for_omitted`,
the shape's fields, the elementary field loaders and the layout's `extra_move`. -/
structure Cfg where
  dt : DebugTrail
  strictCoercion : Bool
  useDefaultForOmitted : Bool
  shapeFields : List InputField
  loaders : String → Value → Except RawExc Value
  extraMove : ExtraMove

/-- `shape.fields_dict[id]` (the `_id_to_field` mapping); total for convenience,
with a junk required field for ids outside the shape (generation would fail there). -/
def Cfg.fieldInfo (cfg : Cfg) (id : String) : InputField :=
  (cfg.shapeFields.find? (fun f => f.id == id)).getD ⟨id, true, .noDefault⟩

/-- `_can_collect_extra`: the layout moves extra data somewhere. -/
def Cfg.canCollectExtra (cfg : Cfg) : Bool :=
  match cfg.extraMove with
  | .nomove => false
  | _ => true

/-- The field ids of an `ExtraTargets` move (otherwise empty). -/
def Cfg.extraTargets (cfg : Cfg) : List String :=
  match cfg.extraMove with
  | .targets ids => ids
  | _ => []

/-- Whether a default is declared (`isinstance(field.default, (DefaultValue, DefaultFactory))`). -/
def hasDeclaredDefault : FieldDefault → Bool
  | .noDefault => false
  | _ => true

/-- `_is_packed_field`: an optional non-extra-target field that is not handled via
its declared default. -/
def Cfg.isPacked (cfg : Cfg) (f : InputField) : Bool :=
  if cfg.useDefaultForOmitted && hasDeclaredDefault f.default then false
  else !f.isRequired && !(cfg.extraTargets.contains f.id)

/-- The value of the default clause (`_get_default_clause_expr` evaluated): the
literal value, or the factory's result.  Only evaluated for fields with a declared
default (`ValueError` at generation time otherwise). -/
def defaultValue : FieldDefault → Value
  | .value v => v
  | .factory v => v
  | .noDefault => .vnone

/-- Runtime state of one invocation of the generated loader: the `errors`
accumulator and `has_unexpected_error` flag (`DebugTrail.ALL`), the `f_<id>`
variables and the `packed_fields` dict. -/
structure St where
  errors : List Exc
  hasUnexpected : Bool
  fields : List (String × Value)
  packed : List (String × Value)
deriving Repr

/-- Normal or abrupt (exception) completion; local variables survive a caught
exception, so both carry the state. -/
inductive Res (α : Type) where
  | ok (a : α) (st : St)
  | err (e : Exc) (st : St)
deriving Repr

/-- `with_trail`: `FIRST`/`ALL` attach the path, `DISABLE` attaches nothing. -/
def trailFor (dt : DebugTrail) (p : Path) : Path :=
  if dt = .disable then [] else p

/-- Interpret a raw (leaf-loader) exception as the exception object that is
appended or raised, with the given trail. -/
def rawToExc (r : RawExc) (trail : Path) : Exc :=
  match r with
  | .lerr e => .load e trail
  | .unexp u => .unexpected u trail

/-- `_gen_unexpected_exc_catching` — what happens when an exception that is not one
of the explicitly-handled kinds occurs in a guarded `try`: under `FIRST` it is
trailed and re-raised, under `ALL` it is appended and `has_unexpected_error` is set;
under `DISABLE` no clause is generated, so it propagates bare. -/
def unexpCatch (dt : DebugTrail) (path : Path) (u : UTag) (st : St) : Res Unit :=
  match dt with
  | .disable => .err (.unexpected u []) st
  | .first => .err (.unexpected u path) st
  | .all => .ok () { st with errors := st.errors ++ [.unexpected u path], hasUnexpected := true }

/-- `_gen_raise_bad_type_error`: at the root under `ALL` the error is wrapped in an
immediately-raised `AggregateLoadError`; otherwise the trailed error is raised. -/
def raiseBadType (dt : DebugTrail) (namerPath : Path) (e : LErr) (st : St) : Res Unit :=
  if namerPath = [] ∧ dt = .all then
    .err (.aggregate [.load e []]) st
  else
    .err (.load e (trailFor dt namerPath)) st

/-- `Namer.emit_error` for a freshly-constructed `LoadError`: append under `ALL`,
raise otherwise (trailed under `FIRST`, bare under `DISABLE`). -/
def emitLErr (dt : DebugTrail) (path : Path) (e : LErr) (st : St) : Res Unit :=
  match dt with
  | .all => .ok () { st with errors := st.errors ++ [.load e path] }
  | .first => .err (.load e path) st
  | .disable => .err (.load e []) st

/-- `_gen_field_assigment`'s exception handling: under `ALL`/`FIRST` the loader call
is wrapped in `try/except Exception` feeding `emit_error` (note: `ALL` appends
*without* setting `has_unexpected_error`); under `DISABLE` there is no `try`, so the
exception propagates bare. -/
def emitRaw (dt : DebugTrail) (path : Path) (r : RawExc) (st : St) : Res Unit :=
  match dt with
  | .all => .ok () { st with errors := st.errors ++ [rawToExc r path] }
  | .first => .err (rawToExc r path) st
  | .disable => .err (rawToExc r []) st

/-- Assignment target of a field's loaded value: `f_<id>` or `packed_fields[<name>]`
(the keyword name is modelled by the field id). -/
inductive Target where
  | tofield (id : String)
  | topacked (name : String)

/-- Store a loaded value at its target. -/
def assignTo (st : St) : Target → Value → St
  | .tofield id, v => { st with fields := upsert st.fields id v }
  | .topacked n, v => { st with packed := upsert st.packed n v }

/-- `_gen_field_assigment`: call the field's loader on the argument and store the
result (the `as_is_stub` special case has the semantics of an identity loader). -/
def runFieldAssign (cfg : Cfg) (path : Path) (fid : String) (arg : Value) (tgt : Target)
    (st : St) : Res Unit :=
  match cfg.loaders fid arg with
  | .ok v => .ok () (assignTo st tgt v)
  | .error r => emitRaw cfg.dt path r st

/-- `_get_dict_crown_required_keys`: all keys except those of optional field leaves. -/
def requiredKeysOf (cfg : Cfg) (map : List (String × InpCrown)) : List String :=
  (map.filter fun p =>
    match p.2 with
    | .field id => (cfg.fieldInfo id).isRequired
    | _ => true).map Prod.fst

/-- What a child needs to know about its parent branch in order to build the
"not found" error: the parent's required-key set (dict) or child count (list). -/
inductive ParentInfo where
  | pdict (requiredKeys : List String)
  | plist (len : Nat)

/-- The `not_found_error` expression of `_gen_assigment_from_parent_data`, evaluated
against the parent's data. -/
def parentNotFoundErr (pinfo : ParentInfo) (d : Value) : LErr :=
  match pinfo with
  | .pdict req => .noRequiredFields (setDiff req d.keys) d
  | .plist n => .noRequiredItems n d

/-- The `bad_type_load_error` of `_gen_assigment_from_parent_data`. -/
def badTypeErrOf (keyEl : PathElem) (d : Value) : LErr :=
  match keyEl with
  | .key _ => .typeLoad .mapping d
  | .idx _ => .typeLoad .sequence d

/-- The `on_lookup_error` parameter: `None` (the default branch raising/recording
the not-found error) or custom code (`pass`, or a default assignment). -/
inductive OnMissing where
  | branch
  | custom (act : St → St)

/-- Outcome of `_gen_assigment_from_parent_data` on the normal path: the looked-up
value (`none` when the lookup failed but execution continues), plus the
generation-time "parent already type-checked" flag (always set afterwards, since
the `except bad_type_error` clause is emitted for the first such child) and the
runtime `has_not_found_error` flag of the parent. -/
structure AOut where
  value : Option Value
  checked : Bool
  hnf : Bool

/-- `_gen_assigment_from_parent_data`.  `pdata = none` models an unbound parent-data
variable (its own lookup failed under `ALL`): reading it raises `NameError`, which
only the `except Exception` clause can see. -/
def assignFromParent (cfg : Cfg) (parentPath : Path) (keyEl : PathElem)
    (pinfo : ParentInfo) (pdata : Option Value) (onMissing : OnMissing)
    (checked hnf : Bool) (st : St) : Res AOut :=
  let childPath := parentPath ++ [keyEl]
  match pdata with
  | Option.none =>
    match unexpCatch cfg.dt childPath .nameError st with
    | .ok _ st' => .ok ⟨Option.none, true, hnf⟩ st'
    | .err e st' => .err e st'
  | some d =>
    match subscript d keyEl with
    | .found v => .ok ⟨some v, true, hnf⟩ st
    | .missing =>
      match onMissing with
      | .custom act => .ok ⟨Option.none, true, hnf⟩ (act st)
      | .branch =>
        let e := parentNotFoundErr pinfo d
        match cfg.dt with
        | .disable => .err (.load e []) st
        | .first => .err (.load e parentPath) st
        | .all =>
          match keyEl with
          | .key _ =>
            if hnf then .ok ⟨Option.none, true, true⟩ st
            else .ok ⟨Option.none, true, true⟩
              { st with errors := st.errors ++ [.load e parentPath] }
          | .idx _ => .ok ⟨Option.none, true, hnf⟩ st
    | .badType =>
      if checked then
        match unexpCatch cfg.dt childPath .pyTypeError st with
        | .ok _ st' => .ok ⟨Option.none, true, hnf⟩ st'
        | .err e st' => .err e st'
      else
        match raiseBadType cfg.dt parentPath (badTypeErrOf keyEl d) st with
        | .ok _ st' => .ok ⟨Option.none, true, hnf⟩ st'
        | .err e st' => .err e st'

/-- `_gen_optional_field_extraction_from_mapping`: the `if key in data` variant when
the parent was already type-checked, else the `data.get` variant (which also marks
the parent as type-checked at generation time). -/
def optFromMapping (cfg : Cfg) (parentPath : Path) (k : String) (fid : String)
    (tgt : Target) (onMiss : St → St) (pdata : Option Value)
    (checked : Bool) (st : St) : Res Unit :=
  let childPath := parentPath ++ [PathElem.key k]
  if checked then
    match pdata with
    | Option.none => .err (.unexpected .nameError []) st
    | some d =>
      match pyContains d k with
      | .error u => .err (.unexpected u []) st
      | .ok true =>
        match subscript d (.key k) with
        | .found v => runFieldAssign cfg childPath fid v tgt st
        | _ => emitRaw cfg.dt childPath (.unexp .pyTypeError) st
      | .ok false => .ok () (onMiss st)
  else
    match pdata with
    | Option.none =>
      match unexpCatch cfg.dt childPath .nameError st with
      | .ok _ st' => .ok () st'
      | .err e st' => .err e st'
    | some d =>
      match d with
      | .vdict m =>
        match alookup m k with
        | some v => runFieldAssign cfg childPath fid v tgt st
        | Option.none => .ok () (onMiss st)
      | _ => raiseBadType cfg.dt parentPath (.typeLoad .mapping d) st

/-- `_gen_field_crown`: required fields go through `_gen_assigment_from_parent_data`;
optional fields use the default clause (or the packed-fields dict), via the
index-based assignment for list parents or `_gen_optional_field_extraction_from_mapping`
for dict parents.  Returns the updated (checked, has-not-found) flags. -/
def runFieldCrown (cfg : Cfg) (parentPath : Path) (keyEl : PathElem) (pinfo : ParentInfo)
    (pdata : Option Value) (fid : String) (ck hnf : Bool) (st : St) : Res (Bool × Bool) :=
  let fld := cfg.fieldInfo fid
  let childPath := parentPath ++ [keyEl]
  if fld.isRequired then
    match assignFromParent cfg parentPath keyEl pinfo pdata .branch ck hnf st with
    | .err e st' => .err e st'
    | .ok a st' =>
      match a.value with
      | some v =>
        match runFieldAssign cfg childPath fid v (.tofield fid) st' with
        | .ok _ st2 => .ok (a.checked, a.hnf) st2
        | .err e st2 => .err e st2
      | Option.none => .ok (a.checked, a.hnf) st'
  else
    let tgt : Target := if cfg.isPacked fld then .topacked fid else .tofield fid
    let onMiss : St → St :=
      if cfg.isPacked fld then id
      else fun st => assignTo st (.tofield fid) (defaultValue fld.default)
    match keyEl with
    | .idx _ =>
      match assignFromParent cfg parentPath keyEl pinfo pdata (.custom onMiss) ck hnf st with
      | .err e st' => .err e st'
      | .ok a st' =>
        match a.value with
        | some v =>
          match runFieldAssign cfg childPath fid v tgt st' with
          | .ok _ st2 => .ok (a.checked, a.hnf) st2
          | .err e st2 => .err e st2
        | Option.none => .ok (a.checked, a.hnf) st'
    | .key k =>
      match optFromMapping cfg parentPath k fid tgt onMiss pdata ck st with
      | .ok _ st' => .ok (true, hnf) st'
      | .err e st' => .err e st'

/-! ## Branch crowns -/

/-- Result of a branch crown's body: the branch's `extra` container travels with
both outcomes because the `except TypeLoadError` wrapper resumes with the locals
as they were at the raise. -/
inductive BRes where
  | ok (extra : Option Value) (st : St)
  | err (e : Exc) (extra : Option Value) (st : St)

/-- Result of the fold over a branch's children: generation-time checked flag plus
the branch's `extra` container. -/
inductive FRes where
  | ok (ck : Bool) (extra : Option Value) (st : St)
  | err (e : Exc) (extra : Option Value) (st : St)

/-- Result of dispatching one child: updated (checked, has-not-found) flags and the
parent's `extra` container (which a branch child writes into at its key). -/
inductive DRes where
  | ok (ck : Bool) (hnf : Bool) (pextra : Option Value) (st : St)
  | err (e : Exc) (pextra : Option Value) (st : St)

/-- Python class test `isinstance(e, TypeLoadError)`: `ExcludedTypeLoadError`
subclasses `TypeLoadError` (class hierarchy of `adaptix.load_error`). -/
def isTLE : Exc → Bool
  | .load (.typeLoad _ _) _ => true
  | .load (.excludedType _) _ => true
  | _ => false

/-- `_maybe_wrap_with_type_load_error_catching`: under `ALL` at a non-root path the
branch body is wrapped in `try: ... except TypeLoadError as e: errors.append(e)`. -/
def wrapTLE (cfg : Cfg) (path : Path) (r : BRes) : BRes :=
  match r with
  | .err e extra st =>
    if cfg.dt == .all && !path.isEmpty && isTLE e then
      .ok extra { st with errors := st.errors ++ [e] }
    else .err e extra st
  | .ok extra st => .ok extra st

/-- Write a branch child's `extra` into the parent's container at the child's key
(`_gen_add_self_extra_to_parent_extra`). -/
def extraWrite (container : Option Value) (keyEl : PathElem) (v : Value) : Option Value :=
  match container, keyEl with
  | some (.vdict m), .key k => some (.vdict (upsert m k v))
  | some (.vlist xs), .idx i => some (.vlist (xs.set i v))
  | c, _ => c

/-- `ExtraCollect` harvesting at a dict branch:
`for key in set(data) - known_keys: extra[key] = data[key]`. -/
def collectUnknown (container : Value) (d : Value) (known : List String) : Value :=
  match container, d with
  | .vdict m, .vdict entries =>
    .vdict (entries.foldl (fun acc p => if known.contains p.1 then acc else upsert acc p.1 p.2) m)
  | c, _ => c

/-- The initial slot of a list branch's `extra` literal: `{}` below field and none
leaves, `None` below nested branches. -/
def listExtraSlot : InpCrown → Value
  | .field _ => .vdict []
  | .leafNone => .vdict []
  | _ => .vnone

/-- `_gen_forbidden_sequence_check`: `if type(data) is str: raise ExcludedTypeLoadError`. -/
def strictCheck (cfg : Cfg) (path : Path) (selfData : Option Value) (st : St) : Res Unit :=
  match selfData with
  | Option.none => .err (.unexpected .nameError []) st
  | some d =>
    match d with
    | .vstr s => raiseBadType cfg.dt path (.excludedType (.vstr s)) st
    | _ => .ok () st

/-- Tail of `_gen_dict_crown` inside the wrapper: the `isinstance` type check when
no child subscripted the data, then the extra-policy handling. -/
def dictFinish (cfg : Cfg) (path : Path) (selfData : Option Value) (known : List String)
    (pol : ExtraPolicy) (ck : Bool) (extra : Option Value) (st : St) : BRes :=
  let step1 : Res Unit :=
    if ck then .ok () st
    else
      match selfData with
      | Option.none => .err (.unexpected .nameError []) st
      | some d =>
        if d.isMapping then .ok () st
        else raiseBadType cfg.dt path (.typeLoad .mapping d) st
  match step1 with
  | .err e st' => .err e extra st'
  | .ok _ st' =>
    match pol with
    | .forbid =>
      match selfData with
      | Option.none => .err (.unexpected .nameError []) extra st'
      | some d =>
        let ex := setDiff d.keys known
        if ex.isEmpty then .ok extra st'
        else
          match emitLErr cfg.dt path (.extraFields ex d) st' with
          | .ok _ st2 => .ok extra st2
          | .err e st2 => .err e extra st2
    | .collect =>
      match selfData with
      | Option.none => .err (.unexpected .nameError []) extra st'
      | some d =>
        match extra with
        | some c => .ok (some (collectUnknown c d known)) st'
        | Option.none => .err (.unexpected .nameError []) extra st'
    | .skip => .ok extra st'

/-- Tail of `_gen_list_crown` inside the wrapper: the `isinstance` type check when
needed, then the length checks per extra policy. -/
def listFinish (cfg : Cfg) (path : Path) (selfData : Option Value) (expectedLen : Nat)
    (pol : ExtraPolicy) (ck : Bool) (extra : Option Value) (st : St) : BRes :=
  let step1 : Res Unit :=
    if ck then .ok () st
    else
      match selfData with
      | Option.none => .err (.unexpected .nameError []) st
      | some d =>
        if d.isSequence then .ok () st
        else raiseBadType cfg.dt path (.typeLoad .sequence d) st
  match step1 with
  | .err e st' => .err e extra st'
  | .ok _ st' =>
    match selfData with
    | Option.none => .err (.unexpected .nameError []) extra st'
    | some d =>
      let n := pyLen d
      let lenRes : Res Unit :=
        match pol with
        | .forbid =>
          if n ≠ expectedLen then
            if n < expectedLen then emitLErr cfg.dt path (.noRequiredItems expectedLen d) st'
            else emitLErr cfg.dt path (.extraItems expectedLen d) st'
          else .ok () st'
        | _ =>
          if n < expectedLen then emitLErr cfg.dt path (.noRequiredItems expectedLen d) st'
          else .ok () st'
      match lenRes with
      | .ok _ st2 => .ok extra st2
      | .err e st2 => .err e extra st2

mutual

/-- Dispatch one child crown (`_gen_crown_dispatch` plus the per-kind generators):
branch children first fetch their slice from the parent, then run their body and
finally record their `extra` into the parent's container. -/
def runDispatch (cfg : Cfg) (parentPath : Path) (pinfo : ParentInfo) (pdata : Option Value)
    (keyEl : PathElem) (c : InpCrown) (ck hnf : Bool) (pextra : Option Value) (st : St) :
    DRes :=
  match c with
  | .dict m pol =>
    match assignFromParent cfg parentPath keyEl pinfo pdata .branch ck hnf st with
    | .err e st' => .err e pextra st'
    | .ok a st' =>
      match runDictBody cfg (parentPath ++ [keyEl]) a.value m pol st' with
      | .ok childExtra st2 =>
        match childExtra with
        | some ev => .ok true a.hnf (extraWrite pextra keyEl ev) st2
        | Option.none => .ok true a.hnf pextra st2
      | .err e _ st2 => .err e pextra st2
  | .list m pol =>
    match assignFromParent cfg parentPath keyEl pinfo pdata .branch ck hnf st with
    | .err e st' => .err e pextra st'
    | .ok a st' =>
      match runListBody cfg (parentPath ++ [keyEl]) a.value m pol st' with
      | .ok childExtra st2 =>
        match childExtra with
        | some ev => .ok true a.hnf (extraWrite pextra keyEl ev) st2
        | Option.none => .ok true a.hnf pextra st2
      | .err e _ st2 => .err e pextra st2
  | .field fid =>
    match runFieldCrown cfg parentPath keyEl pinfo pdata fid ck hnf st with
    | .ok flags st' => .ok flags.1 flags.2 pextra st'
    | .err e st' => .err e pextra st'
  | .leafNone => .ok ck hnf pextra st
termination_by (sizeOf c, 2)

/-- Fold over a dict crown's children in declaration order. -/
def runDictEntries (cfg : Cfg) (path : Path) (selfData : Option Value) (req : List String)
    (entries : List (String × InpCrown)) (ck hnf : Bool) (extra : Option Value) (st : St) :
    FRes :=
  match entries with
  | [] => .ok ck extra st
  | (k, c) :: rest =>
    match runDispatch cfg path (.pdict req) selfData (.key k) c ck hnf extra st with
    | .err e extra' st' => .err e extra' st'
    | .ok ck' hnf' extra' st' =>
      runDictEntries cfg path selfData req rest ck' hnf' extra' st'
termination_by (sizeOf entries, 0)

/-- Fold over a list crown's children by index. -/
def runListEntries (cfg : Cfg) (path : Path) (selfData : Option Value) (total : Nat)
    (i : Nat) (entries : List InpCrown) (ck : Bool) (extra : Option Value) (st : St) :
    FRes :=
  match entries with
  | [] => .ok ck extra st
  | c :: rest =>
    match runDispatch cfg path (.plist total) selfData (.idx i) c ck false extra st with
    | .err e extra' st' => .err e extra' st'
    | .ok ck' _ extra' st' =>
      runListEntries cfg path selfData total (i + 1) rest ck' extra' st'
termination_by (sizeOf entries, 0)

/-- `_gen_dict_crown` after the parent-slice assignment: initialize `extra` and the
has-not-found flag, run the children, the type check and the extra policy inside the
`TypeLoadError` wrapper. -/
def runDictBody (cfg : Cfg) (path : Path) (selfData : Option Value)
    (map : List (String × InpCrown)) (pol : ExtraPolicy) (st : St) : BRes :=
  let known := map.map Prod.fst
  let req := requiredKeysOf cfg map
  let extra0 : Option Value := if cfg.canCollectExtra then some (.vdict []) else Option.none
  let raw : BRes :=
    match runDictEntries cfg path selfData req map false false extra0 st with
    | .err e extra st' => .err e extra st'
    | .ok ck extra st' => dictFinish cfg path selfData known pol ck extra st'
  wrapTLE cfg path raw
termination_by (sizeOf map, 1)

/-- `_gen_list_crown` after the parent-slice assignment: initialize the `extra`
literal, then (inside the wrapper) the strict-mode check, the children, the type
check and the length checks. -/
def runListBody (cfg : Cfg) (path : Path) (selfData : Option Value)
    (map : List InpCrown) (pol : ExtraPolicy) (st : St) : BRes :=
  let extra0 : Option Value :=
    if cfg.canCollectExtra then some (.vlist (map.map listExtraSlot)) else Option.none
  let raw : BRes :=
    match (if cfg.strictCoercion then strictCheck cfg path selfData st else .ok () st) with
    | .err e st' => .err e extra0 st'
    | .ok _ st' =>
      match runListEntries cfg path selfData map.length 0 map false extra0 st' with
      | .err e extra st2 => .err e extra st2
      | .ok ck extra st2 => listFinish cfg path selfData map.length pol ck extra st2
  wrapTLE cfg path raw
termination_by (sizeOf map, 1)

end

/-! ## Extra targets and the constructor call -/

/-- The `ExtraCollect` arm of `_gen_extra_targets_assigment`: every target field is
assigned from the root `extra` container (state is back at the root path, so emitted
errors carry an empty trail). -/
def targetsAssignAll (cfg : Cfg) (ids : List String) (ev : Value) (st : St) : Res Unit :=
  match ids with
  | [] => .ok () st
  | fid :: rest =>
    match runFieldAssign cfg [] fid ev (.tofield fid) st with
    | .ok _ st' => targetsAssignAll cfg rest ev st'
    | .err e st' => .err e st'

/-- The non-collect arm of `_gen_extra_targets_assigment`: only *required* targets
are assigned, each from a fresh empty dict. -/
def targetsAssignRequired (cfg : Cfg) (ids : List String) (st : St) : Res Unit :=
  match ids with
  | [] => .ok () st
  | fid :: rest =>
    if (cfg.fieldInfo fid).isRequired then
      match runFieldAssign cfg [] fid (.vdict []) (.tofield fid) st with
      | .ok _ st' => targetsAssignRequired cfg rest st'
      | .err e st' => .err e st'
    else targetsAssignRequired cfg rest st

/-- `_gen_extra_targets_assigment`: only applies to an `ExtraTargets` move; chooses
the arm by the *root crown's* extra policy. -/
def runExtraTargetsAssign (cfg : Cfg) (rootPolicy : ExtraPolicy) (rootExtra : Option Value)
    (st : St) : Res Unit :=
  match cfg.extraMove with
  | .targets ids =>
    if rootPolicy = .collect then
      match rootExtra with
      | some ev => targetsAssignAll cfg ids ev st
      | Option.none => .err (.unexpected .nameError []) st
    else targetsAssignRequired cfg ids st
  | _ => .ok () st

/-- The positional/keyword parameters of the constructor call
(`_gen_constructor_call`): every non-packed field's `f_<id>` variable in shape
order; an unbound variable is a `NameError` (`none`).  Parameter names are modelled
by field ids; `ParamKind` only affects Python call syntax. -/
def buildParams (cfg : Cfg) (fields : List InputField) (st : St) :
    Option (List (String × Value)) :=
  match fields with
  | [] => some []
  | f :: rest =>
    if cfg.isPacked f then buildParams cfg rest st
    else
      match alookup st.fields f.id with
      | some v => (buildParams cfg rest st).map (fun tl => (f.id, v) :: tl)
      | Option.none => Option.none

/-- The constructed record: non-packed parameters in shape order followed by the
`**packed_fields` entries. -/
def buildRecord (cfg : Cfg) (st : St) : Option (List (String × Value)) :=
  match buildParams cfg cfg.shapeFields st with
  | some entries => some (entries ++ st.packed)
  | Option.none => Option.none

/-- The extra policy at a branch crown's own node. -/
def crownPolicy : InpCrown → ExtraPolicy
  | .dict _ p => p
  | .list _ p => p
  | _ => .skip

/-- The whole generated loader (`produce_code`): run the root crown, assign extra
targets, raise the aggregate under `ALL` if errors were accumulated, then build the
record (merging `**kwargs` extra or applying the saturator when configured). -/
def loadModel (cfg : Cfg) (crown : InpCrown) (input : Value) : Except Exc Value :=
  let st0 : St := ⟨[], false, [], []⟩
  let body : BRes :=
    match crown with
    | .dict m pol => runDictBody cfg [] (some input) m pol st0
    | .list m pol => runListBody cfg [] (some input) m pol st0
    | _ => .err (.unexpected .pyTypeError []) Option.none st0
  match body with
  | .err e _ _ => .error e
  | .ok rootExtra st1 =>
    match runExtraTargetsAssign cfg (crownPolicy crown) rootExtra st1 with
    | .err e _ => .error e
    | .ok _ st2 =>
      if cfg.dt == .all && !st2.errors.isEmpty then
        .error (if st2.hasUnexpected then .excGroup st2.errors else .aggregate st2.errors)
      else
        match buildRecord cfg st2 with
        | Option.none => .error (.unexpected .nameError [])
        | some rec =>
          match cfg.extraMove with
          | .kwargs =>
            match rootExtra with
            | some (.vdict ees) => .ok (.vdict (rec ++ ees))
            | _ => .error (.unexpected .nameError [])
          | .saturate f =>
            match rootExtra with
            | some ev => .ok (f (.vdict rec) ev)
            | Option.none => .error (.unexpected .nameError [])
          | _ => .ok (.vdict rec)

/-! ## Dump direction

Extraction is embedded from `BuiltinOutputExtractionGen`
(`dataclass_factory_30/provider/model/output_extraction_gen.py`).  Accessors are
modelled as item accessors on a record keyed by field name, with a missing entry
playing the accessor's declared `access_error`.  Serializers are modelled as total
functions, which makes the `debug_path` `SerializeError` re-wrapping semantically
inert, so it is not represented. -/

/-- An output figure field (`OutputFieldRM`): name and required flag. -/
structure OutField where
  name : String
  isRequired : Bool
deriving Repr

/-- The output figure's `extra` handling (`None` / `ExtraTargets` / `ExtraExtract`). -/
inductive OutExtra where
  | noextra
  | targets (names : List String)
  | extract (f : Value → Value)

/-- Configuration of the dump-direction extraction generator. -/
structure DumpCfg where
  figureFields : List OutField
  serializers : String → Value → Value
  extra : OutExtra

/-- `_extra_targets`: the target names of an `ExtraTargets` move, else empty. -/
def DumpCfg.extraTargetNames (dcfg : DumpCfg) : List String :=
  match dcfg.extra with
  | .targets ns => ns
  | _ => []

/-- `name_to_fields[name]` (total, with a junk required field off-figure). -/
def figureField (dcfg : DumpCfg) (name : String) : OutField :=
  (dcfg.figureFields.find? (fun f => f.name == name)).getD ⟨name, true⟩

/-- Accessor application: item access on the record; `none` is the accessor's
`access_error` (caught only for optional fields). -/
def accessField (record : Value) (name : String) : Option Value :=
  match record with
  | .vdict m => alookup m name
  | _ => Option.none

/-- State of the extraction routine: the `binder.field` variables, the
`binder.opt_fields` dict, and the `binder.extra` slot. -/
structure DSt where
  dfields : List (String × Value)
  optFields : List (String × Value)
  extraOut : Option Value
deriving Repr

/-- The main loop of `generate_output_extraction`: extract every non-extra-target
field; a required field's access error propagates (`none`), an optional one is
skipped (`on_access_error="pass"`). -/
def extractRegular (dcfg : DumpCfg) (record : Value) (fs : List OutField) (dst : DSt) :
    Option DSt :=
  match fs with
  | [] => some dst
  | f :: rest =>
    if dcfg.extraTargetNames.contains f.name then extractRegular dcfg record rest dst
    else
      match accessField record f.name with
      | some v =>
        let w := dcfg.serializers f.name v
        if f.isRequired then
          extractRegular dcfg record rest { dst with dfields := upsert dst.dfields f.name w }
        else
          extractRegular dcfg record rest { dst with optFields := upsert dst.optFields f.name w }
      | Option.none =>
        if f.isRequired then Option.none
        else extractRegular dcfg record rest dst

/-- Which code path `_gen_extra_target_extraction` emits. -/
inductive ExtraPlan where
  | single (name : String)
  | fast (names : List String)
  | fallback (names : List String)
deriving DecidableEq, Repr

/-- The choice in `_gen_extra_target_extraction`: one target → copy it into the
extra slot; several targets → the `{**a, **b}` fast path if *all fields of the
figure* are required (`all(field.is_required for field in name_to_fields.values())`),
else the `extra_stack` fallback. -/
def extraTargetPlan (dcfg : DumpCfg) : ExtraPlan :=
  match dcfg.extraTargetNames with
  | [n] => .single n
  | ns =>
    if dcfg.figureFields.all (fun f => f.isRequired) then .fast ns
    else .fallback ns

/-- `{**a, **b, ...}` / the merge comprehension: key union, later entries override;
a non-mapping operand is a `TypeError` (`none`). -/
def mergeDicts (vs : List Value) : Option (List (String × Value)) :=
  vs.foldlM
    (fun acc v =>
      match v with
      | .vdict m => some (m.foldl (fun a p => upsert a p.1 p.2) acc)
      | _ => Option.none)
    []

/-- The fallback path's `extra_stack` collection: required sources must be present
(access error propagates), optional absent sources are passed over. -/
def collectStack (dcfg : DumpCfg) (record : Value) (ns : List String) :
    Option (List Value) :=
  match ns with
  | [] => some []
  | n :: rest =>
    match accessField record n with
    | some v => (collectStack dcfg record rest).map (dcfg.serializers n v :: ·)
    | Option.none =>
      if (figureField dcfg n).isRequired then Option.none
      else collectStack dcfg record rest

/-- The required-extraction values of the fast path, in target order. -/
def fastValues (dcfg : DumpCfg) (record : Value) (ns : List String) :
    Option (List Value) :=
  ns.mapM fun n => (accessField record n).map (dcfg.serializers n)

/-- `_gen_extra_target_extraction` executed. -/
def extractExtraTargets (dcfg : DumpCfg) (record : Value) (dst : DSt) : Option DSt :=
  match extraTargetPlan dcfg with
  | .single n =>
    match accessField record n with
    | some v => some { dst with extraOut := some (dcfg.serializers n v) }
    | Option.none =>
      if (figureField dcfg n).isRequired then Option.none
      else some { dst with extraOut := some (.vdict []) }
  | .fast ns =>
    match fastValues dcfg record ns with
    | some vs =>
      match mergeDicts vs with
      | some m => some { dst with extraOut := some (.vdict m) }
      | Option.none => Option.none
    | Option.none => Option.none
  | .fallback ns =>
    match collectStack dcfg record ns with
    | some stack =>
      match mergeDicts stack with
      | some m => some { dst with extraOut := some (.vdict m) }
      | Option.none => Option.none
    | Option.none => Option.none

/-- The whole extraction routine (`generate_output_extraction`):
regular fields, then the extra handling. -/
def extractAll (dcfg : DumpCfg) (record : Value) : Option DSt :=
  match extractRegular dcfg record dcfg.figureFields ⟨[], [], Option.none⟩ with
  | Option.none => Option.none
  | some dst1 =>
    match dcfg.extra with
    | .noextra => some dst1
    | .targets _ => extractExtraTargets dcfg record dst1
    | .extract f => some { dst1 with extraOut := some (f record) }

/-- The value an extracted field contributes to the output: required fields read
their `binder.field` variable, optional ones their `opt_fields` entry (`none` when
the accessor signalled absence). -/
def extractedValue (dcfg : DumpCfg) (dst : DSt) (n : String) : Option Value :=
  if (figureField dcfg n).isRequired then alookup dst.dfields n
  else alookup dst.optFields n

mutual

/-- Modelled from the spec: the dump-direction output-creation generator
(`BuiltinOutputCreationMaker` and the creation half of the dump compiler are not
under `src/`; only the extraction half is).  Per spec §4.4 each field's serialized
value is placed at the field's external path, and an optional field whose accessor
signalled "value absent" is omitted entirely rather than written as null. -/
def createOutput (dcfg : DumpCfg) (dst : DSt) : InpCrown → Option Value
  | .dict m _ => some (.vdict (createDictOut dcfg dst m))
  | .list m _ => some (.vlist (createListOut dcfg dst m))
  | .field n => extractedValue dcfg dst n
  | .leafNone => some .vnone

/-- Modelled from the spec: dict-output assembly; absent children are omitted. -/
def createDictOut (dcfg : DumpCfg) (dst : DSt) :
    List (String × InpCrown) → List (String × Value)
  | [] => []
  | (k, c) :: rest =>
    match createOutput dcfg dst c with
    | some v => (k, v) :: createDictOut dcfg dst rest
    | Option.none => createDictOut dcfg dst rest

/-- Modelled from the spec: list-output assembly; list positions cannot be
omitted, so an absent child yields a null slot. -/
def createListOut (dcfg : DumpCfg) (dst : DSt) : List InpCrown → List Value
  | [] => []
  | c :: rest =>
    (match createOutput dcfg dst c with
     | some v => v
     | Option.none => .vnone) :: createListOut dcfg dst rest

end

/-- The whole dump routine for a crown: extraction followed by creation.  `none`
is an uncaught dump-time exception (a required accessor failing). -/
def dumpModel (dcfg : DumpCfg) (crown : InpCrown) (record : Value) : Option Value :=
  match extractAll dcfg record with
  | some dst => createOutput dcfg dst crown
  | Option.none => Option.none

/-! ## Paths, retained positions and crown wellformedness -/

/-- Look a path up inside external data. -/
def valueAt (v : Value) : Path → Option Value
  | [] => some v
  | e :: p =>
    match subscript v e with
    | .found w => valueAt w p
    | _ => Option.none

mutual

/-- The positions retained by a crown on a given input: paths of field leaves whose
slice is actually present in the input, with the leaf's field id and raw value. -/
def retainedLeaves : InpCrown → Value → List (Path × String × Value)
  | .field f, v => [([], f, v)]
  | .leafNone, _ => []
  | .dict m _, d => retainedDict m d
  | .list m _, d => retainedList 0 m d

/-- Retained positions below a dict crown's children. -/
def retainedDict : List (String × InpCrown) → Value → List (Path × String × Value)
  | [], _ => []
  | (k, c) :: rest, d =>
    (match subscript d (.key k) with
     | .found v => (retainedLeaves c v).map fun t => (PathElem.key k :: t.1, t.2.1, t.2.2)
     | _ => []) ++ retainedDict rest d

/-- Retained positions below a list crown's children. -/
def retainedList (i : Nat) : List InpCrown → Value → List (Path × String × Value)
  | [], _ => []
  | c :: rest, d =>
    (match subscript d (.idx i) with
     | .found v => (retainedLeaves c v).map fun t => (PathElem.idx i :: t.1, t.2.1, t.2.2)
     | _ => []) ++ retainedList (i + 1) rest d

end

mutual

/-- All field ids occurring as leaves of a crown. -/
def crownFieldIds : InpCrown → List String
  | .field f => [f]
  | .leafNone => []
  | .dict m _ => crownFieldIdsD m
  | .list m _ => crownFieldIdsL m

/-- Field ids below a dict crown's children. -/
def crownFieldIdsD : List (String × InpCrown) → List String
  | [] => []
  | (_, c) :: rest => crownFieldIds c ++ crownFieldIdsD rest

/-- Field ids below a list crown's children. -/
def crownFieldIdsL : List InpCrown → List String
  | [] => []
  | c :: rest => crownFieldIds c ++ crownFieldIdsL rest

end

/-- A concrete configuration with a required extra target `t`, an optional extra
target `u` and identity loaders, used to witness `extra_targets_without_collect`. -/
def witnessTargetCfg : Cfg :=
  ⟨.disable, false, true,
   [⟨"a", true, .noDefault⟩, ⟨"t", true, .noDefault⟩, ⟨"u", false, .noDefault⟩],
   fun _ v => .ok v, .targets ["t", "u"]⟩

/-- An output figure whose two designated extra targets are both required while a
non-designated field is optional. -/
def fallbackFigureCfg : DumpCfg :=
  ⟨[⟨"a", false⟩, ⟨"t", true⟩, ⟨"u", true⟩], fun _ v => v, .targets ["t", "u"]⟩

/-- A crown that is a leaf (field or discard), not a nested branch. -/
def isLeafChild : InpCrown → Bool
  | .field _ => true
  | .leafNone => true
  | _ => false

/-- The struct trail attached to an exception (empty for the aggregates, which
never enter the accumulator). -/
def trailOf : Exc → Path
  | .load _ t => t
  | .unexpected _ t => t
  | _ => []

/-- The final state carried by a dispatch result. -/
def DRes.st : DRes → St
  | .ok _ _ _ st => st
  | .err _ _ st => st

/-- The final state carried by a fold result. -/
def FRes.st : FRes → St
  | .ok _ _ st => st
  | .err _ _ st => st

/-- The final state carried by a body result. -/
def BRes.st : BRes → St
  | .ok _ st => st
  | .err _ _ st => st

/-- The exception of an aborted result, if any. -/
def DRes.exc : DRes → Option Exc
  | .ok _ _ _ _ => Option.none
  | .err e _ _ => some e

/-- The exception of an aborted fold, if any. -/
def FRes.exc : FRes → Option Exc
  | .ok _ _ _ => Option.none
  | .err e _ _ => some e

/-- The exception of an aborted body, if any. -/
def BRes.exc : BRes → Option Exc
  | .ok _ _ => Option.none
  | .err e _ _ => some e

/-- The error accumulator only ever grows, and under `ALL` every error appended
while working below a path carries a trail at least that deep. -/
def ErrExt (p : Path) (st st' : St) : Prop :=
  ∃ Δ, st'.errors = st.errors ++ Δ ∧ ∀ e ∈ Δ, p.length ≤ (trailOf e).length

/-- An aborting exception visible at a path: if it is a `TypeLoadError` (the only
kind a branch wrapper catches), its trail is at least that deep. -/
def ExcBnd (p : Path) : Option Exc → Prop
  | Option.none => True
  | some e => isTLE e = true → p.length ≤ (trailOf e).length

/-- The final state carried by a step result. -/
def Res.st {α : Type} : Res α → St
  | .ok _ st => st
  | .err _ st => st

/-- The exception of an aborted step, if any. -/
def Res.exc {α : Type} : Res α → Option Exc
  | .ok _ _ => Option.none
  | .err e _ => some e

/-- Whether a dict child's generated code performs a parent-data lookup through the
not-found-handling path (`on_lookup_error is None` in `_gen_assigment_from_parent_data`):
nested branches and required field leaves do; optional field leaves use their own
extraction and `None` leaves emit no code at all. -/
def triggersLookup (cfg : Cfg) : InpCrown → Bool
  | .dict _ _ => true
  | .list _ _ => true
  | .field fid => (cfg.fieldInfo fid).isRequired
  | .leafNone => false

/-- An error that is a missing-required-fields record raised for a branch at exactly
this path. -/
def isNRFat (p : Path) : Exc → Bool
  | .load (.noRequiredFields _ _) t => decide (t = p)
  | _ => false

/-- Configuration for the C8 scenarios: `ALL` debug trail, identity leaf loaders,
no extra move. -/
def c8Cfg : Cfg :=
  ⟨.all, false, true, [], fun _ v => .ok v, .nomove⟩

/-- Whether a `LoadError` is anything but an `ExcludedTypeLoadError`. -/
def lerrFree : LErr → Bool
  | .excludedType _ => false
  | _ => true

mutual

/-- No `ExcludedTypeLoadError` anywhere inside an exception. -/
def excFree : Exc → Bool
  | .load le _ => lerrFree le
  | .unexpected _ _ => true
  | .aggregate cs => excFreeList cs
  | .excGroup cs => excFreeList cs

/-- No `ExcludedTypeLoadError` anywhere inside a list of exceptions. -/
def excFreeList : List Exc → Bool
  | [] => true
  | e :: r => excFree e && excFreeList r

end

/-- No `ExcludedTypeLoadError` in a raw leaf-loader exception. -/
def rawFree : RawExc → Bool
  | .lerr le => lerrFree le
  | .unexp _ => true

/-- No `ExcludedTypeLoadError` in an optional exception. -/
def excOptFree : Option Exc → Bool
  | Option.none => true
  | some e => excFree e

/-- The leaf loaders never raise an `ExcludedTypeLoadError`. -/
def LoadersFree (cfg : Cfg) : Prop :=
  ∀ f v r, cfg.loaders f v = .error r → rawFree r = true

/-- Configuration for the C5 counterexample: `DISABLE` debug trail, strict coercion
on, identity leaf loaders, no extra move. -/
def c5Cfg : Cfg :=
  ⟨.disable, true, true, [], fun _ v => .ok v, .nomove⟩

/-- Key lists without duplicates (dict literals cannot repeat keys). -/
def nodupKeys : List String → Bool
  | [] => true
  | k :: rest => !rest.contains k && nodupKeys rest

mutual

/-- Crown wellformedness: no dict node repeats a key. -/
def crownWF : InpCrown → Bool
  | .dict m _ => nodupKeys (m.map Prod.fst) && crownWFD m
  | .list m _ => crownWFL m
  | .field _ => true
  | .leafNone => true

/-- Wellformedness of a dict crown's children. -/
def crownWFD : List (String × InpCrown) → Bool
  | [] => true
  | (_, c) :: rest => crownWF c && crownWFD rest

/-- Wellformedness of a list crown's children. -/
def crownWFL : List InpCrown → Bool
  | [] => true
  | c :: rest => crownWF c && crownWFL rest

end

/-- Where the loaded value of a field ends up: the `packed_fields` dict for packed
fields, the `f_<id>` variable otherwise. -/
def assignedValue (cfg : Cfg) (st : St) (f : String) : Option Value :=
  if cfg.isPacked (cfg.fieldInfo f) then alookup st.packed f else alookup st.fields f

/-- A retained leaf's obligation after a successful load: its loader accepted the
raw slice and the result is stored at the field's target. -/
def LeafOK (cfg : Cfg) (st : St) (t : Path × String × Value) : Prop :=
  ∃ u, cfg.loaders t.2.1 t.2.2 = .ok u ∧ assignedValue cfg st t.2.1 = some u

/-- Both runtime value stores agree outside a set of field ids. -/
def FramePair (ids : List String) (st st' : St) : Prop :=
  ∀ g, g ∉ ids → alookup st'.fields g = alookup st.fields g
    ∧ alookup st'.packed g = alookup st.packed g

/-- Round-trip witness configuration: one required field `a`, identity loader. -/
def rtCfg : Cfg :=
  ⟨.disable, false, false, [⟨"a", true, .noDefault⟩], fun _ v => .ok v, .nomove⟩

/-- Round-trip witness dump configuration: field `a`, identity serializer. -/
def rtDcfg : DumpCfg := ⟨[⟨"a", true⟩], fun _ v => v, .noextra⟩

/-- Round-trip witness crown: external key `k` mapping to field `a`. -/
def rtCrown : InpCrown := .dict [("k", .field "a")] .skip

/-- Round-trip witness input. -/
def rtInput : Value := .vdict [("k", .vstr "x")]

/-! ## Basic lemmas about the value/state helpers -/

theorem alookup_upsert_self (m : List (String × Value)) (k : String) (v : Value) :
    alookup (upsert m k v) k = some v := by
  induction m with
  | nil => simp [upsert, alookup]
  | cons p rest ih =>
    by_cases h : p.1 = k
    · simp [upsert, h, alookup]
    · simp [upsert, h, alookup, ih]

theorem alookup_upsert_ne (m : List (String × Value)) (k k' : String) (v : Value)
    (h : k ≠ k') : alookup (upsert m k v) k' = alookup m k' := by
  induction m with
  | nil => simp [upsert, alookup, h]
  | cons p rest ih =>
    by_cases hp : p.1 = k
    · simp [upsert, hp, alookup, h]
    · simp [upsert, hp, alookup, ih]

theorem alookup_eq_none_iff (m : List (String × Value)) (k : String) :
    alookup m k = Option.none ↔ k ∉ m.map Prod.fst := by
  induction m with
  | nil => simp [alookup]
  | cons p rest ih =>
    by_cases hp : p.1 = k
    · simp [alookup, hp]
    · simp [alookup, hp, ih, Ne.symm hp]

theorem alookup_isSome_iff (m : List (String × Value)) (k : String) :
    (alookup m k).isSome = true ↔ k ∈ m.map Prod.fst := by
  induction m with
  | nil => simp [alookup]
  | cons p rest ih =>
    by_cases hp : p.1 = k
    · simp [alookup, hp]
    · simp [alookup, hp, ih, Ne.symm hp]

theorem mem_setDiff {xs ys : List String} {k : String} :
    k ∈ setDiff xs ys ↔ k ∈ xs ∧ k ∉ ys := by
  simp [setDiff]

/-! ## Extra-target assignment without a Collect policy (claim C10) -/

theorem targetsAssignRequired_spec (cfg : Cfg) (ids : List String) (st : St)
    (hok : ∀ fid ∈ ids, (cfg.fieldInfo fid).isRequired = true →
      ∃ w, cfg.loaders fid (.vdict []) = .ok w) :
    ∃ st', targetsAssignRequired cfg ids st = .ok () st' ∧
      st'.errors = st.errors ∧ st'.hasUnexpected = st.hasUnexpected ∧
      st'.packed = st.packed ∧
      (∀ fid w, fid ∈ ids → (cfg.fieldInfo fid).isRequired = true →
        cfg.loaders fid (.vdict []) = .ok w → alookup st'.fields fid = some w) ∧
      (∀ g, g ∉ ids → alookup st'.fields g = alookup st.fields g) ∧
      (∀ fid, fid ∈ ids → (cfg.fieldInfo fid).isRequired = false →
        alookup st'.fields fid = alookup st.fields fid) := by
  induction ids generalizing st with
  | nil =>
    exact ⟨st, rfl, rfl, rfl, rfl, by simp, fun g _ => rfl, by simp⟩
  | cons a rest ih =>
    by_cases hreq : (cfg.fieldInfo a).isRequired = true
    · obtain ⟨w, hw⟩ := hok a (by simp) hreq
      set st₁ := assignTo st (.tofield a) w with hst₁
      obtain ⟨st', hrun, herr, hunexp, hpk, hreqmem, hnotin, hoptmem⟩ :=
        ih st₁ (fun fid hf hr => hok fid (by simp [hf]) hr)
      refine ⟨st', ?_, herr, hunexp, hpk, ?_, ?_, ?_⟩
      · simp only [targetsAssignRequired, hreq, if_true, runFieldAssign, hw, hrun]
      · intro fid w' hmem hr hl
        rcases List.mem_cons.1 hmem with heq | hrest
        · subst heq
          by_cases hin : fid ∈ rest
          · exact hreqmem fid w' hin hr hl
          · have hww : w' = w := by rw [hl] at hw; exact Except.ok.inj hw
            rw [hnotin fid hin, hst₁]
            simp only [assignTo]
            rw [alookup_upsert_self]
            exact congrArg some hww.symm
        · exact hreqmem fid w' hrest hr hl
      · intro g hg
        have hga : g ≠ a := fun h => hg (h ▸ List.mem_cons_self a rest)
        have hgr : g ∉ rest := fun h => hg (List.mem_cons_of_mem a h)
        rw [hnotin g hgr, hst₁]
        simp only [assignTo]
        exact alookup_upsert_ne _ _ _ _ hga.symm
      · intro fid hmem hr
        rcases List.mem_cons.1 hmem with heq | hrest
        · subst heq; rw [hr] at hreq; exact absurd hreq (by simp)
        · have hfa : fid ≠ a := by
            intro h; rw [h] at hr; rw [hreq] at hr; simp at hr
          rw [hoptmem fid hrest hr, hst₁]
          simp only [assignTo]
          exact alookup_upsert_ne _ _ _ _ hfa.symm
    · have hreq' : (cfg.fieldInfo a).isRequired = false := by
        cases h : (cfg.fieldInfo a).isRequired
        · rfl
        · exact absurd h hreq
      obtain ⟨st', hrun, herr, hunexp, hpk, hreqmem, hnotin, hoptmem⟩ :=
        ih st (fun fid hf hr => hok fid (by simp [hf]) hr)
      refine ⟨st', ?_, herr, hunexp, hpk, ?_, ?_, ?_⟩
      · simp only [targetsAssignRequired, hreq', hrun, Bool.false_eq_true, if_false]
      · intro fid w' hmem hr hl
        rcases List.mem_cons.1 hmem with heq | hrest
        · subst heq; rw [hr] at hreq; exact absurd rfl hreq
        · exact hreqmem fid w' hrest hr hl
      · intro g hg
        exact hnotin g (fun h => hg (List.mem_cons_of_mem a h))
      · intro fid hmem hr
        rcases List.mem_cons.1 hmem with heq | hrest
        · subst heq
          by_cases hin : fid ∈ rest
          · exact hoptmem fid hin hr
          · exact hnotin fid hin
        · exact hoptmem fid hrest hr

/-- C10: when the record declares extra-target fields but the crown's root policy
is not Collect, `_gen_extra_targets_assigment` assigns every *required* extra
target by invoking its field loader on a fresh empty dict (so the loader never
sees input data), and leaves optional extra targets unassigned (their `f_<id>`
and `packed_fields` slots untouched); no errors are emitted. -/
theorem extra_targets_without_collect
    (cfg : Cfg) (ids : List String) (pol : ExtraPolicy) (rootExtra : Option Value) (st : St)
    (hmove : cfg.extraMove = .targets ids)
    (hpol : pol ≠ .collect)
    (hok : ∀ fid ∈ ids, (cfg.fieldInfo fid).isRequired = true →
      ∃ w, cfg.loaders fid (.vdict []) = .ok w) :
    ∃ st', runExtraTargetsAssign cfg pol rootExtra st = .ok () st' ∧
      st'.errors = st.errors ∧ st'.hasUnexpected = st.hasUnexpected ∧
      st'.packed = st.packed ∧
      (∀ fid w, fid ∈ ids → (cfg.fieldInfo fid).isRequired = true →
        cfg.loaders fid (.vdict []) = .ok w → alookup st'.fields fid = some w) ∧
      (∀ g, g ∉ ids → alookup st'.fields g = alookup st.fields g) ∧
      (∀ fid, fid ∈ ids → (cfg.fieldInfo fid).isRequired = false →
        alookup st'.fields fid = alookup st.fields fid) := by
  obtain ⟨st', hrun, h⟩ := targetsAssignRequired_spec cfg ids st hok
  refine ⟨st', ?_, h⟩
  simp only [runExtraTargetsAssign, hmove, if_neg hpol, hrun]

/-- Witness for `extra_targets_without_collect` at a concrete configuration. -/
theorem extra_targets_without_collect_witness :
    ∃ st', runExtraTargetsAssign witnessTargetCfg .skip Option.none ⟨[], false, [], []⟩ =
        .ok () st' ∧
      st'.errors = [] ∧ alookup st'.fields "t" = some (.vdict []) ∧
      alookup st'.fields "u" = Option.none := by
  obtain ⟨st', hrun, herr, _, _, hreqm, _, hopt⟩ :=
    extra_targets_without_collect witnessTargetCfg ["t", "u"] .skip Option.none
      ⟨[], false, [], []⟩ rfl (by simp) (fun fid _ _ => ⟨.vdict [], rfl⟩)
  refine ⟨st', hrun, herr, hreqm "t" (.vdict []) (by simp) rfl rfl, ?_⟩
  rw [hopt "u" (by simp) rfl]
  rfl

/-! ## Optional fields falling back to their default (claim C6) -/

/-- C6: an optional field leaf whose position is absent from the input gets its
declared default (literal value or factory result) assigned to its `f_<id>`
variable, with the state otherwise untouched (in particular no error is recorded
and no exception raised); this holds under every debug trail, for dict parents
under both generated extraction variants, and for list parents. -/
theorem optional_field_absent_uses_default
    (cfg : Cfg) (parentPath : Path) (pinfo : ParentInfo) (ck hnf : Bool) (st : St)
    (fid : String)
    (hopt : (cfg.fieldInfo fid).isRequired = false)
    (hdef : hasDeclaredDefault (cfg.fieldInfo fid).default = true)
    (hudo : cfg.useDefaultForOmitted = true) :
    (∀ (k : String) (dm : List (String × Value)), alookup dm k = Option.none →
      runFieldCrown cfg parentPath (.key k) pinfo (some (.vdict dm)) fid ck hnf st =
        .ok (true, hnf)
          { st with fields :=
              upsert st.fields fid (defaultValue (cfg.fieldInfo fid).default) })
    ∧ (∀ (i : Nat) (xs : List Value), xs.get? i = Option.none →
      runFieldCrown cfg parentPath (.idx i) pinfo (some (.vlist xs)) fid ck hnf st =
        .ok (true, hnf)
          { st with fields :=
              upsert st.fields fid (defaultValue (cfg.fieldInfo fid).default) }) := by
  have hpacked : cfg.isPacked (cfg.fieldInfo fid) = false := by
    simp [Cfg.isPacked, hudo, hdef]
  constructor
  · intro k dm hk
    cases ck with
    | true =>
      simp [runFieldCrown, hopt, hpacked, optFromMapping, pyContains, hk, assignTo]
    | false =>
      simp [runFieldCrown, hopt, hpacked, optFromMapping, hk, assignTo]
  · intro i xs hi
    rw [List.get?_eq_getElem?] at hi
    simp [runFieldCrown, hopt, hpacked, assignFromParent, subscript, hi, assignTo]

/-- Witness for `optional_field_absent_uses_default`: the `tags` field of the
spec's concrete scenario, defaulting to an empty list when absent. -/
theorem optional_field_absent_uses_default_witness :
    runFieldCrown
        ⟨.disable, false, true,
         [⟨"id", true, .noDefault⟩, ⟨"tags", false, .factory (.vlist [])⟩],
         fun _ v => .ok v, .nomove⟩
        [] (.key "tags") (.pdict ["id"]) (some (.vdict [("id", .vint 1)])) "tags"
        true false ⟨[], false, [], []⟩ =
      .ok (true, false) ⟨[], false, [("tags", .vlist [])], []⟩ := by
  have h := (optional_field_absent_uses_default
    ⟨.disable, false, true,
     [⟨"id", true, .noDefault⟩, ⟨"tags", false, .factory (.vlist [])⟩],
     fun _ v => .ok v, .nomove⟩
    [] (.pdict ["id"]) true false ⟨[], false, [], []⟩ "tags" rfl rfl rfl).1
    "tags" [("id", .vint 1)] rfl
  exact h

/-! ## Forbid policy at a dict branch (claim C4) -/

/-- C4 counterexample: under the `DISABLE` debug trail, a Forbid violation at the
nested branch `"x"` raises `ExtraFieldsError` with an *empty* trail, so the
failure's path does not identify the branch containing the extra data. -/
theorem dict_forbid_path_counterexample :
    loadModel ⟨.disable, false, true, [⟨"a", true, .noDefault⟩], fun _ v => .ok v, .nomove⟩
        (.dict [("x", .dict [("a", .field "a")] .forbid)] .skip)
        (.vdict [("x", .vdict [("a", .vint 1), ("b", .vint 2)])]) =
      .error (.load (.extraFields ["b"] (.vdict [("a", .vint 1), ("b", .vint 2)])) []) ∧
    ([] : Path) ≠ [PathElem.key "x"] := by
  refine ⟨?_, by simp⟩
  simp [loadModel, runDictBody, runListBody, runDictEntries, runListEntries, runDispatch,
    runFieldCrown, optFromMapping, assignFromParent, runFieldAssign, emitRaw, emitLErr,
    unexpCatch, raiseBadType, dictFinish, listFinish, wrapTLE, isTLE, strictCheck,
    subscript, alookup, upsert, assignTo, pyContains, setDiff, requiredKeysOf,
    Cfg.fieldInfo, Cfg.canCollectExtra, Cfg.extraTargets, Cfg.isPacked, hasDeclaredDefault,
    defaultValue, parentNotFoundErr, badTypeErrOf, trailFor, Value.keys, Value.isMapping,
    Value.isSequence, pyLen, runExtraTargetsAssign, targetsAssignRequired, targetsAssignAll,
    buildRecord, buildParams, crownPolicy, extraWrite, collectUnknown, listExtraSlot, rawToExc]

/-- C4 (amended): at a dict branch with the Forbid policy whose children completed
without recording errors, an input mapping with keys outside the branch's known
key set makes the branch fail with `ExtraFieldsError` carrying exactly the
offending keys (`set(data) - known_keys`); under `FIRST` the error's trail is the
branch's path (empty at the root) and under `ALL` it is appended to the
accumulator with that trail, while under `DISABLE` the same error carries no
trail. -/
theorem dict_forbid_extra_keys
    (cfg : Cfg) (path : Path) (map : List (String × InpCrown)) (st stf : St)
    (ck : Bool) (extra : Option Value) (dm : List (String × Value))
    (hfold : runDictEntries cfg path (some (.vdict dm)) (requiredKeysOf cfg map) map
        false false (if cfg.canCollectExtra then some (.vdict []) else Option.none) st =
      .ok ck extra stf)
    (hex : setDiff (Value.keys (.vdict dm)) (map.map Prod.fst) ≠ []) :
    runDictBody cfg path (some (.vdict dm)) map .forbid st =
      (match cfg.dt with
       | .all => .ok extra
           { stf with errors := stf.errors ++
               [.load (.extraFields (setDiff (Value.keys (.vdict dm)) (map.map Prod.fst))
                   (.vdict dm)) path] }
       | .first =>
           .err (.load (.extraFields (setDiff (Value.keys (.vdict dm)) (map.map Prod.fst))
               (.vdict dm)) path) extra stf
       | .disable =>
           .err (.load (.extraFields (setDiff (Value.keys (.vdict dm)) (map.map Prod.fst))
               (.vdict dm)) []) extra stf) := by
  have hne : (setDiff (Value.keys (.vdict dm)) (map.map Prod.fst)).isEmpty = false := by
    cases h : setDiff (Value.keys (.vdict dm)) (map.map Prod.fst) with
    | nil => exact absurd h hex
    | cons a l => rfl
  cases hdt : cfg.dt with
  | all =>
    cases ck with
    | true => simp [runDictBody, hfold, dictFinish, hne, emitLErr, hdt, wrapTLE, isTLE]
    | false => simp [runDictBody, hfold, dictFinish, Value.isMapping, hne, emitLErr, hdt,
        wrapTLE, isTLE]
  | first =>
    cases ck with
    | true => simp [runDictBody, hfold, dictFinish, hne, emitLErr, hdt, wrapTLE, isTLE]
    | false => simp [runDictBody, hfold, dictFinish, Value.isMapping, hne, emitLErr, hdt,
        wrapTLE, isTLE]
  | disable =>
    cases ck with
    | true => simp [runDictBody, hfold, dictFinish, hne, emitLErr, hdt, wrapTLE, isTLE]
    | false => simp [runDictBody, hfold, dictFinish, Value.isMapping, hne, emitLErr, hdt,
        wrapTLE, isTLE]

/-- Witness for `dict_forbid_extra_keys`: the root branch of the spec's concrete
Forbid scenario, one extra key `"b"`. -/
theorem dict_forbid_extra_keys_witness :
    runDictBody ⟨.disable, false, true, [⟨"a", true, .noDefault⟩], fun _ v => .ok v, .nomove⟩
        [] (some (.vdict [("a", .vint 1), ("b", .vint 2)])) [("a", .field "a")] .forbid
        ⟨[], false, [], []⟩ =
      .err (.load (.extraFields ["b"] (.vdict [("a", .vint 1), ("b", .vint 2)])) [])
        Option.none ⟨[], false, [("a", .vint 1)], []⟩ := by
  have h := dict_forbid_extra_keys
    ⟨.disable, false, true, [⟨"a", true, .noDefault⟩], fun _ v => .ok v, .nomove⟩
    [] [("a", .field "a")] ⟨[], false, [], []⟩ ⟨[], false, [("a", .vint 1)], []⟩
    true Option.none [("a", .vint 1), ("b", .vint 2)]
    (by simp [runDictEntries, runDispatch, runFieldCrown, assignFromParent, runFieldAssign,
      subscript, alookup, assignTo, upsert, requiredKeysOf, Cfg.fieldInfo,
      Cfg.canCollectExtra])
    (by intro h; simp [setDiff, Value.keys] at h)
  exact h

/-! ## Dump-direction unknown-data extraction (claim C7) -/

/-- C7 counterexample: both designated extra targets of `fallbackFigureCfg` are
required, yet the generator picks the fallback path, because the fast-path test
`all(field.is_required for field in name_to_fields.values())` ranges over *all*
fields of the figure, and the non-designated field `"a"` is optional. -/
theorem extra_fast_path_counterexample :
    (figureField fallbackFigureCfg "t").isRequired = true ∧
    (figureField fallbackFigureCfg "u").isRequired = true ∧
    fallbackFigureCfg.extraTargetNames = ["t", "u"] ∧
    extraTargetPlan fallbackFigureCfg = .fallback ["t", "u"] :=
  ⟨rfl, rfl, rfl, rfl⟩

/-- C7 (amended): dump-side unknown-data extraction.  A single designated field is
copied (through its serializer) straight into the unknown-data slot, with an
absent optional source yielding an empty dict; several designated fields are
merged by key union via the fast path exactly when *every field of the figure*
(not merely every designated one) is required; otherwise the fallback path
collects the present sources — skipping absent optional ones, with an absent
required source still an error — and merges them by the same key union. -/
theorem extra_target_extraction_modes :
    (∀ (dcfg : DumpCfg) (rec : Value) (n : String) (dst : DSt),
      dcfg.extraTargetNames = [n] →
      (∀ v, accessField rec n = some v →
        extractExtraTargets dcfg rec dst =
          some { dst with extraOut := some (dcfg.serializers n v) }) ∧
      (accessField rec n = Option.none → (figureField dcfg n).isRequired = false →
        extractExtraTargets dcfg rec dst = some { dst with extraOut := some (.vdict []) }) ∧
      (accessField rec n = Option.none → (figureField dcfg n).isRequired = true →
        extractExtraTargets dcfg rec dst = Option.none))
    ∧ (∀ (dcfg : DumpCfg) (rec : Value) (ns : List String) (dst : DSt),
      dcfg.extraTargetNames = ns → ns.length ≠ 1 →
      (dcfg.figureFields.all fun f => f.isRequired) = true →
      extraTargetPlan dcfg = .fast ns ∧
      (∀ vs m, fastValues dcfg rec ns = some vs → mergeDicts vs = some m →
        extractExtraTargets dcfg rec dst = some { dst with extraOut := some (.vdict m) }))
    ∧ (∀ (dcfg : DumpCfg) (rec : Value) (ns : List String) (dst : DSt),
      dcfg.extraTargetNames = ns → ns.length ≠ 1 →
      (dcfg.figureFields.all fun f => f.isRequired) = false →
      extraTargetPlan dcfg = .fallback ns ∧
      (∀ stack m, collectStack dcfg rec ns = some stack → mergeDicts stack = some m →
        extractExtraTargets dcfg rec dst = some { dst with extraOut := some (.vdict m) }))
    ∧ (∀ (dcfg : DumpCfg) (rec : Value) (n : String) (rest : List String),
      (figureField dcfg n).isRequired = false → accessField rec n = Option.none →
      collectStack dcfg rec (n :: rest) = collectStack dcfg rec rest) := by
  refine ⟨?_, ?_, ?_, ?_⟩
  · intro dcfg rec n dst hn
    refine ⟨?_, ?_, ?_⟩
    · intro v hv
      simp [extractExtraTargets, extraTargetPlan, hn, hv]
    · intro hv hreq
      simp [extractExtraTargets, extraTargetPlan, hn, hv, hreq]
    · intro hv hreq
      simp [extractExtraTargets, extraTargetPlan, hn, hv, hreq]
  · intro dcfg rec ns dst hn hlen hall
    have hplan : extraTargetPlan dcfg = .fast ns := by
      rw [extraTargetPlan, hn]
      match ns, hlen with
      | [], _ => simp [hall]
      | a :: b :: l, _ => simp [hall]
      | [a], h => exact absurd rfl h
    refine ⟨hplan, ?_⟩
    intro vs m hvs hm
    simp [extractExtraTargets, hplan, hvs, hm]
  · intro dcfg rec ns dst hn hlen hall
    have hplan : extraTargetPlan dcfg = .fallback ns := by
      rw [extraTargetPlan, hn]
      match ns, hlen with
      | [], _ => simp [hall]
      | a :: b :: l, _ => simp [hall]
      | [a], h => exact absurd rfl h
    refine ⟨hplan, ?_⟩
    intro stack m hs hm
    simp [extractExtraTargets, hplan, hs, hm]
  · intro dcfg rec n rest hreq hacc
    simp [collectStack, hacc, hreq]

/-- Witness for `extra_target_extraction_modes` on `fallbackFigureCfg` and a
concrete record with both sources present. -/
theorem extra_target_extraction_modes_witness :
    extraTargetPlan fallbackFigureCfg = .fallback ["t", "u"] ∧
    extractExtraTargets fallbackFigureCfg
        (.vdict [("t", .vdict [("z", .vint 9)]), ("u", .vdict [("w", .vint 8)])])
        ⟨[], [], Option.none⟩ =
      some ⟨[], [], some (.vdict [("z", .vint 9), ("w", .vint 8)])⟩ := by
  have h := extra_target_extraction_modes.2.2.1 fallbackFigureCfg
    (.vdict [("t", .vdict [("z", .vint 9)]), ("u", .vdict [("w", .vint 8)])])
    ["t", "u"] ⟨[], [], Option.none⟩ rfl (by simp) rfl
  exact ⟨h.1, h.2 [.vdict [("z", .vint 9)], .vdict [("w", .vint 8)]]
    [("z", .vint 9), ("w", .vint 8)] rfl rfl⟩

/-! ## Error aggregation under the ALL debug trail (claim C2) -/

/-- C2 counterexample: an unexpected exception raised by a *leaf converter* under
the `ALL` trail is captured and path-tagged, but the final failure is a plain
`AggregateLoadError` — `_gen_field_assigment` never sets `has_unexpected_error`,
so the aggregate is not the distinctly-flagged exception group the claim
promises. -/
theorem converter_bug_not_flagged_counterexample :
    loadModel ⟨.all, false, true, [⟨"a", true, .noDefault⟩],
        fun _ _ => .error (.unexp (.bug 7)), .nomove⟩
      (.dict [("k", .field "a")] .skip) (.vdict [("k", .vint 1)]) =
      .error (.aggregate [.unexpected (.bug 7) [.key "k"]]) ∧
    (∀ causes, Exc.aggregate [.unexpected (.bug 7) [.key "k"]] ≠ .excGroup causes) := by
  refine ⟨?_, by simp⟩
  simp [loadModel, runDictBody, runListBody, runDictEntries, runListEntries, runDispatch,
    runFieldCrown, optFromMapping, assignFromParent, runFieldAssign, emitRaw, emitLErr,
    unexpCatch, raiseBadType, dictFinish, listFinish, wrapTLE, isTLE, strictCheck,
    subscript, alookup, upsert, assignTo, pyContains, setDiff, requiredKeysOf,
    Cfg.fieldInfo, Cfg.canCollectExtra, Cfg.extraTargets, Cfg.isPacked, hasDeclaredDefault,
    defaultValue, parentNotFoundErr, badTypeErrOf, trailFor, Value.keys, Value.isMapping,
    Value.isSequence, pyLen, runExtraTargetsAssign, targetsAssignRequired, targetsAssignAll,
    buildRecord, buildParams, crownPolicy, extraWrite, collectUnknown, listExtraSlot, rawToExc]

/-- C2 (amended): under the `ALL` trail (1) a leaf-converter failure — recognized
`LoadError` or arbitrary unexpected exception alike — is caught independently,
path-tagged and appended to the accumulator, after which execution continues and
`has_unexpected_error` is left untouched; (2) an unexpected exception raised while
accessing parent data is appended path-tagged *and* sets `has_unexpected_error`,
which turns the final aggregate into the exception group; (3) two failing sibling
leaves are both evaluated and their errors raised together at the end as one
aggregate failure. -/
theorem all_trail_aggregation
    (cfg : Cfg) (hall : cfg.dt = .all) :
    (∀ (path : Path) (fid : String) (arg : Value) (tgt : Target) (st : St) (r : RawExc),
      cfg.loaders fid arg = .error r →
      runFieldAssign cfg path fid arg tgt st =
        .ok () { st with errors := st.errors ++ [rawToExc r path] })
    ∧ (∀ (path : Path) (u : UTag) (st : St),
      unexpCatch cfg.dt path u st =
        .ok () { st with errors := st.errors ++ [.unexpected u path], hasUnexpected := true })
    ∧ (∀ (k1 k2 f1 f2 : String) (v1 v2 : Value) (r1 r2 : RawExc),
      cfg.extraMove = .nomove → k1 ≠ k2 →
      (cfg.fieldInfo f1).isRequired = true → (cfg.fieldInfo f2).isRequired = true →
      cfg.loaders f1 v1 = .error r1 → cfg.loaders f2 v2 = .error r2 →
      loadModel cfg (.dict [(k1, .field f1), (k2, .field f2)] .skip)
          (.vdict [(k1, v1), (k2, v2)]) =
        .error (.aggregate [rawToExc r1 [.key k1], rawToExc r2 [.key k2]])) := by
  refine ⟨?_, ?_, ?_⟩
  · intro path fid arg tgt st r hr
    simp [runFieldAssign, hr, emitRaw, hall]
  · intro path u st
    simp [unexpCatch, hall]
  · intro k1 k2 f1 f2 v1 v2 r1 r2 hmove hk hf1 hf2 hl1 hl2
    simp [loadModel, runDictBody, runDictEntries, runDispatch, runFieldCrown,
      assignFromParent, runFieldAssign, emitRaw, dictFinish, wrapTLE,
      subscript, alookup, hk, hf1, hf2, hl1, hl2, hall, hmove, requiredKeysOf,
      Cfg.canCollectExtra, runExtraTargetsAssign, Value.isMapping, trailFor,
      rawToExc]

/-- Witness for `all_trail_aggregation` on a concrete two-field record whose
loaders both fail (one with a `LoadError`, one with a converter bug). -/
theorem all_trail_aggregation_witness :
    loadModel ⟨.all, false, true,
        [⟨"a", true, .noDefault⟩, ⟨"b", true, .noDefault⟩],
        (fun f _ => if f == "a" then .error (.lerr (.leafError 3))
          else .error (.unexp (.bug 7))), .nomove⟩
      (.dict [("x", .field "a"), ("y", .field "b")] .skip)
      (.vdict [("x", .vint 1), ("y", .vint 2)]) =
      .error (.aggregate [.load (.leafError 3) [.key "x"],
        .unexpected (.bug 7) [.key "y"]]) := by
  have h := (all_trail_aggregation ⟨.all, false, true,
      [⟨"a", true, .noDefault⟩, ⟨"b", true, .noDefault⟩],
      (fun f _ => if f == "a" then .error (.lerr (.leafError 3))
        else .error (.unexp (.bug 7))), .nomove⟩ rfl).2.2
    "x" "y" "a" "b" (.vint 1) (.vint 2) (.lerr (.leafError 3)) (.unexp (.bug 7))
    rfl (by simp) rfl rfl rfl rfl
  exact h

/-! ## Missing required fields (claim C3) -/

/-- C3 counterexample: under the `None` (`DISABLE`) level, a required field `"f"`
at the nested path `["x", "a"]` that is absent from the input produces a
`NoRequiredFieldsError` with an *empty* trail: the failure carries only the
missing key set `["a"]` and no path annotation, so it does not reference the
field's path. -/
theorem missing_required_disable_counterexample :
    loadModel ⟨.disable, false, true, [⟨"f", true, .noDefault⟩], fun _ v => .ok v, .nomove⟩
        (.dict [("x", .dict [("a", .field "f")] .skip)] .skip)
        (.vdict [("x", .vdict [])]) =
      .error (.load (.noRequiredFields ["a"] (.vdict [])) []) ∧
    ([] : Path) ≠ [PathElem.key "x", PathElem.key "a"] := by
  refine ⟨?_, by simp⟩
  simp [loadModel, runDictBody, runListBody, runDictEntries, runListEntries, runDispatch,
    runFieldCrown, optFromMapping, assignFromParent, runFieldAssign, emitRaw, emitLErr,
    unexpCatch, raiseBadType, dictFinish, listFinish, wrapTLE, isTLE, strictCheck,
    subscript, alookup, upsert, assignTo, pyContains, setDiff, requiredKeysOf,
    Cfg.fieldInfo, Cfg.canCollectExtra, Cfg.extraTargets, Cfg.isPacked, hasDeclaredDefault,
    defaultValue, parentNotFoundErr, badTypeErrOf, trailFor, Value.keys, Value.isMapping,
    Value.isSequence, pyLen, runExtraTargetsAssign, targetsAssignRequired, targetsAssignAll,
    buildRecord, buildParams, crownPolicy, extraWrite, collectUnknown, listExtraSlot, rawToExc]

/-- C3 (amended): a required field leaf absent from its dict parent's data fails
the load; under `FIRST` the raised `NoRequiredFieldsError` carries the parent
branch's path as its trail and the missing key in its field set — together exactly
the field's path; under `None` (`DISABLE`) the same error is raised with the
missing key set but no trail; under `ALL` (branch flag clear) it is appended with
the parent trail and the load continues; and two independent missing required
fields in sibling branches both appear, each with its own branch trail, in the
final aggregate error's cause list. -/
theorem missing_required_field_paths (cfg : Cfg) :
    (∀ (p : Path) (req : List String) (dm : List (String × Value)) (k fid : String)
        (ck hnf : Bool) (extra : Option Value) (st : St),
      (cfg.fieldInfo fid).isRequired = true → alookup dm k = Option.none →
      (cfg.dt = .first →
        runDispatch cfg p (.pdict req) (some (.vdict dm)) (.key k) (.field fid)
            ck hnf extra st =
          .err (.load (.noRequiredFields (setDiff req (Value.keys (.vdict dm)))
              (.vdict dm)) p) extra st) ∧
      (cfg.dt = .disable →
        runDispatch cfg p (.pdict req) (some (.vdict dm)) (.key k) (.field fid)
            ck hnf extra st =
          .err (.load (.noRequiredFields (setDiff req (Value.keys (.vdict dm)))
              (.vdict dm)) []) extra st) ∧
      (cfg.dt = .all →
        runDispatch cfg p (.pdict req) (some (.vdict dm)) (.key k) (.field fid)
            ck false extra st =
          .ok true true extra
            { st with errors := st.errors ++
                [.load (.noRequiredFields (setDiff req (Value.keys (.vdict dm)))
                    (.vdict dm)) p] }) ∧
      (k ∈ req → k ∈ setDiff req (Value.keys (.vdict dm))))
    ∧ (∀ (k1 k2 a1 a2 f1 f2 : String) (m1 m2 : List (String × Value)),
      cfg.dt = .all → cfg.extraMove = .nomove → k1 ≠ k2 →
      (cfg.fieldInfo f1).isRequired = true → (cfg.fieldInfo f2).isRequired = true →
      alookup m1 a1 = Option.none → alookup m2 a2 = Option.none →
      loadModel cfg
          (.dict [(k1, .dict [(a1, .field f1)] .skip),
                  (k2, .dict [(a2, .field f2)] .skip)] .skip)
          (.vdict [(k1, .vdict m1), (k2, .vdict m2)]) =
        .error (.aggregate
          [.load (.noRequiredFields [a1] (.vdict m1)) [.key k1],
           .load (.noRequiredFields [a2] (.vdict m2)) [.key k2]])) := by
  constructor
  · intro p req dm k fid ck hnf extra st hreq hk
    refine ⟨?_, ?_, ?_, ?_⟩
    · intro hdt
      simp [runDispatch, runFieldCrown, hreq, assignFromParent, subscript, hk, hdt,
        parentNotFoundErr]
    · intro hdt
      simp [runDispatch, runFieldCrown, hreq, assignFromParent, subscript, hk, hdt,
        parentNotFoundErr]
    · intro hdt
      simp [runDispatch, runFieldCrown, hreq, assignFromParent, subscript, hk, hdt,
        parentNotFoundErr]
    · intro hmem
      exact mem_setDiff.2 ⟨hmem, by
        simpa [Value.keys] using (alookup_eq_none_iff dm k).1 hk⟩
  · intro k1 k2 a1 a2 f1 f2 m1 m2 hall hmove hk hf1 hf2 ha1 ha2
    have hc1 : (m1.map Prod.fst).contains a1 = false := by
      have := (alookup_eq_none_iff m1 a1).1 ha1
      simpa using this
    have hc2 : (m2.map Prod.fst).contains a2 = false := by
      have := (alookup_eq_none_iff m2 a2).1 ha2
      simpa using this
    simp [loadModel, runDictBody, runDictEntries, runDispatch, runFieldCrown,
      assignFromParent, subscript, alookup, hk, hf1, hf2, ha1, ha2, hall, hmove,
      requiredKeysOf, Cfg.canCollectExtra, runExtraTargetsAssign, Value.isMapping,
      dictFinish, wrapTLE, parentNotFoundErr, setDiff, Value.keys, hc1, hc2]
    constructor
    · intro x hx
      exact ((alookup_eq_none_iff m1 a1).1 ha1) (List.mem_map_of_mem Prod.fst hx)
    · intro x hx
      exact ((alookup_eq_none_iff m2 a2).1 ha2) (List.mem_map_of_mem Prod.fst hx)

/-- Witness for `missing_required_field_paths`: the spec's `full_name` field
absent at the root under `FIRST`, and the two-sibling-branches scenario under
`ALL`. -/
theorem missing_required_field_paths_witness :
    runDispatch ⟨.first, false, true, [⟨"name", true, .noDefault⟩], fun _ v => .ok v, .nomove⟩
        [] (.pdict ["id", "full_name"]) (some (.vdict [("id", .vint 1)]))
        (.key "full_name") (.field "name") true false Option.none ⟨[], false, [], []⟩ =
      .err (.load (.noRequiredFields ["full_name"] (.vdict [("id", .vint 1)])) [])
        Option.none ⟨[], false, [], []⟩ ∧
    loadModel ⟨.all, false, true,
        [⟨"f1", true, .noDefault⟩, ⟨"f2", true, .noDefault⟩], fun _ v => .ok v, .nomove⟩
        (.dict [("x", .dict [("a", .field "f1")] .skip),
                ("y", .dict [("b", .field "f2")] .skip)] .skip)
        (.vdict [("x", .vdict []), ("y", .vdict [])]) =
      .error (.aggregate
        [.load (.noRequiredFields ["a"] (.vdict [])) [.key "x"],
         .load (.noRequiredFields ["b"] (.vdict [])) [.key "y"]]) := by
  constructor
  · have h := ((missing_required_field_paths
      ⟨.first, false, true, [⟨"name", true, .noDefault⟩], fun _ v => .ok v, .nomove⟩).1
      [] ["id", "full_name"] [("id", .vint 1)] "full_name" "name" true false
      Option.none ⟨[], false, [], []⟩ rfl rfl).1 rfl
    simpa [setDiff, Value.keys] using h
  · exact (missing_required_field_paths
      ⟨.all, false, true, [⟨"f1", true, .noDefault⟩, ⟨"f2", true, .noDefault⟩],
        fun _ v => .ok v, .nomove⟩).2
      "x" "y" "a" "b" "f1" "f2" [] [] rfl rfl (by simp) rfl rfl rfl rfl

/-! ## None leaves in list crowns (claim C9) -/

theorem subscript_vlist (xs : List Value) (i : Nat) :
    subscript (.vlist xs) (.idx i) =
      (match xs.get? i with
       | some v => Sub.found v
       | Option.none => Sub.missing) := rfl

/-- Under `DISABLE`, folding leaf-only children of a list crown over a sequence
either completes or aborts with the crown's missing-required-items error. -/
theorem listEntries_leaves_short
    (cfg : Cfg) (path : Path) (xs : List Value) (total : Nat)
    (hdt : cfg.dt = .disable)
    (htot : ∀ f v, ∃ w, cfg.loaders f v = .ok w)
    (entries : List InpCrown) :
    ∀ (i : Nat) (ck : Bool) (extra : Option Value) (st : St),
      (∀ c ∈ entries, isLeafChild c = true) →
      (∃ ck' extra' st',
        runListEntries cfg path (some (.vlist xs)) total i entries ck extra st =
          .ok ck' extra' st') ∨
      (∃ extra' st',
        runListEntries cfg path (some (.vlist xs)) total i entries ck extra st =
          .err (.load (.noRequiredItems total (.vlist xs)) []) extra' st') := by
  induction entries with
  | nil =>
    intro i ck extra st _
    exact Or.inl ⟨ck, extra, st, by simp [runListEntries]⟩
  | cons c rest ih =>
    intro i ck extra st hleaf
    have hc := hleaf c (by simp)
    have hrest : ∀ c' ∈ rest, isLeafChild c' = true := fun c' h => hleaf c' (by simp [h])
    match c, hc with
    | .leafNone, _ =>
      have : runListEntries cfg path (some (.vlist xs)) total i (.leafNone :: rest) ck extra st =
          runListEntries cfg path (some (.vlist xs)) total (i + 1) rest ck extra st := by
        simp [runListEntries, runDispatch]
      rw [this]
      exact ih (i + 1) ck extra st hrest
    | .field fid, _ =>
      cases hreq : (cfg.fieldInfo fid).isRequired with
      | true =>
        cases hx : xs[i]? with
        | some v =>
          obtain ⟨w, hw⟩ := htot fid v
          have : runListEntries cfg path (some (.vlist xs)) total i (.field fid :: rest)
              ck extra st =
            runListEntries cfg path (some (.vlist xs)) total (i + 1) rest true extra
              (assignTo st (.tofield fid) w) := by
            simp [runListEntries, runDispatch, runFieldCrown, hreq, assignFromParent,
              subscript, hx, runFieldAssign, hw]
          rw [this]
          exact ih (i + 1) true extra _ hrest
        | none =>
          refine Or.inr ⟨extra, st, ?_⟩
          simp [runListEntries, runDispatch, runFieldCrown, hreq, assignFromParent,
            subscript, hx, hdt, parentNotFoundErr]
      | false =>
        cases hx : xs[i]? with
        | some v =>
          obtain ⟨w, hw⟩ := htot fid v
          have : runListEntries cfg path (some (.vlist xs)) total i (.field fid :: rest)
              ck extra st =
            runListEntries cfg path (some (.vlist xs)) total (i + 1) rest true extra
              (assignTo st
                (if cfg.isPacked (cfg.fieldInfo fid) then Target.topacked fid
                 else Target.tofield fid) w) := by
            simp [runListEntries, runDispatch, runFieldCrown, hreq, assignFromParent,
              subscript, hx, runFieldAssign, hw]
          rw [this]
          exact ih (i + 1) true extra _ hrest
        | none =>
          have : runListEntries cfg path (some (.vlist xs)) total i (.field fid :: rest)
              ck extra st =
            runListEntries cfg path (some (.vlist xs)) total (i + 1) rest true extra
              (if cfg.isPacked (cfg.fieldInfo fid) then st
               else assignTo st (.tofield fid) (defaultValue (cfg.fieldInfo fid).default)) := by
            cases hp : cfg.isPacked (cfg.fieldInfo fid) with
            | true =>
              simp [runListEntries, runDispatch, runFieldCrown, hreq, hp, assignFromParent,
                subscript, hx]
            | false =>
              simp [runListEntries, runDispatch, runFieldCrown, hreq, hp, assignFromParent,
                subscript, hx]
          rw [this]
          exact ih (i + 1) true extra _ hrest

/-- Under `DISABLE`, a leaf-only list crown applied to a too-short sequence fails
with `NoRequiredItemsError(len(map), data)` whatever the extra policy. -/
theorem listBody_short
    (cfg : Cfg) (path : Path) (xs : List Value) (map : List InpCrown) (pol : ExtraPolicy)
    (st : St)
    (hdt : cfg.dt = .disable)
    (hleaf : ∀ c ∈ map, isLeafChild c = true)
    (htot : ∀ f v, ∃ w, cfg.loaders f v = .ok w)
    (hshort : xs.length < map.length) :
    ∃ extra' st', runListBody cfg path (some (.vlist xs)) map pol st =
      .err (.load (.noRequiredItems map.length (.vlist xs)) []) extra' st' := by
  have hwrap : ∀ (r : BRes), wrapTLE cfg path r = r := by
    intro r
    cases r with
    | ok extra st => rfl
    | err e extra st => simp [wrapTLE, hdt]
  rcases listEntries_leaves_short cfg path xs map.length hdt htot map 0 false
      (if cfg.canCollectExtra then some (.vlist (map.map listExtraSlot)) else Option.none)
      st hleaf with
    ⟨ck', extra', st', hrun⟩ | ⟨extra', st', hrun⟩
  · refine ⟨extra', st', ?_⟩
    have hfin : listFinish cfg path (some (.vlist xs)) map.length pol ck' extra' st' =
        .err (.load (.noRequiredItems map.length (.vlist xs)) []) extra' st' := by
      have hne : xs.length ≠ map.length := Nat.ne_of_lt hshort
      cases ck' with
      | true =>
        cases pol with
        | forbid => simp [listFinish, pyLen, hne, hshort, emitLErr, hdt]
        | skip => simp [listFinish, pyLen, hshort, emitLErr, hdt]
        | collect => simp [listFinish, pyLen, hshort, emitLErr, hdt]
      | false =>
        cases pol with
        | forbid => simp [listFinish, Value.isSequence, pyLen, hne, hshort, emitLErr, hdt]
        | skip => simp [listFinish, Value.isSequence, pyLen, hshort, emitLErr, hdt]
        | collect => simp [listFinish, Value.isSequence, pyLen, hshort, emitLErr, hdt]
    cases hstrict : cfg.strictCoercion with
    | true => simp [runListBody, hstrict, strictCheck, hrun, hfin, hwrap]
    | false => simp [runListBody, hstrict, hrun, hfin, hwrap]
  · refine ⟨extra', st', ?_⟩
    cases hstrict : cfg.strictCoercion with
    | true => simp [runListBody, hstrict, strictCheck, hrun, hwrap]
    | false => simp [runListBody, hstrict, hrun, hwrap]

/-- Dispatching one list-crown child only inspects the parent sequence at the
child's own index, and a `None` leaf inspects nothing: two parent sequences that
agree there (or any two, for a `None` leaf) give the same outcome, except that an
aborting missing-item error embeds the parent data itself. -/
theorem dispatch_idx_paired
    (cfg : Cfg) (path : Path) (total : Nat) (xs ys : List Value) (i : Nat)
    (c : InpCrown) (ck hnf : Bool) (pextra : Option Value) (st : St)
    (hval : c ≠ .leafNone → xs[i]? = ys[i]?) :
    runDispatch cfg path (.plist total) (some (.vlist xs)) (.idx i) c ck hnf pextra st =
      runDispatch cfg path (.plist total) (some (.vlist ys)) (.idx i) c ck hnf pextra st ∨
    (runDispatch cfg path (.plist total) (some (.vlist xs)) (.idx i) c ck hnf pextra st =
        .err (.load (.noRequiredItems total (.vlist xs)) (trailFor cfg.dt path)) pextra st ∧
     runDispatch cfg path (.plist total) (some (.vlist ys)) (.idx i) c ck hnf pextra st =
        .err (.load (.noRequiredItems total (.vlist ys)) (trailFor cfg.dt path)) pextra st) := by
  cases c with
  | leafNone => exact Or.inl (by simp [runDispatch])
  | dict m pol =>
    have hxy := hval (by simp)
    cases hx : xs[i]? with
    | some v =>
      have hy : ys[i]? = some v := hxy ▸ hx
      exact Or.inl (by simp [runDispatch, assignFromParent, subscript, hx, hy])
    | none =>
      have hy : ys[i]? = Option.none := hxy ▸ hx
      cases hdt : cfg.dt with
      | all =>
        exact Or.inl (by simp [runDispatch, assignFromParent, subscript, hx, hy, hdt])
      | disable =>
        exact Or.inr ⟨by simp [runDispatch, assignFromParent, subscript, hx, hdt,
            parentNotFoundErr, trailFor],
          by simp [runDispatch, assignFromParent, subscript, hy, hdt,
            parentNotFoundErr, trailFor]⟩
      | first =>
        exact Or.inr ⟨by simp [runDispatch, assignFromParent, subscript, hx, hdt,
            parentNotFoundErr, trailFor],
          by simp [runDispatch, assignFromParent, subscript, hy, hdt,
            parentNotFoundErr, trailFor]⟩
  | list m pol =>
    have hxy := hval (by simp)
    cases hx : xs[i]? with
    | some v =>
      have hy : ys[i]? = some v := hxy ▸ hx
      exact Or.inl (by simp [runDispatch, assignFromParent, subscript, hx, hy])
    | none =>
      have hy : ys[i]? = Option.none := hxy ▸ hx
      cases hdt : cfg.dt with
      | all =>
        exact Or.inl (by simp [runDispatch, assignFromParent, subscript, hx, hy, hdt])
      | disable =>
        exact Or.inr ⟨by simp [runDispatch, assignFromParent, subscript, hx, hdt,
            parentNotFoundErr, trailFor],
          by simp [runDispatch, assignFromParent, subscript, hy, hdt,
            parentNotFoundErr, trailFor]⟩
      | first =>
        exact Or.inr ⟨by simp [runDispatch, assignFromParent, subscript, hx, hdt,
            parentNotFoundErr, trailFor],
          by simp [runDispatch, assignFromParent, subscript, hy, hdt,
            parentNotFoundErr, trailFor]⟩
  | field fid =>
    have hxy := hval (by simp)
    cases hx : xs[i]? with
    | some v =>
      have hy : ys[i]? = some v := hxy ▸ hx
      exact Or.inl (by simp [runDispatch, runFieldCrown, assignFromParent, subscript, hx, hy])
    | none =>
      have hy : ys[i]? = Option.none := hxy ▸ hx
      cases hreq : (cfg.fieldInfo fid).isRequired with
      | true =>
        cases hdt : cfg.dt with
        | all =>
          exact Or.inl (by simp [runDispatch, runFieldCrown, hreq, assignFromParent,
            subscript, hx, hy, hdt])
        | disable =>
          exact Or.inr ⟨by simp [runDispatch, runFieldCrown, hreq, assignFromParent,
              subscript, hx, hdt, parentNotFoundErr, trailFor],
            by simp [runDispatch, runFieldCrown, hreq, assignFromParent,
              subscript, hy, hdt, parentNotFoundErr, trailFor]⟩
        | first =>
          exact Or.inr ⟨by simp [runDispatch, runFieldCrown, hreq, assignFromParent,
              subscript, hx, hdt, parentNotFoundErr, trailFor],
            by simp [runDispatch, runFieldCrown, hreq, assignFromParent,
              subscript, hy, hdt, parentNotFoundErr, trailFor]⟩
      | false =>
        exact Or.inl (by simp [runDispatch, runFieldCrown, hreq, assignFromParent,
          subscript, hx, hy])

/-- Folding a list crown's children over two sequences that agree on every
non-`None` child position gives identical outcomes, except that an aborting error
may embed the differing parent data (never a `TypeLoadError`). -/
theorem listEntries_paired
    (cfg : Cfg) (path : Path) (total : Nat) (xs ys : List Value)
    (entries : List InpCrown) :
    ∀ (i : Nat) (ck : Bool) (extra : Option Value) (st : St),
      (∀ n c, entries.get? n = some c → c ≠ .leafNone → xs[i + n]? = ys[i + n]?) →
      runListEntries cfg path (some (.vlist xs)) total i entries ck extra st =
        runListEntries cfg path (some (.vlist ys)) total i entries ck extra st ∨
      (∃ e1 e2 extra' st',
        isTLE e1 = false ∧ isTLE e2 = false ∧
        runListEntries cfg path (some (.vlist xs)) total i entries ck extra st =
          .err e1 extra' st' ∧
        runListEntries cfg path (some (.vlist ys)) total i entries ck extra st =
          .err e2 extra' st') := by
  induction entries with
  | nil =>
    intro i ck extra st _
    exact Or.inl (by simp [runListEntries])
  | cons c rest ih =>
    intro i ck extra st h
    rcases dispatch_idx_paired cfg path total xs ys i c ck false extra st
        (fun hc => by simpa using h 0 c (by simp) hc) with heq | ⟨h1, h2⟩
    · cases hres : runDispatch cfg path (.plist total) (some (.vlist xs)) (.idx i) c
          ck false extra st with
      | err e extra' st' =>
        have hres' : runDispatch cfg path (.plist total) (some (.vlist ys)) (.idx i) c
            ck false extra st = .err e extra' st' := heq ▸ hres
        exact Or.inl (by simp [runListEntries, hres, hres'])
      | ok ck' hnf' extra' st' =>
        have hres' : runDispatch cfg path (.plist total) (some (.vlist ys)) (.idx i) c
            ck false extra st = .ok ck' hnf' extra' st' := heq ▸ hres
        have hshift : ∀ n c', rest.get? n = some c' → c' ≠ .leafNone →
            xs[(i + 1) + n]? = ys[(i + 1) + n]? := by
          intro n c' hget hne
          have harith : i + (n + 1) = (i + 1) + n := by omega
          have := h (n + 1) c' (by simpa using hget) hne
          rwa [harith] at this
        rcases ih (i + 1) ck' extra' st' hshift with heq2 | ⟨e1, e2, ex2, st2, ht1, ht2, ha, hb⟩
        · exact Or.inl (by simp [runListEntries, hres, hres', heq2])
        · exact Or.inr ⟨e1, e2, ex2, st2, ht1, ht2,
            by simp [runListEntries, hres, ha], by simp [runListEntries, hres', hb]⟩
    · exact Or.inr ⟨.load (.noRequiredItems total (.vlist xs)) (trailFor cfg.dt path),
        .load (.noRequiredItems total (.vlist ys)) (trailFor cfg.dt path), extra, st,
        by simp [isTLE], by simp [isTLE],
        by simp [runListEntries, h1], by simp [runListEntries, h2]⟩

/-- The tail of a list crown's body over two equal-length sequences: identical,
or both append/raise a length error that embeds the (differing) parent data. -/
theorem listFinish_paired
    (cfg : Cfg) (path : Path) (xs ys : List Value) (L : Nat) (pol : ExtraPolicy)
    (ck : Bool) (extra : Option Value) (st : St) (hlen : ys.length = xs.length) :
    listFinish cfg path (some (.vlist xs)) L pol ck extra st =
      listFinish cfg path (some (.vlist ys)) L pol ck extra st ∨
    (cfg.dt = .all ∧ ∃ e1 e2,
      listFinish cfg path (some (.vlist xs)) L pol ck extra st =
        .ok extra { st with errors := st.errors ++ [e1] } ∧
      listFinish cfg path (some (.vlist ys)) L pol ck extra st =
        .ok extra { st with errors := st.errors ++ [e2] }) ∨
    (∃ e1 e2,
      isTLE e1 = false ∧ isTLE e2 = false ∧
      listFinish cfg path (some (.vlist xs)) L pol ck extra st = .err e1 extra st ∧
      listFinish cfg path (some (.vlist ys)) L pol ck extra st = .err e2 extra st) := by
  have hemit : ∀ (ex ey : LErr),
      (∀ tr, isTLE (.load ex tr) = false) → (∀ tr, isTLE (.load ey tr) = false) →
      (match emitLErr cfg.dt path ex st with
        | Res.ok _ st2 => BRes.ok extra st2
        | Res.err e st2 => BRes.err e extra st2) = listFinish cfg path (some (.vlist xs)) L pol ck extra st →
      (match emitLErr cfg.dt path ey st with
        | Res.ok _ st2 => BRes.ok extra st2
        | Res.err e st2 => BRes.err e extra st2) = listFinish cfg path (some (.vlist ys)) L pol ck extra st →
      (cfg.dt = .all ∧ ∃ e1 e2,
        listFinish cfg path (some (.vlist xs)) L pol ck extra st =
          .ok extra { st with errors := st.errors ++ [.load e1 path] } ∧
        listFinish cfg path (some (.vlist ys)) L pol ck extra st =
          .ok extra { st with errors := st.errors ++ [.load e2 path] }) ∨
      (∃ e1 e2,
        isTLE e1 = false ∧ isTLE e2 = false ∧
        listFinish cfg path (some (.vlist xs)) L pol ck extra st = .err e1 extra st ∧
        listFinish cfg path (some (.vlist ys)) L pol ck extra st = .err e2 extra st) := by
    intro ex ey hex hey hx hy
    cases hdt : cfg.dt with
    | all =>
      refine Or.inl ⟨rfl, ex, ey, ?_, ?_⟩
      · rw [← hx]; simp [emitLErr, hdt]
      · rw [← hy]; simp [emitLErr, hdt]
    | first =>
      refine Or.inr ⟨.load ex path, .load ey path, hex path, hey path, ?_, ?_⟩
      · rw [← hx]; simp [emitLErr, hdt]
      · rw [← hy]; simp [emitLErr, hdt]
    | disable =>
      refine Or.inr ⟨.load ex [], .load ey [], hex [], hey [], ?_, ?_⟩
      · rw [← hx]; simp [emitLErr, hdt]
      · rw [← hy]; simp [emitLErr, hdt]
  cases pol with
  | forbid =>
    by_cases heq : xs.length = L
    · refine Or.inl ?_
      cases ck with
      | true => simp [listFinish, pyLen, hlen, heq]
      | false => simp [listFinish, Value.isSequence, pyLen, hlen, heq]
    · by_cases hlt : xs.length < L
      · have h := hemit (.noRequiredItems L (.vlist xs)) (.noRequiredItems L (.vlist ys))
          (fun tr => by simp [isTLE]) (fun tr => by simp [isTLE]) ?_ ?_
        · rcases h with ⟨hdt, e1, e2, ha, hb⟩ | ⟨e1, e2, ht1, ht2, ha, hb⟩
          · exact Or.inr (Or.inl ⟨hdt, .load e1 path, .load e2 path, ha, hb⟩)
          · exact Or.inr (Or.inr ⟨e1, e2, ht1, ht2, ha, hb⟩)
        · cases ck with
          | true => simp [listFinish, pyLen, hlen, heq, hlt]
          | false => simp [listFinish, Value.isSequence, pyLen, hlen, heq, hlt]
        · cases ck with
          | true => simp [listFinish, pyLen, hlen, heq, hlt]
          | false => simp [listFinish, Value.isSequence, pyLen, hlen, heq, hlt]
      · have h := hemit (.extraItems L (.vlist xs)) (.extraItems L (.vlist ys))
          (fun tr => by simp [isTLE]) (fun tr => by simp [isTLE]) ?_ ?_
        · rcases h with ⟨hdt, e1, e2, ha, hb⟩ | ⟨e1, e2, ht1, ht2, ha, hb⟩
          · exact Or.inr (Or.inl ⟨hdt, .load e1 path, .load e2 path, ha, hb⟩)
          · exact Or.inr (Or.inr ⟨e1, e2, ht1, ht2, ha, hb⟩)
        · cases ck with
          | true => simp [listFinish, pyLen, hlen, heq, hlt]
          | false => simp [listFinish, Value.isSequence, pyLen, hlen, heq, hlt]
        · cases ck with
          | true => simp [listFinish, pyLen, hlen, heq, hlt]
          | false => simp [listFinish, Value.isSequence, pyLen, hlen, heq, hlt]
  | skip =>
    by_cases hlt : xs.length < L
    · have h := hemit (.noRequiredItems L (.vlist xs)) (.noRequiredItems L (.vlist ys))
        (fun tr => by simp [isTLE]) (fun tr => by simp [isTLE]) ?_ ?_
      · rcases h with ⟨hdt, e1, e2, ha, hb⟩ | ⟨e1, e2, ht1, ht2, ha, hb⟩
        · exact Or.inr (Or.inl ⟨hdt, .load e1 path, .load e2 path, ha, hb⟩)
        · exact Or.inr (Or.inr ⟨e1, e2, ht1, ht2, ha, hb⟩)
      · cases ck with
        | true => simp [listFinish, pyLen, hlen, hlt]
        | false => simp [listFinish, Value.isSequence, pyLen, hlen, hlt]
      · cases ck with
        | true => simp [listFinish, pyLen, hlen, hlt]
        | false => simp [listFinish, Value.isSequence, pyLen, hlen, hlt]
    · refine Or.inl ?_
      cases ck with
      | true => simp [listFinish, pyLen, hlen, hlt]
      | false => simp [listFinish, Value.isSequence, pyLen, hlen, hlt]
  | collect =>
    by_cases hlt : xs.length < L
    · have h := hemit (.noRequiredItems L (.vlist xs)) (.noRequiredItems L (.vlist ys))
        (fun tr => by simp [isTLE]) (fun tr => by simp [isTLE]) ?_ ?_
      · rcases h with ⟨hdt, e1, e2, ha, hb⟩ | ⟨e1, e2, ht1, ht2, ha, hb⟩
        · exact Or.inr (Or.inl ⟨hdt, .load e1 path, .load e2 path, ha, hb⟩)
        · exact Or.inr (Or.inr ⟨e1, e2, ht1, ht2, ha, hb⟩)
      · cases ck with
        | true => simp [listFinish, pyLen, hlen, hlt]
        | false => simp [listFinish, Value.isSequence, pyLen, hlen, hlt]
      · cases ck with
        | true => simp [listFinish, pyLen, hlen, hlt]
        | false => simp [listFinish, Value.isSequence, pyLen, hlen, hlt]
    · refine Or.inl ?_
      cases ck with
      | true => simp [listFinish, pyLen, hlen, hlt]
      | false => simp [listFinish, Value.isSequence, pyLen, hlen, hlt]

/-- A list crown's body never reads the input value at a `None` leaf's position:
replacing it gives the same outcome, except for length errors that embed the
parent sequence (and, under `ALL`, the corresponding divergent appended error). -/
theorem listBody_paired
    (cfg : Cfg) (path : Path) (map : List InpCrown) (pol : ExtraPolicy) (st : St)
    (xs : List Value) (j : Nat) (w : Value)
    (hj : map.get? j = some .leafNone) :
    runListBody cfg path (some (.vlist xs)) map pol st =
      runListBody cfg path (some (.vlist (xs.set j w))) map pol st ∨
    (cfg.dt = .all ∧ ∃ (extra' : Option Value) (st' : St) (e1 e2 : Exc),
      runListBody cfg path (some (.vlist xs)) map pol st =
        .ok extra' { st' with errors := st'.errors ++ [e1] } ∧
      runListBody cfg path (some (.vlist (xs.set j w))) map pol st =
        .ok extra' { st' with errors := st'.errors ++ [e2] }) ∨
    (∃ (e1 e2 : Exc) (extra' : Option Value) (st' : St),
      runListBody cfg path (some (.vlist xs)) map pol st = .err e1 extra' st' ∧
      runListBody cfg path (some (.vlist (xs.set j w))) map pol st = .err e2 extra' st') := by
  have hlen : (xs.set j w).length = xs.length := by simp
  have hpair : ∀ n c, map.get? n = some c → c ≠ .leafNone →
      xs[0 + n]? = (xs.set j w)[0 + n]? := by
    intro n c hg hne
    by_cases hn : n = j
    · subst hn
      rw [hg] at hj
      exact absurd (Option.some.inj hj) hne
    · have hjn : j ≠ n := fun h => hn h.symm
      simp only [Nat.zero_add]
      exact (List.getElem?_set_ne hjn).symm
  have hstrict : ∀ z, (if cfg.strictCoercion = true then
      strictCheck cfg path (some (.vlist z)) st else Res.ok () st) = Res.ok () st := by
    intro z
    cases hs : cfg.strictCoercion with
    | true => simp [strictCheck]
    | false => simp
  have hbody_err : ∀ (z : List Value) (e : Exc) (ex : Option Value) (st2 : St),
      runListEntries cfg path (some (.vlist z)) map.length 0 map false
        (if cfg.canCollectExtra then some (.vlist (map.map listExtraSlot)) else Option.none)
        st = .err e ex st2 →
      runListBody cfg path (some (.vlist z)) map pol st =
        wrapTLE cfg path (.err e ex st2) := by
    intro z e ex st2 hf
    simp only [runListBody, hstrict, hf]
  have hbody_ok : ∀ (z : List Value) (ck : Bool) (ex : Option Value) (st2 : St),
      runListEntries cfg path (some (.vlist z)) map.length 0 map false
        (if cfg.canCollectExtra then some (.vlist (map.map listExtraSlot)) else Option.none)
        st = .ok ck ex st2 →
      runListBody cfg path (some (.vlist z)) map pol st =
        wrapTLE cfg path (listFinish cfg path (some (.vlist z)) map.length pol ck ex st2) := by
    intro z ck ex st2 hf
    simp only [runListBody, hstrict, hf]
  rcases listEntries_paired cfg path map.length xs (xs.set j w) map 0 false
      (if cfg.canCollectExtra then some (.vlist (map.map listExtraSlot)) else Option.none)
      st hpair with heq | ⟨e1, e2, ex', st', ht1, ht2, ha, hb⟩
  · cases hres : runListEntries cfg path (some (.vlist xs)) map.length 0 map false
        (if cfg.canCollectExtra then some (.vlist (map.map listExtraSlot)) else Option.none)
        st with
    | err e extra' st' =>
      have hres' := heq ▸ hres
      exact Or.inl ((hbody_err xs e extra' st' hres).trans
        (hbody_err (xs.set j w) e extra' st' hres').symm)
    | ok ck' extra' st' =>
      have hres' := heq ▸ hres
      have hw1 := hbody_ok xs ck' extra' st' hres
      have hw2 := hbody_ok (xs.set j w) ck' extra' st' hres'
      rcases listFinish_paired cfg path xs (xs.set j w) map.length pol ck' extra' st' hlen with
        hfeq | ⟨hdt, f1, f2, hfa, hfb⟩ | ⟨f1, f2, hft1, hft2, hfa, hfb⟩
      · exact Or.inl (by rw [hw1, hw2, hfeq])
      · refine Or.inr (Or.inl ⟨hdt, extra', st', f1, f2, ?_, ?_⟩)
        · rw [hw1, hfa]; simp [wrapTLE]
        · rw [hw2, hfb]; simp [wrapTLE]
      · refine Or.inr (Or.inr ⟨f1, f2, extra', st', ?_, ?_⟩)
        · rw [hw1, hfa]; simp [wrapTLE, hft1]
        · rw [hw2, hfb]; simp [wrapTLE, hft2]
  · have hw1 := hbody_err xs e1 ex' st' ha
    have hw2 := hbody_err (xs.set j w) e2 ex' st' hb
    refine Or.inr (Or.inr ⟨e1, e2, ex', st', ?_, ?_⟩)
    · rw [hw1]; simp [wrapTLE, ht1]
    · rw [hw2]; simp [wrapTLE, ht2]

theorem targetsAssignAll_all (cfg : Cfg) (hall : cfg.dt = .all) (ids : List String)
    (ev : Value) : ∀ st : St, ∃ st' Δ, targetsAssignAll cfg ids ev st = .ok () st' ∧
      st'.errors = st.errors ++ Δ := by
  induction ids with
  | nil => exact fun st => ⟨st, [], by simp [targetsAssignAll], by simp⟩
  | cons a rest ih =>
    intro st
    cases hl : cfg.loaders a ev with
    | ok v =>
      obtain ⟨st', Δ, h1, h2⟩ := ih (assignTo st (.tofield a) v)
      exact ⟨st', Δ, by simp [targetsAssignAll, runFieldAssign, hl, h1],
        by simpa [assignTo] using h2⟩
    | error r =>
      obtain ⟨st', Δ, h1, h2⟩ := ih { st with errors := st.errors ++ [rawToExc r []] }
      exact ⟨st', rawToExc r [] :: Δ,
        by simp [targetsAssignAll, runFieldAssign, hl, emitRaw, hall, h1],
        by simp at h2; simp [h2]⟩

theorem targetsAssignRequired_all (cfg : Cfg) (hall : cfg.dt = .all) (ids : List String) :
    ∀ st : St, ∃ st' Δ, targetsAssignRequired cfg ids st = .ok () st' ∧
      st'.errors = st.errors ++ Δ := by
  induction ids with
  | nil => exact fun st => ⟨st, [], by simp [targetsAssignRequired], by simp⟩
  | cons a rest ih =>
    intro st
    cases hreq : (cfg.fieldInfo a).isRequired with
    | false =>
      obtain ⟨st', Δ, h1, h2⟩ := ih st
      exact ⟨st', Δ, by simp [targetsAssignRequired, hreq, h1], h2⟩
    | true =>
      cases hl : cfg.loaders a (.vdict []) with
      | ok v =>
        obtain ⟨st', Δ, h1, h2⟩ := ih (assignTo st (.tofield a) v)
        exact ⟨st', Δ, by simp [targetsAssignRequired, hreq, runFieldAssign, hl, h1],
          by simpa [assignTo] using h2⟩
      | error r =>
        obtain ⟨st', Δ, h1, h2⟩ := ih { st with errors := st.errors ++ [rawToExc r []] }
        exact ⟨st', rawToExc r [] :: Δ,
          by simp [targetsAssignRequired, hreq, runFieldAssign, hl, emitRaw, hall, h1],
          by simp at h2; simp [h2]⟩

/-- Under `ALL`, the extra-target assignment step either raises or completes with
the error accumulator only extended. -/
theorem extraTargets_all (cfg : Cfg) (hall : cfg.dt = .all) (pol : ExtraPolicy)
    (re : Option Value) (st : St) :
    (∃ e st', runExtraTargetsAssign cfg pol re st = .err e st') ∨
    (∃ st' Δ, runExtraTargetsAssign cfg pol re st = .ok () st' ∧
      st'.errors = st.errors ++ Δ) := by
  cases hm : cfg.extraMove with
  | nomove => exact Or.inr ⟨st, [], by simp [runExtraTargetsAssign, hm], by simp⟩
  | kwargs => exact Or.inr ⟨st, [], by simp [runExtraTargetsAssign, hm], by simp⟩
  | saturate f => exact Or.inr ⟨st, [], by simp [runExtraTargetsAssign, hm], by simp⟩
  | targets ids =>
    by_cases hpol : pol = .collect
    · cases re with
      | none =>
        exact Or.inl ⟨.unexpected .nameError [], st,
          by simp [runExtraTargetsAssign, hm, hpol]⟩
      | some ev =>
        obtain ⟨st', Δ, h1, h2⟩ := targetsAssignAll_all cfg hall ids ev st
        exact Or.inr ⟨st', Δ, by simp [runExtraTargetsAssign, hm, hpol, h1], h2⟩
    · obtain ⟨st', Δ, h1, h2⟩ := targetsAssignRequired_all cfg hall ids st
      exact Or.inr ⟨st', Δ, by simp [runExtraTargetsAssign, hm, hpol, h1], h2⟩

/-- C9: a `None` leaf in a list crown counts toward the branch's expected length —
with leaf-only children and total loaders, a shorter input fails with
`NoRequiredItemsError(len(map), data)` under `DISABLE`, whatever position the
`None` leaves occupy — yet the value at a `None` leaf's position is never read,
type-checked or passed to a converter: replacing it cannot change a successful
load's result. -/
theorem none_leaf_list_crown_semantics :
    (∀ (cfg : Cfg) (map : List InpCrown) (pol : ExtraPolicy) (xs : List Value),
      cfg.dt = .disable → (∀ c ∈ map, isLeafChild c = true) →
      (∀ f v, ∃ w, cfg.loaders f v = .ok w) → xs.length < map.length →
      loadModel cfg (.list map pol) (.vlist xs) =
        .error (.load (.noRequiredItems map.length (.vlist xs)) []))
    ∧ (∀ (cfg : Cfg) (map : List InpCrown) (pol : ExtraPolicy) (xs : List Value)
        (j : Nat) (w : Value) (r : Value),
      map.get? j = some .leafNone →
      loadModel cfg (.list map pol) (.vlist xs) = .ok r →
      loadModel cfg (.list map pol) (.vlist (xs.set j w)) = .ok r) := by
  constructor
  · intro cfg map pol xs hdt hleaf htot hshort
    obtain ⟨extra', st', hb⟩ :=
      listBody_short cfg [] xs map pol ⟨[], false, [], []⟩ hdt hleaf htot hshort
    simp [loadModel, hb]
  · intro cfg map pol xs j w r hj hok
    rcases listBody_paired cfg [] map pol ⟨[], false, [], []⟩ xs j w hj with
      heq | ⟨hdt, extra', st', e1, e2, ha, hb⟩ | ⟨e1, e2, ex', st', ha, hb⟩
    · simp only [loadModel] at hok ⊢
      rw [← heq]
      exact hok
    · rcases extraTargets_all cfg hdt pol extra'
          { st' with errors := st'.errors ++ [e1] } with
        ⟨e, st2, he⟩ | ⟨st2, Δ, hok2, herr2⟩
      · simp [loadModel, crownPolicy, ha, he] at hok
      · have hne : st2.errors.isEmpty = false := by
          rw [herr2]
          simp
        simp [loadModel, crownPolicy, ha, hok2, hdt, hne] at hok
    · simp [loadModel, crownPolicy, ha] at hok

/-- Witness for `none_leaf_list_crown_semantics`: a two-slot list crown whose
first child is a `None` leaf — a one-element input fails with the two-item
missing-items error, and on a full input the discarded first slot's value is
irrelevant to the loaded record. -/
theorem none_leaf_list_crown_semantics_witness :
    loadModel ⟨.disable, false, true, [⟨"a", true, .noDefault⟩], fun _ v => .ok v, .nomove⟩
        (.list [.leafNone, .field "a"] .skip) (.vlist [.vint 99]) =
      .error (.load (.noRequiredItems 2 (.vlist [.vint 99])) []) ∧
    loadModel ⟨.disable, false, true, [⟨"a", true, .noDefault⟩], fun _ v => .ok v, .nomove⟩
        (.list [.leafNone, .field "a"] .skip)
        (.vlist (([Value.vbool false, Value.vstr "q"]).set 0 (.vint 5))) =
      .ok (.vdict [("a", .vstr "q")]) := by
  constructor
  · exact none_leaf_list_crown_semantics.1
      ⟨.disable, false, true, [⟨"a", true, .noDefault⟩], fun _ v => .ok v, .nomove⟩
      [.leafNone, .field "a"] .skip [.vint 99] rfl
      (by decide)
      (fun f v => ⟨v, rfl⟩) (by simp)
  · refine none_leaf_list_crown_semantics.2
      ⟨.disable, false, true, [⟨"a", true, .noDefault⟩], fun _ v => .ok v, .nomove⟩
      [.leafNone, .field "a"] .skip [.vbool false, .vstr "q"] 0 (.vint 5)
      (.vdict [("a", .vstr "q")]) rfl ?_
    simp [loadModel, runDictBody, runListBody, runDictEntries, runListEntries, runDispatch,
      runFieldCrown, optFromMapping, assignFromParent, runFieldAssign, emitRaw, emitLErr,
      unexpCatch, raiseBadType, dictFinish, listFinish, wrapTLE, isTLE, strictCheck,
      subscript, alookup, upsert, assignTo, pyContains, setDiff, requiredKeysOf,
      Cfg.fieldInfo, Cfg.canCollectExtra, Cfg.extraTargets, Cfg.isPacked, hasDeclaredDefault,
      defaultValue, parentNotFoundErr, badTypeErrOf, trailFor, Value.keys, Value.isMapping,
      Value.isSequence, pyLen, runExtraTargetsAssign, targetsAssignRequired, targetsAssignAll,
      buildRecord, buildParams, crownPolicy, extraWrite, collectUnknown, listExtraSlot,
      rawToExc]

/-! ## Error-accumulator bookkeeping under ALL (towards claim C8) -/

theorem errExt_refl (p : Path) (st : St) : ErrExt p st st :=
  ⟨[], by simp, by simp⟩

theorem errExt_trans {p : Path} {st1 st2 st3 : St}
    (h1 : ErrExt p st1 st2) (h2 : ErrExt p st2 st3) : ErrExt p st1 st3 := by
  obtain ⟨d1, he1, hb1⟩ := h1
  obtain ⟨d2, he2, hb2⟩ := h2
  refine ⟨d1 ++ d2, by simp [he2, he1], ?_⟩
  intro e he
  rcases List.mem_append.1 he with h | h
  · exact hb1 e h
  · exact hb2 e h

theorem errExt_mono {p q : Path} {st st' : St} (hlen : p.length ≤ q.length)
    (h : ErrExt q st st') : ErrExt p st st' := by
  obtain ⟨d, he, hb⟩ := h
  exact ⟨d, he, fun e hm => le_trans hlen (hb e hm)⟩

theorem errExt_append (p : Path) (st : St) (e : Exc)
    (hb : p.length ≤ (trailOf e).length) :
    ErrExt p st { st with errors := st.errors ++ [e] } :=
  ⟨[e], by simp, by simpa using hb⟩

theorem errExt_same_errors {p : Path} {st st' : St} (h : st'.errors = st.errors) :
    ErrExt p st st' :=
  ⟨[], by simp [h], by simp⟩

theorem excBnd_none (p : Path) : ExcBnd p Option.none := trivial

theorem excBnd_load (p : Path) (e : LErr) (tr : Path) (h : p.length ≤ tr.length) :
    ExcBnd p (some (.load e tr)) := fun _ => by simpa [trailOf] using h

theorem excBnd_aggregate (p : Path) (cs : List Exc) :
    ExcBnd p (some (.aggregate cs)) := by
  intro h
  simp [isTLE] at h

theorem excBnd_unexpected (p : Path) (u : UTag) (tr : Path) :
    ExcBnd p (some (.unexpected u tr)) := by
  intro h
  simp [isTLE] at h

theorem res_assignBranch (cfg : Cfg) (hall : cfg.dt = .all) (p : Path) (keyEl : PathElem)
    (pinfo : ParentInfo) (pdata : Option Value) (ck hnf : Bool) (st : St) :
    ErrExt p st (assignFromParent cfg p keyEl pinfo pdata .branch ck hnf st).st ∧
    ExcBnd p (assignFromParent cfg p keyEl pinfo pdata .branch ck hnf st).exc := by
  cases pdata with
  | none =>
    simp only [assignFromParent, unexpCatch, hall]
    exact ⟨errExt_append p st _ (by simp [trailOf]), excBnd_none p⟩
  | some d =>
    cases hsub : subscript d keyEl with
    | found v =>
      simp only [assignFromParent, hsub]
      exact ⟨errExt_refl p st, excBnd_none p⟩
    | missing =>
      cases keyEl with
      | key k =>
        cases hnf with
        | true =>
          simp only [assignFromParent, hsub, hall]
          exact ⟨errExt_refl p st, excBnd_none p⟩
        | false =>
          simp only [assignFromParent, hsub, hall]
          exact ⟨errExt_append p st _ (by simp [trailOf]), excBnd_none p⟩
      | idx i =>
        simp only [assignFromParent, hsub, hall]
        exact ⟨errExt_refl p st, excBnd_none p⟩
    | badType =>
      cases ck with
      | true =>
        simp only [assignFromParent, hsub, unexpCatch, hall]
        exact ⟨errExt_append p st _ (by simp [trailOf]), excBnd_none p⟩
      | false =>
        simp only [assignFromParent, hsub, raiseBadType, hall]
        by_cases hp : p = []
        · rw [if_pos (show p = [] ∧ True from ⟨hp, trivial⟩)]
          exact ⟨errExt_refl p st, excBnd_aggregate p _⟩
        · rw [if_neg (show ¬(p = [] ∧ True) from fun h => hp h.1)]
          exact ⟨errExt_refl p st, excBnd_load p _ _ (by simp [trailFor])⟩

theorem res_runFieldAssign (cfg : Cfg) (hall : cfg.dt = .all) (p path : Path)
    (fid : String) (arg : Value) (tgt : Target) (st : St)
    (hb : p.length ≤ path.length) :
    ErrExt p st (runFieldAssign cfg path fid arg tgt st).st ∧
    (runFieldAssign cfg path fid arg tgt st).exc = Option.none := by
  cases hl : cfg.loaders fid arg with
  | ok v =>
    simp only [runFieldAssign, hl]
    exact ⟨errExt_same_errors (by cases tgt <;> simp [assignTo, Res.st]), rfl⟩
  | error r =>
    simp only [runFieldAssign, hl, emitRaw, hall]
    refine ⟨errExt_append p st _ ?_, rfl⟩
    cases r <;> simpa [rawToExc, trailOf] using hb

theorem res_optFromMapping (cfg : Cfg) (hall : cfg.dt = .all) (p : Path) (k : String)
    (fid : String) (tgt : Target) (onMiss : St → St) (pdata : Option Value)
    (ck : Bool) (st : St)
    (hact : ∀ s, (onMiss s).errors = s.errors) :
    ErrExt p st (optFromMapping cfg p k fid tgt onMiss pdata ck st).st ∧
    ExcBnd p (optFromMapping cfg p k fid tgt onMiss pdata ck st).exc := by
  have hfa := fun (arg : Value) (s : St) =>
    res_runFieldAssign cfg hall p (p ++ [PathElem.key k]) fid arg tgt s (by simp)
  have hbad : ∀ (d : Value),
      ErrExt p st (Res.st (α := Unit)
        (raiseBadType cfg.dt p (.typeLoad .mapping d) st)) ∧
      ExcBnd p (Res.exc (α := Unit) (raiseBadType cfg.dt p (.typeLoad .mapping d) st)) := by
    intro d
    simp only [raiseBadType, hall]
    by_cases hp : p = []
    · rw [if_pos (show p = [] ∧ True from ⟨hp, trivial⟩)]
      exact ⟨errExt_refl p st, excBnd_aggregate p _⟩
    · rw [if_neg (show ¬(p = [] ∧ True) from fun h => hp h.1)]
      exact ⟨errExt_refl p st, excBnd_load p _ _ (by simp [trailFor])⟩
  cases ck with
  | true =>
    cases pdata with
    | none =>
      simp only [optFromMapping]
      exact ⟨errExt_refl p st, excBnd_unexpected p _ _⟩
    | some d =>
      cases hcon : pyContains d k with
      | error u =>
        simp only [optFromMapping, hcon]
        exact ⟨errExt_refl p st, excBnd_unexpected p _ _⟩
      | ok b =>
        cases b with
        | true =>
          cases hsub : subscript d (.key k) with
          | found v =>
            simp only [optFromMapping, hcon, hsub]
            cases hres : runFieldAssign cfg (p ++ [PathElem.key k]) fid v tgt st with
            | ok u st2 =>
              have h := hfa v st
              rw [hres] at h
              exact ⟨h.1, excBnd_none p⟩
            | err e st2 =>
              have h := hfa v st
              rw [hres] at h
              exact absurd h.2 (by simp [Res.exc])
          | missing =>
            simp only [optFromMapping, hcon, hsub, emitRaw, hall]
            exact ⟨errExt_append p st _ (by simp [rawToExc, trailOf]), excBnd_none p⟩
          | badType =>
            simp only [optFromMapping, hcon, hsub, emitRaw, hall]
            exact ⟨errExt_append p st _ (by simp [rawToExc, trailOf]), excBnd_none p⟩
        | false =>
          simp only [optFromMapping, hcon]
          exact ⟨errExt_same_errors (hact st), excBnd_none p⟩
  | false =>
    cases pdata with
    | none =>
      simp only [optFromMapping, unexpCatch, hall]
      exact ⟨errExt_append p st _ (by simp [trailOf]), excBnd_none p⟩
    | some d =>
      cases d with
      | vdict m =>
        cases hal : alookup m k with
        | some v =>
          simp only [optFromMapping, hal]
          cases hres : runFieldAssign cfg (p ++ [PathElem.key k]) fid v tgt st with
          | ok u st2 =>
            have h := hfa v st
            rw [hres] at h
            exact ⟨h.1, excBnd_none p⟩
          | err e st2 =>
            have h := hfa v st
            rw [hres] at h
            exact absurd h.2 (by simp [Res.exc])
        | none =>
          simp only [optFromMapping, hal]
          exact ⟨errExt_same_errors (hact st), excBnd_none p⟩
      | vstr s => exact hbad (.vstr s)
      | vint n => exact hbad (.vint n)
      | vbool b => exact hbad (.vbool b)
      | vnone => exact hbad .vnone
      | vlist xs => exact hbad (.vlist xs)

theorem res_assignCustom (cfg : Cfg) (hall : cfg.dt = .all) (p : Path) (keyEl : PathElem)
    (pinfo : ParentInfo) (pdata : Option Value) (act : St → St) (ck hnf : Bool) (st : St)
    (hact : ∀ s, (act s).errors = s.errors) :
    ErrExt p st (assignFromParent cfg p keyEl pinfo pdata (.custom act) ck hnf st).st ∧
    ExcBnd p (assignFromParent cfg p keyEl pinfo pdata (.custom act) ck hnf st).exc := by
  cases pdata with
  | none =>
    simp only [assignFromParent, unexpCatch, hall]
    exact ⟨errExt_append p st _ (by simp [trailOf]), excBnd_none p⟩
  | some d =>
    cases hsub : subscript d keyEl with
    | found v =>
      simp only [assignFromParent, hsub]
      exact ⟨errExt_refl p st, excBnd_none p⟩
    | missing =>
      simp only [assignFromParent, hsub]
      exact ⟨errExt_same_errors (hact st), excBnd_none p⟩
    | badType =>
      cases ck with
      | true =>
        simp only [assignFromParent, hsub, unexpCatch, hall]
        exact ⟨errExt_append p st _ (by simp [trailOf]), excBnd_none p⟩
      | false =>
        simp only [assignFromParent, hsub, raiseBadType, hall]
        by_cases hp : p = []
        · rw [if_pos (show p = [] ∧ True from ⟨hp, trivial⟩)]
          exact ⟨errExt_refl p st, excBnd_aggregate p _⟩
        · rw [if_neg (show ¬(p = [] ∧ True) from fun h => hp h.1)]
          exact ⟨errExt_refl p st, excBnd_load p _ _ (by simp [trailFor])⟩

theorem res_runFieldCrown (cfg : Cfg) (hall : cfg.dt = .all) (p : Path) (keyEl : PathElem)
    (pinfo : ParentInfo) (pdata : Option Value) (fid : String) (ck hnf : Bool) (st : St) :
    ErrExt p st (runFieldCrown cfg p keyEl pinfo pdata fid ck hnf st).st ∧
    ExcBnd p (runFieldCrown cfg p keyEl pinfo pdata fid ck hnf st).exc := by
  cases hreq : (cfg.fieldInfo fid).isRequired with
  | true =>
    simp only [runFieldCrown, hreq, if_true]
    cases hres : assignFromParent cfg p keyEl pinfo pdata .branch ck hnf st with
    | err e st' =>
      have h := res_assignBranch cfg hall p keyEl pinfo pdata ck hnf st
      rw [hres] at h
      exact h
    | ok a st' =>
      have h := res_assignBranch cfg hall p keyEl pinfo pdata ck hnf st
      rw [hres] at h
      cases hv : a.value with
      | some v =>
        cases hfa : runFieldAssign cfg (p ++ [keyEl]) fid v (.tofield fid) st' with
        | ok u st2 =>
          have h2 := res_runFieldAssign cfg hall p (p ++ [keyEl]) fid v (.tofield fid) st'
            (by simp)
          rw [hfa] at h2
          simp only [hv, hfa]
          exact ⟨errExt_trans h.1 h2.1, excBnd_none p⟩
        | err e st2 =>
          have h2 := res_runFieldAssign cfg hall p (p ++ [keyEl]) fid v (.tofield fid) st'
            (by simp)
          rw [hfa] at h2
          exact absurd h2.2 (by simp [Res.exc])
      | none =>
        simp only [hv]
        exact ⟨h.1, excBnd_none p⟩
  | false =>
    have hact : ∀ s : St,
        ((if cfg.isPacked (cfg.fieldInfo fid) then id
          else fun s => assignTo s (.tofield fid) (defaultValue (cfg.fieldInfo fid).default)) s).errors
          = s.errors := by
      intro s
      cases cfg.isPacked (cfg.fieldInfo fid) <;> simp [assignTo]
    cases keyEl with
    | idx i =>
      simp only [runFieldCrown, hreq]
      cases hres : assignFromParent cfg p (.idx i) pinfo pdata
          (.custom (if cfg.isPacked (cfg.fieldInfo fid) then id
            else fun s => assignTo s (.tofield fid) (defaultValue (cfg.fieldInfo fid).default)))
          ck hnf st with
      | err e st' =>
        have h := res_assignCustom cfg hall p (.idx i) pinfo pdata _ ck hnf st hact
        rw [hres] at h
        simp only [Bool.false_eq_true, if_false, hres]
        exact h
      | ok a st' =>
        have h := res_assignCustom cfg hall p (.idx i) pinfo pdata _ ck hnf st hact
        rw [hres] at h
        cases hv : a.value with
        | some v =>
          cases hfa : runFieldAssign cfg (p ++ [PathElem.idx i]) fid v
              (if cfg.isPacked (cfg.fieldInfo fid) then Target.topacked fid
               else Target.tofield fid) st' with
          | ok u st2 =>
            have h2 := res_runFieldAssign cfg hall p (p ++ [PathElem.idx i]) fid v
              (if cfg.isPacked (cfg.fieldInfo fid) then Target.topacked fid
               else Target.tofield fid) st' (by simp)
            rw [hfa] at h2
            simp only [Bool.false_eq_true, if_false, hres, hv, hfa]
            exact ⟨errExt_trans h.1 h2.1, excBnd_none p⟩
          | err e st2 =>
            have h2 := res_runFieldAssign cfg hall p (p ++ [PathElem.idx i]) fid v
              (if cfg.isPacked (cfg.fieldInfo fid) then Target.topacked fid
               else Target.tofield fid) st' (by simp)
            rw [hfa] at h2
            exact absurd h2.2 (by simp [Res.exc])
        | none =>
          simp only [Bool.false_eq_true, if_false, hres, hv]
          exact ⟨h.1, excBnd_none p⟩
    | key k =>
      simp only [runFieldCrown, hreq]
      cases hres : optFromMapping cfg p k fid
          (if cfg.isPacked (cfg.fieldInfo fid) then Target.topacked fid
           else Target.tofield fid)
          (if cfg.isPacked (cfg.fieldInfo fid) then id
           else fun s => assignTo s (.tofield fid) (defaultValue (cfg.fieldInfo fid).default))
          pdata ck st with
      | ok u st' =>
        have h := res_optFromMapping cfg hall p k fid
          (if cfg.isPacked (cfg.fieldInfo fid) then Target.topacked fid
           else Target.tofield fid)
          (if cfg.isPacked (cfg.fieldInfo fid) then id
           else fun s => assignTo s (.tofield fid) (defaultValue (cfg.fieldInfo fid).default))
          pdata ck st hact
        rw [hres] at h
        simp only [Bool.false_eq_true, if_false, hres]
        exact ⟨h.1, excBnd_none p⟩
      | err e st' =>
        have h := res_optFromMapping cfg hall p k fid
          (if cfg.isPacked (cfg.fieldInfo fid) then Target.topacked fid
           else Target.tofield fid)
          (if cfg.isPacked (cfg.fieldInfo fid) then id
           else fun s => assignTo s (.tofield fid) (defaultValue (cfg.fieldInfo fid).default))
          pdata ck st hact
        rw [hres] at h
        simp only [Bool.false_eq_true, if_false, hres]
        exact h

theorem emitLErr_all (p : Path) (e : LErr) (st : St) :
    emitLErr .all p e st = .ok () { st with errors := st.errors ++ [.load e p] } := rfl

theorem trailFor_all (p : Path) : trailFor .all p = p := rfl

theorem res_raiseBadType (p : Path) (e : LErr) (st : St) :
    ErrExt p st (raiseBadType .all p e st).st ∧ ExcBnd p (raiseBadType .all p e st).exc := by
  simp only [raiseBadType]
  by_cases hp : p = []
  · rw [if_pos (show p = [] ∧ True from ⟨hp, trivial⟩)]
    exact ⟨errExt_refl p st, excBnd_aggregate p _⟩
  · rw [if_neg (show ¬(p = [] ∧ True) from fun h => hp h.1)]
    exact ⟨errExt_refl p st, excBnd_load p _ _ (by simp [trailFor])⟩

theorem res_strictCheck (cfg : Cfg) (hall : cfg.dt = .all) (p : Path)
    (selfData : Option Value) (st : St) :
    ErrExt p st (strictCheck cfg p selfData st).st ∧
    ExcBnd p (strictCheck cfg p selfData st).exc := by
  cases selfData with
  | none => exact ⟨errExt_refl p st, excBnd_unexpected p _ _⟩
  | some d =>
    cases d with
    | vstr s =>
      simp only [strictCheck, hall]
      exact res_raiseBadType p _ st
    | vint n => exact ⟨errExt_refl p st, excBnd_none p⟩
    | vbool b => exact ⟨errExt_refl p st, excBnd_none p⟩
    | vnone => exact ⟨errExt_refl p st, excBnd_none p⟩
    | vlist xs => exact ⟨errExt_refl p st, excBnd_none p⟩
    | vdict m => exact ⟨errExt_refl p st, excBnd_none p⟩

theorem res_dictFinish (cfg : Cfg) (hall : cfg.dt = .all) (p : Path)
    (selfData : Option Value) (known : List String) (pol : ExtraPolicy)
    (ck : Bool) (extra : Option Value) (st : St) :
    ErrExt p st (dictFinish cfg p selfData known pol ck extra st).st ∧
    ExcBnd p (dictFinish cfg p selfData known pol ck extra st).exc := by
  cases ck with
  | true =>
    simp only [dictFinish, if_true]
    cases pol with
    | forbid =>
      cases selfData with
      | none => exact ⟨errExt_refl p st, excBnd_unexpected p _ _⟩
      | some d =>
        by_cases hex : (setDiff d.keys known).isEmpty
        · simp only [hex, if_true]
          exact ⟨errExt_refl p st, excBnd_none p⟩
        · simp only [Bool.not_eq_true] at hex
          simp only [hex, Bool.false_eq_true, if_false, hall, emitLErr_all]
          exact ⟨errExt_append p st _ (by simp [trailOf]), excBnd_none p⟩
    | collect =>
      cases selfData with
      | none => exact ⟨errExt_refl p st, excBnd_unexpected p _ _⟩
      | some d =>
        cases extra with
        | none => exact ⟨errExt_refl p st, excBnd_unexpected p _ _⟩
        | some c => exact ⟨errExt_refl p st, excBnd_none p⟩
    | skip => exact ⟨errExt_refl p st, excBnd_none p⟩
  | false =>
    cases selfData with
    | none =>
      exact ⟨errExt_refl p st, excBnd_unexpected p _ _⟩
    | some d =>
      by_cases hm : d.isMapping
      · simp only [dictFinish, Bool.false_eq_true, if_false, hm, if_true]
        cases pol with
        | forbid =>
          by_cases hex : (setDiff d.keys known).isEmpty
          · simp only [hex, if_true]
            exact ⟨errExt_refl p st, excBnd_none p⟩
          · simp only [Bool.not_eq_true] at hex
            simp only [hex, Bool.false_eq_true, if_false, hall, emitLErr_all]
            exact ⟨errExt_append p st _ (by simp [trailOf]), excBnd_none p⟩
        | collect =>
          cases extra with
          | none => exact ⟨errExt_refl p st, excBnd_unexpected p _ _⟩
          | some c => exact ⟨errExt_refl p st, excBnd_none p⟩
        | skip => exact ⟨errExt_refl p st, excBnd_none p⟩
      · simp only [Bool.not_eq_true] at hm
        simp only [dictFinish, Bool.false_eq_true, if_false, hm, hall, raiseBadType]
        by_cases hp : p = []
        · rw [if_pos (show p = [] ∧ True from ⟨hp, trivial⟩)]
          exact ⟨errExt_refl p st, excBnd_aggregate p _⟩
        · rw [if_neg (show ¬(p = [] ∧ True) from fun h => hp h.1)]
          exact ⟨errExt_refl p st, excBnd_load p _ _ (by simp [trailFor])⟩

theorem res_listFinish (cfg : Cfg) (hall : cfg.dt = .all) (p : Path)
    (selfData : Option Value) (expectedLen : Nat) (pol : ExtraPolicy)
    (ck : Bool) (extra : Option Value) (st : St) :
    ErrExt p st (listFinish cfg p selfData expectedLen pol ck extra st).st ∧
    ExcBnd p (listFinish cfg p selfData expectedLen pol ck extra st).exc := by
  have hforbid : ∀ (d : Value),
      ErrExt p st (listFinish cfg p (some d) expectedLen .forbid true extra st).st ∧
      ExcBnd p (listFinish cfg p (some d) expectedLen .forbid true extra st).exc := by
    intro d
    simp only [listFinish, if_true]
    by_cases hne : pyLen d = expectedLen
    · rw [if_neg (show ¬pyLen d ≠ expectedLen from fun h => h hne)]
      exact ⟨errExt_refl p st, excBnd_none p⟩
    · rw [if_pos hne]
      by_cases hlt : pyLen d < expectedLen
      · rw [if_pos hlt]
        simp only [hall, emitLErr_all]
        exact ⟨errExt_append p st _ (by simp [trailOf]), excBnd_none p⟩
      · rw [if_neg hlt]
        simp only [hall, emitLErr_all]
        exact ⟨errExt_append p st _ (by simp [trailOf]), excBnd_none p⟩
  have hcollect : ∀ (d : Value),
      ErrExt p st (listFinish cfg p (some d) expectedLen .collect true extra st).st ∧
      ExcBnd p (listFinish cfg p (some d) expectedLen .collect true extra st).exc := by
    intro d
    simp only [listFinish, if_true]
    by_cases hlt : pyLen d < expectedLen
    · rw [if_pos hlt]
      simp only [hall, emitLErr_all]
      exact ⟨errExt_append p st _ (by simp [trailOf]), excBnd_none p⟩
    · rw [if_neg hlt]
      exact ⟨errExt_refl p st, excBnd_none p⟩
  have hskip : ∀ (d : Value),
      ErrExt p st (listFinish cfg p (some d) expectedLen .skip true extra st).st ∧
      ExcBnd p (listFinish cfg p (some d) expectedLen .skip true extra st).exc := by
    intro d
    simp only [listFinish, if_true]
    by_cases hlt : pyLen d < expectedLen
    · rw [if_pos hlt]
      simp only [hall, emitLErr_all]
      exact ⟨errExt_append p st _ (by simp [trailOf]), excBnd_none p⟩
    · rw [if_neg hlt]
      exact ⟨errExt_refl p st, excBnd_none p⟩
  have hchecked : ∀ (d : Value),
      ErrExt p st (listFinish cfg p (some d) expectedLen pol true extra st).st ∧
      ExcBnd p (listFinish cfg p (some d) expectedLen pol true extra st).exc := by
    intro d
    cases pol with
    | forbid => exact hforbid d
    | collect => exact hcollect d
    | skip => exact hskip d
  cases ck with
  | true =>
    cases selfData with
    | none =>
      exact ⟨errExt_refl p st, excBnd_unexpected p _ _⟩
    | some d =>
      exact hchecked d
  | false =>
    cases selfData with
    | none =>
      exact ⟨errExt_refl p st, excBnd_unexpected p _ _⟩
    | some d =>
      by_cases hm : d.isSequence
      · have heq : listFinish cfg p (some d) expectedLen pol false extra st
            = listFinish cfg p (some d) expectedLen pol true extra st := by
          simp only [listFinish, Bool.false_eq_true, if_false, hm, if_true]
        rw [heq]
        exact hchecked d
      · simp only [Bool.not_eq_true] at hm
        simp only [listFinish, Bool.false_eq_true, if_false, hm, hall, raiseBadType]
        by_cases hp : p = []
        · rw [if_pos (show p = [] ∧ True from ⟨hp, trivial⟩)]
          exact ⟨errExt_refl p st, excBnd_aggregate p _⟩
        · rw [if_neg (show ¬(p = [] ∧ True) from fun h => hp h.1)]
          exact ⟨errExt_refl p st, excBnd_load p _ _ (by simp [trailFor])⟩

theorem excBnd_mono {p q : Path} (hlen : p.length ≤ q.length) {oe : Option Exc}
    (h : ExcBnd q oe) : ExcBnd p oe := by
  cases oe with
  | none => trivial
  | some e => exact fun ht => le_trans hlen (h ht)

/-- Passing a branch result through the `TypeLoadError` wrapper preserves the
depth bookkeeping: a caught error had a trail at least as deep as the branch. -/
theorem res_wrapTLE (cfg : Cfg) (q : Path) (r : BRes) (st : St)
    (h : ErrExt q st r.st ∧ ExcBnd q r.exc) :
    ErrExt q st (wrapTLE cfg q r).st ∧ ExcBnd q (wrapTLE cfg q r).exc := by
  cases r with
  | ok extra st' => exact h
  | err e extra st' =>
    simp only [wrapTLE]
    by_cases hc : (cfg.dt == .all && !q.isEmpty && isTLE e) = true
    · simp only [hc, if_true]
      have htle : isTLE e = true := by
        simp only [Bool.and_eq_true] at hc
        exact hc.2
      exact ⟨errExt_trans h.1 (errExt_append q st' e (h.2 htle)), excBnd_none q⟩
    · simp only [Bool.not_eq_true] at hc
      simp only [hc, Bool.false_eq_true, if_false]
      exact h

mutual

/-- Working below a parent path under `ALL`, dispatching one child only appends
errors whose trails are at least as deep as the parent, and any escaping
`TypeLoadError` is at least that deep too. -/
theorem errExt_dispatch (cfg : Cfg) (hall : cfg.dt = .all) (p : Path) (pinfo : ParentInfo)
    (pdata : Option Value) (keyEl : PathElem) (c : InpCrown) (ck hnf : Bool)
    (pextra : Option Value) (st : St) :
    ErrExt p st (runDispatch cfg p pinfo pdata keyEl c ck hnf pextra st).st ∧
    ExcBnd p (runDispatch cfg p pinfo pdata keyEl c ck hnf pextra st).exc := by
  cases c with
  | dict m pol =>
    simp only [runDispatch]
    cases hres : assignFromParent cfg p keyEl pinfo pdata .branch ck hnf st with
    | err e st' =>
      have h := res_assignBranch cfg hall p keyEl pinfo pdata ck hnf st
      rw [hres] at h
      exact h
    | ok a st' =>
      have h1 := res_assignBranch cfg hall p keyEl pinfo pdata ck hnf st
      rw [hres] at h1
      simp only []
      have h2 := errExt_dictBody cfg hall (p ++ [keyEl]) a.value m pol st'
      cases hbody : runDictBody cfg (p ++ [keyEl]) a.value m pol st' with
      | ok childExtra st2 =>
        rw [hbody] at h2
        cases childExtra with
        | some ev =>
          exact ⟨errExt_trans h1.1 (errExt_mono (by simp) h2.1), excBnd_none p⟩
        | none =>
          exact ⟨errExt_trans h1.1 (errExt_mono (by simp) h2.1), excBnd_none p⟩
      | err e ex2 st2 =>
        rw [hbody] at h2
        exact ⟨errExt_trans h1.1 (errExt_mono (by simp) h2.1),
               excBnd_mono (by simp) h2.2⟩
  | list m pol =>
    simp only [runDispatch]
    cases hres : assignFromParent cfg p keyEl pinfo pdata .branch ck hnf st with
    | err e st' =>
      have h := res_assignBranch cfg hall p keyEl pinfo pdata ck hnf st
      rw [hres] at h
      exact h
    | ok a st' =>
      have h1 := res_assignBranch cfg hall p keyEl pinfo pdata ck hnf st
      rw [hres] at h1
      simp only []
      have h2 := errExt_listBody cfg hall (p ++ [keyEl]) a.value m pol st'
      cases hbody : runListBody cfg (p ++ [keyEl]) a.value m pol st' with
      | ok childExtra st2 =>
        rw [hbody] at h2
        cases childExtra with
        | some ev =>
          exact ⟨errExt_trans h1.1 (errExt_mono (by simp) h2.1), excBnd_none p⟩
        | none =>
          exact ⟨errExt_trans h1.1 (errExt_mono (by simp) h2.1), excBnd_none p⟩
      | err e ex2 st2 =>
        rw [hbody] at h2
        exact ⟨errExt_trans h1.1 (errExt_mono (by simp) h2.1),
               excBnd_mono (by simp) h2.2⟩
  | field fid =>
    simp only [runDispatch]
    cases hres : runFieldCrown cfg p keyEl pinfo pdata fid ck hnf st with
    | ok flags st' =>
      have h := res_runFieldCrown cfg hall p keyEl pinfo pdata fid ck hnf st
      rw [hres] at h
      exact ⟨h.1, excBnd_none p⟩
    | err e st' =>
      have h := res_runFieldCrown cfg hall p keyEl pinfo pdata fid ck hnf st
      rw [hres] at h
      exact h
  | leafNone =>
    simp only [runDispatch]
    exact ⟨errExt_refl p st, excBnd_none p⟩
termination_by (sizeOf c, 2)

/-- The dict-children fold under `ALL` only appends errors at least as deep as the
branch path. -/
theorem errExt_dictEntries (cfg : Cfg) (hall : cfg.dt = .all) (p : Path)
    (selfData : Option Value) (req : List String) (entries : List (String × InpCrown))
    (ck hnf : Bool) (extra : Option Value) (st : St) :
    ErrExt p st (runDictEntries cfg p selfData req entries ck hnf extra st).st ∧
    ExcBnd p (runDictEntries cfg p selfData req entries ck hnf extra st).exc := by
  cases entries with
  | nil =>
    simp only [runDictEntries]
    exact ⟨errExt_refl p st, excBnd_none p⟩
  | cons hd rest =>
    obtain ⟨k, c⟩ := hd
    simp only [runDictEntries]
    cases hdis : runDispatch cfg p (.pdict req) selfData (.key k) c ck hnf extra st with
    | err e extra2 st' =>
      have h := errExt_dispatch cfg hall p (.pdict req) selfData (.key k) c ck hnf extra st
      rw [hdis] at h
      exact h
    | ok ck2 hnf2 extra2 st' =>
      have h := errExt_dispatch cfg hall p (.pdict req) selfData (.key k) c ck hnf extra st
      rw [hdis] at h
      have h2 := errExt_dictEntries cfg hall p selfData req rest ck2 hnf2 extra2 st'
      exact ⟨errExt_trans h.1 h2.1, h2.2⟩
termination_by (sizeOf entries, 0)

/-- The list-children fold under `ALL` only appends errors at least as deep as the
branch path. -/
theorem errExt_listEntries (cfg : Cfg) (hall : cfg.dt = .all) (p : Path)
    (selfData : Option Value) (total : Nat) (i : Nat) (entries : List InpCrown)
    (ck : Bool) (extra : Option Value) (st : St) :
    ErrExt p st (runListEntries cfg p selfData total i entries ck extra st).st ∧
    ExcBnd p (runListEntries cfg p selfData total i entries ck extra st).exc := by
  cases entries with
  | nil =>
    simp only [runListEntries]
    exact ⟨errExt_refl p st, excBnd_none p⟩
  | cons c rest =>
    simp only [runListEntries]
    cases hdis : runDispatch cfg p (.plist total) selfData (.idx i) c ck false extra st with
    | err e extra2 st' =>
      have h := errExt_dispatch cfg hall p (.plist total) selfData (.idx i) c ck false extra st
      rw [hdis] at h
      exact h
    | ok ck2 hnf2 extra2 st' =>
      have h := errExt_dispatch cfg hall p (.plist total) selfData (.idx i) c ck false extra st
      rw [hdis] at h
      have h2 := errExt_listEntries cfg hall p selfData total (i + 1) rest ck2 extra2 st'
      exact ⟨errExt_trans h.1 h2.1, h2.2⟩
termination_by (sizeOf entries, 0)

/-- A dict branch's body under `ALL` only appends errors at least as deep as its own
path, and any escaping `TypeLoadError` is at least that deep. -/
theorem errExt_dictBody (cfg : Cfg) (hall : cfg.dt = .all) (q : Path)
    (selfData : Option Value) (map : List (String × InpCrown)) (pol : ExtraPolicy)
    (st : St) :
    ErrExt q st (runDictBody cfg q selfData map pol st).st ∧
    ExcBnd q (runDictBody cfg q selfData map pol st).exc := by
  simp only [runDictBody]
  apply res_wrapTLE
  cases hent : runDictEntries cfg q selfData (requiredKeysOf cfg map) map false false
      (if cfg.canCollectExtra then some (.vdict []) else Option.none) st with
  | err e extra st' =>
    have h := errExt_dictEntries cfg hall q selfData (requiredKeysOf cfg map) map false false
      (if cfg.canCollectExtra then some (.vdict []) else Option.none) st
    rw [hent] at h
    exact h
  | ok ck extra st' =>
    have h := errExt_dictEntries cfg hall q selfData (requiredKeysOf cfg map) map false false
      (if cfg.canCollectExtra then some (.vdict []) else Option.none) st
    rw [hent] at h
    have h2 := res_dictFinish cfg hall q selfData (map.map Prod.fst) pol ck extra st'
    exact ⟨errExt_trans h.1 h2.1, h2.2⟩
termination_by (sizeOf map, 1)

/-- A list branch's body under `ALL` only appends errors at least as deep as its own
path, and any escaping `TypeLoadError` is at least that deep. -/
theorem errExt_listBody (cfg : Cfg) (hall : cfg.dt = .all) (q : Path)
    (selfData : Option Value) (map : List InpCrown) (pol : ExtraPolicy)
    (st : St) :
    ErrExt q st (runListBody cfg q selfData map pol st).st ∧
    ExcBnd q (runListBody cfg q selfData map pol st).exc := by
  simp only [runListBody]
  apply res_wrapTLE
  cases hsc : (if cfg.strictCoercion then strictCheck cfg q selfData st else Res.ok () st) with
  | err e st' =>
    have h : ErrExt q st ((if cfg.strictCoercion then strictCheck cfg q selfData st
        else Res.ok () st)).st ∧
        ExcBnd q ((if cfg.strictCoercion then strictCheck cfg q selfData st
        else Res.ok () st)).exc := by
      by_cases hb : cfg.strictCoercion
      · simp only [hb, if_true]
        exact res_strictCheck cfg hall q selfData st
      · simp only [Bool.not_eq_true] at hb
        simp only [hb, Bool.false_eq_true, if_false]
        exact ⟨errExt_refl q st, excBnd_none q⟩
    rw [hsc] at h
    exact h
  | ok u st' =>
    have h : ErrExt q st ((if cfg.strictCoercion then strictCheck cfg q selfData st
        else Res.ok () st)).st ∧
        ExcBnd q ((if cfg.strictCoercion then strictCheck cfg q selfData st
        else Res.ok () st)).exc := by
      by_cases hb : cfg.strictCoercion
      · simp only [hb, if_true]
        exact res_strictCheck cfg hall q selfData st
      · simp only [Bool.not_eq_true] at hb
        simp only [hb, Bool.false_eq_true, if_false]
        exact ⟨errExt_refl q st, excBnd_none q⟩
    rw [hsc] at h
    simp only []
    cases hent : runListEntries cfg q selfData map.length 0 map false
        (if cfg.canCollectExtra then some (.vlist (map.map listExtraSlot)) else Option.none)
        st' with
    | err e extra st2 =>
      have h2 := errExt_listEntries cfg hall q selfData map.length 0 map false
        (if cfg.canCollectExtra then some (.vlist (map.map listExtraSlot)) else Option.none) st'
      rw [hent] at h2
      exact ⟨errExt_trans h.1 h2.1, h2.2⟩
    | ok ck extra st2 =>
      have h2 := errExt_listEntries cfg hall q selfData map.length 0 map false
        (if cfg.canCollectExtra then some (.vlist (map.map listExtraSlot)) else Option.none) st'
      rw [hent] at h2
      have h3 := res_listFinish cfg hall q selfData map.length pol ck extra st2
      exact ⟨errExt_trans h.1 (errExt_trans h2.1 h3.1), h3.2⟩
termination_by (sizeOf map, 1)

end

theorem isNRFat_trail {p : Path} {e : Exc} (h : isNRFat p e = true) : trailOf e = p := by
  cases e with
  | load le t =>
    cases le <;> simp [isNRFat] at h <;> simp [trailOf, h]
  | unexpected u t => simp [isNRFat] at h
  | aggregate cs => simp [isNRFat] at h
  | excGroup cs => simp [isNRFat] at h

/-- Errors appended strictly below a path are never that path's own
missing-required-fields record. -/
theorem nrf_filter_deeper {p q : Path} (hq : p.length < q.length) {st st' : St}
    (h : ErrExt q st st') :
    st'.errors.filter (isNRFat p) = st.errors.filter (isNRFat p) := by
  obtain ⟨d, he, hb⟩ := h
  rw [he, List.filter_append]
  have hnil : d.filter (isNRFat p) = [] := by
    rw [List.filter_eq_nil_iff]
    intro e he' hcon
    have h1 := isNRFat_trail (p := p) (e := e) hcon
    have h2 := hb e he'
    rw [h1] at h2
    omega
  rw [hnil, List.append_nil]

theorem isNRFat_childPath (p : Path) (x : PathElem) (e : LErr) :
    isNRFat p (.load e (p ++ [x])) = false := by
  have hne : ¬(p ++ [x] = p) := by
    intro h
    have := congrArg List.length h
    simp at this
  cases e <;> simp [isNRFat, hne]

theorem isNRFat_guard (p : Path) (ks : List String) (d : Value) :
    isNRFat p (.load (.noRequiredFields ks d) p) = true := by
  simp [isNRFat]

/-- `_gen_field_assigment` under `ALL` never raises and never appends a
missing-required-fields record at the parent's own path. -/
theorem nrf_runFieldAssign (cfg : Cfg) (hall : cfg.dt = .all) (p : Path) (x : PathElem)
    (fid : String) (v : Value) (tgt : Target) (st : St) :
    ((runFieldAssign cfg (p ++ [x]) fid v tgt st).st).errors.filter (isNRFat p)
      = st.errors.filter (isNRFat p)
    ∧ ∀ e st2, runFieldAssign cfg (p ++ [x]) fid v tgt st ≠ .err e st2 := by
  simp only [runFieldAssign, hall]
  cases hl : cfg.loaders fid v with
  | ok w =>
    refine ⟨?_, by intro e st2 h; cases h⟩
    cases tgt <;> simp [assignTo, Res.st]
  | error r =>
    simp only [emitRaw]
    refine ⟨?_, by intro e st2 h; cases h⟩
    cases r with
    | lerr le =>
      simp [List.filter_append, rawToExc, isNRFat_childPath, Res.st]
    | unexp u =>
      simp [List.filter_append, rawToExc, isNRFat, Res.st]

/-- The optional-field extraction from a mapping parent under `ALL` never raises and
never appends a missing-required-fields record at the parent's own path. -/
theorem nrf_optFromMapping (cfg : Cfg) (hall : cfg.dt = .all) (p : Path) (k : String)
    (fid : String) (tgt : Target) (onMiss : St → St) (dm : List (String × Value))
    (ck : Bool) (st : St) (honm : ∀ s, (onMiss s).errors = s.errors) :
    ((optFromMapping cfg p k fid tgt onMiss (some (.vdict dm)) ck st).st).errors.filter (isNRFat p)
      = st.errors.filter (isNRFat p)
    ∧ ∀ e st2, optFromMapping cfg p k fid tgt onMiss (some (.vdict dm)) ck st ≠ .err e st2 := by
  cases ck with
  | false =>
    simp only [optFromMapping, Bool.false_eq_true, if_false]
    cases halo : alookup dm k with
    | some v =>
      simp only [halo]
      exact nrf_runFieldAssign cfg hall p (.key k) fid v tgt st
    | none =>
      simp only [halo]
      refine ⟨?_, by intro e st2 h; cases h⟩
      simp [Res.st, honm st]
  | true =>
    simp only [optFromMapping, if_true, pyContains]
    cases halo : alookup dm k with
    | some v =>
      simp only [halo, Option.isSome_some, subscript]
      exact nrf_runFieldAssign cfg hall p (.key k) fid v tgt st
    | none =>
      simp only [halo, Option.isSome_none]
      refine ⟨?_, by intro e st2 h; cases h⟩
      simp [Res.st, honm st]

/-- A `TypeLoadError` is never this branch's missing-required-fields record. -/
theorem isNRFat_of_isTLE {e : Exc} (p : Path) (h : isTLE e = true) : isNRFat p e = false := by
  cases e with
  | load le t => cases le <;> simp_all [isTLE, isNRFat]
  | unexpected u t => simp [isTLE] at h
  | aggregate cs => simp [isTLE] at h
  | excGroup cs => simp [isTLE] at h

/-- The `TypeLoadError` wrapper never appends a missing-required-fields record. -/
theorem nrf_wrapTLE (cfg : Cfg) (q : Path) (r : BRes) :
    (((wrapTLE cfg q r).st).errors).filter (isNRFat q) = ((r.st).errors).filter (isNRFat q) := by
  cases r with
  | ok extra st' => rfl
  | err e extra st' =>
    simp only [wrapTLE]
    by_cases hc : (cfg.dt == .all && !q.isEmpty && isTLE e) = true
    · have htle : isTLE e = true := by
        simp only [Bool.and_eq_true] at hc
        exact hc.2
      simp [hc, BRes.st, List.filter_append, isNRFat_of_isTLE q htle]
    · rw [Bool.not_eq_true] at hc
      simp [hc, BRes.st]

/-- An exception escaping the wrapper at a non-root path under `ALL` is not a
`TypeLoadError` (the wrapper would have caught it). -/
theorem wrapTLE_err_not_TLE (cfg : Cfg) (hall : cfg.dt = .all) (q : Path) (hq : q ≠ [])
    (r : BRes) (e : Exc) (x : Option Value) (s : St)
    (h : wrapTLE cfg q r = .err e x s) : isTLE e = false := by
  cases r with
  | ok extra st' => cases h
  | err e0 x0 s0 =>
    simp only [wrapTLE] at h
    by_cases hc : (cfg.dt == .all && !q.isEmpty && isTLE e0) = true
    · rw [if_pos hc] at h
      cases h
    · rw [Bool.not_eq_true] at hc
      rw [hc] at h
      simp only [Bool.false_eq_true, if_false] at h
      cases h
      simp only [hall, beq_self_eq_true, Bool.true_and, Bool.and_eq_false_imp] at hc
      exact hc (by simpa using hq)

/-- An exception escaping a dict branch's body at a non-root path under `ALL` is not
a `TypeLoadError`. -/
theorem runDictBody_err_not_TLE (cfg : Cfg) (hall : cfg.dt = .all) (q : Path) (hq : q ≠ [])
    (sd : Option Value) (m : List (String × InpCrown)) (pol : ExtraPolicy) (st : St)
    (e : Exc) (x : Option Value) (s : St)
    (h : runDictBody cfg q sd m pol st = .err e x s) : isTLE e = false := by
  simp only [runDictBody] at h
  exact wrapTLE_err_not_TLE cfg hall q hq _ e x s h

/-- An exception escaping a list branch's body at a non-root path under `ALL` is not
a `TypeLoadError`. -/
theorem runListBody_err_not_TLE (cfg : Cfg) (hall : cfg.dt = .all) (q : Path) (hq : q ≠ [])
    (sd : Option Value) (m : List InpCrown) (pol : ExtraPolicy) (st : St)
    (e : Exc) (x : Option Value) (s : St)
    (h : runListBody cfg q sd m pol st = .err e x s) : isTLE e = false := by
  simp only [runListBody] at h
  exact wrapTLE_err_not_TLE cfg hall q hq _ e x s h

/-- The dict branch tail (type check and extra policy) never appends a
missing-required-fields record. -/
theorem nrf_dictFinish (cfg : Cfg) (hall : cfg.dt = .all) (p : Path)
    (selfData : Option Value) (known : List String) (pol : ExtraPolicy)
    (ck : Bool) (extra : Option Value) (st : St) :
    (((dictFinish cfg p selfData known pol ck extra st).st).errors).filter (isNRFat p)
      = st.errors.filter (isNRFat p) := by
  cases ck with
  | true =>
    simp only [dictFinish, if_true]
    cases pol with
    | forbid =>
      cases selfData with
      | none => rfl
      | some d =>
        by_cases hex : (setDiff d.keys known).isEmpty
        · simp [hex, BRes.st]
        · rw [Bool.not_eq_true] at hex
          simp [hex, hall, emitLErr_all, BRes.st, List.filter_append, isNRFat]
    | collect =>
      cases selfData with
      | none => rfl
      | some d =>
        cases extra with
        | none => rfl
        | some c => rfl
    | skip => rfl
  | false =>
    cases selfData with
    | none => rfl
    | some d =>
      by_cases hm : d.isMapping
      · simp only [dictFinish, Bool.false_eq_true, if_false, hm, if_true]
        cases pol with
        | forbid =>
          by_cases hex : (setDiff d.keys known).isEmpty
          · simp [hex, BRes.st]
          · rw [Bool.not_eq_true] at hex
            simp [hex, hall, emitLErr_all, BRes.st, List.filter_append, isNRFat]
        | collect =>
          cases extra with
          | none => simp [BRes.st]
          | some c => simp [BRes.st]
        | skip => simp [BRes.st]
      · rw [Bool.not_eq_true] at hm
        simp only [dictFinish, Bool.false_eq_true, if_false, hm, hall, raiseBadType]
        by_cases hp : p = []
        · rw [if_pos (show p = [] ∧ True from ⟨hp, trivial⟩)]
          rfl
        · rw [if_neg (show ¬(p = [] ∧ True) from fun h => hp h.1)]
          rfl

/-- Dispatching one child of a dict branch whose slice is a mapping, under `ALL`:
the branch's own missing-required-fields record is appended exactly when the child
performs a lookup, its key is absent, and the has-not-found flag is still clear;
the flag afterwards records whether the lookup failed; and an escaping exception is
never a `TypeLoadError`. -/
theorem nrf_dispatch (cfg : Cfg) (hall : cfg.dt = .all) (p : Path) (req : List String)
    (dm : List (String × Value)) (k : String) (c : InpCrown) (ck hnf : Bool)
    (pextra : Option Value) (st : St) :
    ((runDispatch cfg p (.pdict req) (some (.vdict dm)) (.key k) c ck hnf pextra st).st).errors.filter (isNRFat p)
      = st.errors.filter (isNRFat p)
        ++ (if hnf = false ∧ (triggersLookup cfg c && (alookup dm k).isNone) = true
            then [.load (.noRequiredFields (setDiff req ((Value.vdict dm).keys)) (.vdict dm)) p]
            else [])
    ∧ (∀ ck2 hnf2 extra2 st2,
        runDispatch cfg p (.pdict req) (some (.vdict dm)) (.key k) c ck hnf pextra st
          = .ok ck2 hnf2 extra2 st2 →
        hnf2 = (hnf || (triggersLookup cfg c && (alookup dm k).isNone)))
    ∧ (∀ e extra2 st2,
        runDispatch cfg p (.pdict req) (some (.vdict dm)) (.key k) c ck hnf pextra st
          = .err e extra2 st2 →
        isTLE e = false) := by
  cases c with
  | leafNone =>
    simp only [runDispatch, triggersLookup]
    refine ⟨by simp [DRes.st], ?_, ?_⟩
    · intro ck2 hnf2 extra2 st2 heq
      cases heq
      simp
    · intro e extra2 st2 heq
      cases heq
  | dict m pol =>
    simp only [runDispatch, assignFromParent, subscript, triggersLookup, hall]
    cases halo : alookup dm k with
    | some v =>
      simp only [halo]
      have hb := errExt_dictBody cfg hall (p ++ [PathElem.key k]) (some v) m pol st
      cases hbody : runDictBody cfg (p ++ [PathElem.key k]) (some v) m pol st with
      | ok ce st2 =>
        rw [hbody] at hb
        have hfil := nrf_filter_deeper (p := p) (by simp) hb.1
        cases ce with
        | some ev =>
          refine ⟨by simpa [DRes.st, BRes.st] using hfil, ?_, ?_⟩
          · intro ck2 hnf2 extra2 st2' heq
            cases heq
            simp
          · intro e extra2 st2' heq
            cases heq
        | none =>
          refine ⟨by simpa [DRes.st, BRes.st] using hfil, ?_, ?_⟩
          · intro ck2 hnf2 extra2 st2' heq
            cases heq
            simp
          · intro e extra2 st2' heq
            cases heq
      | err e ex2 st2 =>
        rw [hbody] at hb
        have hfil := nrf_filter_deeper (p := p) (by simp) hb.1
        refine ⟨by simpa [DRes.st, BRes.st] using hfil, ?_, ?_⟩
        · intro ck2 hnf2 extra2 st2' heq
          cases heq
        · intro e2 extra2 st2' heq
          cases heq
          exact runDictBody_err_not_TLE cfg hall (p ++ [PathElem.key k]) (by simp)
            (some v) m pol st e ex2 st2 hbody
    | none =>
      simp only [halo]
      cases hnf with
      | true =>
        simp only [if_true]
        have hb := errExt_dictBody cfg hall (p ++ [PathElem.key k]) Option.none m pol st
        cases hbody : runDictBody cfg (p ++ [PathElem.key k]) Option.none m pol st with
        | ok ce st2 =>
          rw [hbody] at hb
          have hfil := nrf_filter_deeper (p := p) (by simp) hb.1
          cases ce with
          | some ev =>
            refine ⟨by simpa [DRes.st, BRes.st] using hfil, ?_, ?_⟩
            · intro ck2 hnf2 extra2 st2' heq
              cases heq
              simp
            · intro e extra2 st2' heq
              cases heq
          | none =>
            refine ⟨by simpa [DRes.st, BRes.st] using hfil, ?_, ?_⟩
            · intro ck2 hnf2 extra2 st2' heq
              cases heq
              simp
            · intro e extra2 st2' heq
              cases heq
        | err e ex2 st2 =>
          rw [hbody] at hb
          have hfil := nrf_filter_deeper (p := p) (by simp) hb.1
          refine ⟨by simpa [DRes.st, BRes.st] using hfil, ?_, ?_⟩
          · intro ck2 hnf2 extra2 st2' heq
            cases heq
          · intro e2 extra2 st2' heq
            cases heq
            exact runDictBody_err_not_TLE cfg hall (p ++ [PathElem.key k]) (by simp)
              Option.none m pol st e ex2 st2 hbody
      | false =>
        simp only [parentNotFoundErr, Bool.false_eq_true, if_false]
        have hb := errExt_dictBody cfg hall (p ++ [PathElem.key k]) Option.none m pol
          { st with errors := st.errors
              ++ [.load (.noRequiredFields (setDiff req ((Value.vdict dm).keys)) (.vdict dm)) p] }
        cases hbody : runDictBody cfg (p ++ [PathElem.key k]) Option.none m pol
            { st with errors := st.errors
                ++ [.load (.noRequiredFields (setDiff req ((Value.vdict dm).keys)) (.vdict dm)) p] } with
        | ok ce st2 =>
          rw [hbody] at hb
          have hfil := nrf_filter_deeper (p := p) (by simp) hb.1
          cases ce with
          | some ev =>
            refine ⟨?_, ?_, ?_⟩
            · simp only [DRes.st, BRes.st] at hfil ⊢
              rw [hfil]
              simp [List.filter_append, isNRFat_guard, halo]
            · intro ck2 hnf2 extra2 st2' heq
              cases heq
              simp [halo]
            · intro e extra2 st2' heq
              cases heq
          | none =>
            refine ⟨?_, ?_, ?_⟩
            · simp only [DRes.st, BRes.st] at hfil ⊢
              rw [hfil]
              simp [List.filter_append, isNRFat_guard, halo]
            · intro ck2 hnf2 extra2 st2' heq
              cases heq
              simp [halo]
            · intro e extra2 st2' heq
              cases heq
        | err e ex2 st2 =>
          rw [hbody] at hb
          have hfil := nrf_filter_deeper (p := p) (by simp) hb.1
          refine ⟨?_, ?_, ?_⟩
          · simp only [DRes.st, BRes.st] at hfil ⊢
            rw [hfil]
            simp [List.filter_append, isNRFat_guard, halo]
          · intro ck2 hnf2 extra2 st2' heq
            cases heq
          · intro e2 extra2 st2' heq
            cases heq
            exact runDictBody_err_not_TLE cfg hall (p ++ [PathElem.key k]) (by simp)
              Option.none m pol _ e ex2 st2 hbody
  | list m pol =>
    simp only [runDispatch, assignFromParent, subscript, triggersLookup, hall]
    cases halo : alookup dm k with
    | some v =>
      simp only [halo]
      have hb := errExt_listBody cfg hall (p ++ [PathElem.key k]) (some v) m pol st
      cases hbody : runListBody cfg (p ++ [PathElem.key k]) (some v) m pol st with
      | ok ce st2 =>
        rw [hbody] at hb
        have hfil := nrf_filter_deeper (p := p) (by simp) hb.1
        cases ce with
        | some ev =>
          refine ⟨by simpa [DRes.st, BRes.st] using hfil, ?_, ?_⟩
          · intro ck2 hnf2 extra2 st2' heq
            cases heq
            simp
          · intro e extra2 st2' heq
            cases heq
        | none =>
          refine ⟨by simpa [DRes.st, BRes.st] using hfil, ?_, ?_⟩
          · intro ck2 hnf2 extra2 st2' heq
            cases heq
            simp
          · intro e extra2 st2' heq
            cases heq
      | err e ex2 st2 =>
        rw [hbody] at hb
        have hfil := nrf_filter_deeper (p := p) (by simp) hb.1
        refine ⟨by simpa [DRes.st, BRes.st] using hfil, ?_, ?_⟩
        · intro ck2 hnf2 extra2 st2' heq
          cases heq
        · intro e2 extra2 st2' heq
          cases heq
          exact runListBody_err_not_TLE cfg hall (p ++ [PathElem.key k]) (by simp)
            (some v) m pol st e ex2 st2 hbody
    | none =>
      simp only [halo]
      cases hnf with
      | true =>
        simp only [if_true]
        have hb := errExt_listBody cfg hall (p ++ [PathElem.key k]) Option.none m pol st
        cases hbody : runListBody cfg (p ++ [PathElem.key k]) Option.none m pol st with
        | ok ce st2 =>
          rw [hbody] at hb
          have hfil := nrf_filter_deeper (p := p) (by simp) hb.1
          cases ce with
          | some ev =>
            refine ⟨by simpa [DRes.st, BRes.st] using hfil, ?_, ?_⟩
            · intro ck2 hnf2 extra2 st2' heq
              cases heq
              simp
            · intro e extra2 st2' heq
              cases heq
          | none =>
            refine ⟨by simpa [DRes.st, BRes.st] using hfil, ?_, ?_⟩
            · intro ck2 hnf2 extra2 st2' heq
              cases heq
              simp
            · intro e extra2 st2' heq
              cases heq
        | err e ex2 st2 =>
          rw [hbody] at hb
          have hfil := nrf_filter_deeper (p := p) (by simp) hb.1
          refine ⟨by simpa [DRes.st, BRes.st] using hfil, ?_, ?_⟩
          · intro ck2 hnf2 extra2 st2' heq
            cases heq
          · intro e2 extra2 st2' heq
            cases heq
            exact runListBody_err_not_TLE cfg hall (p ++ [PathElem.key k]) (by simp)
              Option.none m pol st e ex2 st2 hbody
      | false =>
        simp only [parentNotFoundErr, Bool.false_eq_true, if_false]
        have hb := errExt_listBody cfg hall (p ++ [PathElem.key k]) Option.none m pol
          { st with errors := st.errors
              ++ [.load (.noRequiredFields (setDiff req ((Value.vdict dm).keys)) (.vdict dm)) p] }
        cases hbody : runListBody cfg (p ++ [PathElem.key k]) Option.none m pol
            { st with errors := st.errors
                ++ [.load (.noRequiredFields (setDiff req ((Value.vdict dm).keys)) (.vdict dm)) p] } with
        | ok ce st2 =>
          rw [hbody] at hb
          have hfil := nrf_filter_deeper (p := p) (by simp) hb.1
          cases ce with
          | some ev =>
            refine ⟨?_, ?_, ?_⟩
            · simp only [DRes.st, BRes.st] at hfil ⊢
              rw [hfil]
              simp [List.filter_append, isNRFat_guard, halo]
            · intro ck2 hnf2 extra2 st2' heq
              cases heq
              simp [halo]
            · intro e extra2 st2' heq
              cases heq
          | none =>
            refine ⟨?_, ?_, ?_⟩
            · simp only [DRes.st, BRes.st] at hfil ⊢
              rw [hfil]
              simp [List.filter_append, isNRFat_guard, halo]
            · intro ck2 hnf2 extra2 st2' heq
              cases heq
              simp [halo]
            · intro e extra2 st2' heq
              cases heq
        | err e ex2 st2 =>
          rw [hbody] at hb
          have hfil := nrf_filter_deeper (p := p) (by simp) hb.1
          refine ⟨?_, ?_, ?_⟩
          · simp only [DRes.st, BRes.st] at hfil ⊢
            rw [hfil]
            simp [List.filter_append, isNRFat_guard, halo]
          · intro ck2 hnf2 extra2 st2' heq
            cases heq
          · intro e2 extra2 st2' heq
            cases heq
            exact runListBody_err_not_TLE cfg hall (p ++ [PathElem.key k]) (by simp)
              Option.none m pol _ e ex2 st2 hbody
  | field fid =>
    simp only [runDispatch, triggersLookup]
    by_cases hreq : (cfg.fieldInfo fid).isRequired = true
    · simp only [runFieldCrown, hreq, if_true, assignFromParent, subscript, hall]
      cases halo : alookup dm k with
      | some v =>
        simp only [halo]
        have hfa := nrf_runFieldAssign cfg hall p (.key k) fid v (.tofield fid) st
        cases hra : runFieldAssign cfg (p ++ [PathElem.key k]) fid v (.tofield fid) st with
        | ok u st2 =>
          rw [hra] at hfa
          refine ⟨by simpa [Res.st] using hfa.1, ?_, ?_⟩
          · intro ck2 hnf2 extra2 st2' heq
            cases heq
            simp
          · intro e extra2 st2' heq
            cases heq
        | err e st2 =>
          exact absurd hra (hfa.2 e st2)
      | none =>
        simp only [halo]
        cases hnf with
        | true =>
          simp only [if_true]
          refine ⟨by simp [DRes.st], ?_, ?_⟩
          · intro ck2 hnf2 extra2 st2' heq
            cases heq
            simp
          · intro e extra2 st2' heq
            cases heq
        | false =>
          simp only [parentNotFoundErr, Bool.false_eq_true, if_false]
          refine ⟨?_, ?_, ?_⟩
          · simp [DRes.st, List.filter_append, isNRFat_guard, halo, hreq]
          · intro ck2 hnf2 extra2 st2' heq
            cases heq
            simp [halo, hreq]
          · intro e extra2 st2' heq
            cases heq
    · rw [Bool.not_eq_true] at hreq
      simp only [runFieldCrown, hreq, Bool.false_eq_true, if_false]
      have honm : ∀ s : St,
          ((if cfg.isPacked (cfg.fieldInfo fid) then id
            else fun s => assignTo s (.tofield fid) (defaultValue (cfg.fieldInfo fid).default)) s).errors
            = s.errors := by
        intro s
        cases cfg.isPacked (cfg.fieldInfo fid) <;> simp [assignTo]
      have hopt := nrf_optFromMapping cfg hall p k fid
        (if cfg.isPacked (cfg.fieldInfo fid) then Target.topacked fid else Target.tofield fid)
        (if cfg.isPacked (cfg.fieldInfo fid) then id
         else fun s => assignTo s (.tofield fid) (defaultValue (cfg.fieldInfo fid).default))
        dm ck st honm
      cases hom : optFromMapping cfg p k fid
          (if cfg.isPacked (cfg.fieldInfo fid) then Target.topacked fid else Target.tofield fid)
          (if cfg.isPacked (cfg.fieldInfo fid) then id
           else fun s => assignTo s (.tofield fid) (defaultValue (cfg.fieldInfo fid).default))
          (some (.vdict dm)) ck st with
      | ok u st2 =>
        rw [hom] at hopt
        refine ⟨by simpa [Res.st, hreq] using hopt.1, ?_, ?_⟩
        · intro ck2 hnf2 extra2 st2' heq
          cases heq
          simp [hreq]
        · intro e extra2 st2' heq
          cases heq
      | err e st2 =>
        exact absurd hom (hopt.2 e st2)

/-- Folding over a dict branch's children under `ALL`, with the branch's slice a
mapping: a completed fold appends the branch's missing-required-fields record
exactly once iff the flag was clear and some lookup-performing child's key is
absent; an aborted fold has appended it at most once, only if the flag was clear,
and never aborts with a `TypeLoadError`. -/
theorem nrf_dictEntries (cfg : Cfg) (hall : cfg.dt = .all) (p : Path) (req : List String)
    (dm : List (String × Value)) (entries : List (String × InpCrown)) (ck hnf : Bool)
    (extra : Option Value) (st : St) :
    (∀ ck2 extra2 st2,
        runDictEntries cfg p (some (.vdict dm)) req entries ck hnf extra st
          = .ok ck2 extra2 st2 →
        st2.errors.filter (isNRFat p)
          = st.errors.filter (isNRFat p)
            ++ (if hnf = false
                  ∧ entries.any (fun e => triggersLookup cfg e.2 && (alookup dm e.1).isNone) = true
                then [.load (.noRequiredFields (setDiff req ((Value.vdict dm).keys)) (.vdict dm)) p]
                else []))
    ∧ (∀ e extra2 st2,
        runDictEntries cfg p (some (.vdict dm)) req entries ck hnf extra st
          = .err e extra2 st2 →
        isTLE e = false
        ∧ (st2.errors.filter (isNRFat p) = st.errors.filter (isNRFat p)
           ∨ (hnf = false
              ∧ st2.errors.filter (isNRFat p)
                = st.errors.filter (isNRFat p)
                  ++ [.load (.noRequiredFields (setDiff req ((Value.vdict dm).keys)) (.vdict dm)) p]))) := by
  induction entries generalizing ck hnf extra st with
  | nil =>
    simp only [runDictEntries]
    refine ⟨?_, ?_⟩
    · intro ck2 extra2 st2 heq
      cases heq
      simp
    · intro e extra2 st2 heq
      cases heq
  | cons hd rest ih =>
    obtain ⟨k, c⟩ := hd
    simp only [runDictEntries]
    have hd1 := nrf_dispatch cfg hall p req dm k c ck hnf extra st
    cases hdis : runDispatch cfg p (.pdict req) (some (.vdict dm)) (.key k) c ck hnf extra st with
    | err e0 extra0 st0 =>
      have hfil := hd1.1
      rw [hdis] at hfil
      simp only [DRes.st] at hfil
      have htle := hd1.2.2 e0 extra0 st0 hdis
      refine ⟨?_, ?_⟩
      · intro ck2 extra2 st2 heq
        cases heq
      · intro e extra2 st2 heq
        cases heq
        refine ⟨htle, ?_⟩
        by_cases hcond : hnf = false ∧ (triggersLookup cfg c && (alookup dm k).isNone) = true
        · right
          refine ⟨hcond.1, ?_⟩
          rw [hfil, if_pos hcond]
        · left
          rw [hfil, if_neg hcond]
          simp
    | ok ck0 hnf0 extra0 st0 =>
      have hflag := hd1.2.1 ck0 hnf0 extra0 st0 hdis
      have hfil := hd1.1
      rw [hdis] at hfil
      simp only [DRes.st] at hfil
      have hih := ih ck0 hnf0 extra0 st0
      refine ⟨?_, ?_⟩
      · intro ck2 extra2 st2 heq
        have h2 := hih.1 ck2 extra2 st2 heq
        rw [h2, hfil, hflag]
        simp only [List.any_cons]
        cases hnf with
        | true => simp
        | false =>
          by_cases hb1 : (triggersLookup cfg c && (alookup dm k).isNone) = true
          · simp [hb1]
          · rw [Bool.not_eq_true] at hb1
            simp only [hb1]
            simp only [Bool.false_or]
            simp
      · intro e extra2 st2 heq
        have h2 := hih.2 e extra2 st2 heq
        refine ⟨h2.1, ?_⟩
        have h3 := h2.2
        rw [hfil, hflag] at h3
        cases hnf with
        | true =>
          rcases h3 with h3 | h3
          · left
            rw [h3]
            simp
          · exact absurd h3.1 (by simp)
        | false =>
          by_cases hb1 : (triggersLookup cfg c && (alookup dm k).isNone) = true
          · simp only [hb1] at h3
            rcases h3 with h3 | h3
            · right
              refine ⟨rfl, ?_⟩
              rw [h3]
              simp
            · exact absurd h3.1 (by simp)
          · rw [Bool.not_eq_true] at hb1
            simp only [hb1] at h3
            rcases h3 with h3 | h3
            · left
              rw [h3]
              simp
            · right
              refine ⟨rfl, ?_⟩
              rw [h3.2]
              simp

/-- **C8, counterexample.** A dict branch whose only child is a `None` leaf has that
key in its required-key set, and the key is absent from the empty input, yet the
loader appends *zero* missing-required-fields errors and the load succeeds: a
`None` leaf emits no code, so nothing ever looks the key up. -/
theorem none_leaf_required_key_no_error :
    requiredKeysOf c8Cfg [("k", InpCrown.leafNone)] = ["k"]
    ∧ setDiff (requiredKeysOf c8Cfg [("k", InpCrown.leafNone)]) ((Value.vdict []).keys) = ["k"]
    ∧ loadModel c8Cfg (.dict [("k", .leafNone)] .skip) (.vdict []) = .ok (.vdict []) := by
  refine ⟨rfl, rfl, ?_⟩
  simp [loadModel, runDictBody, runListBody, runDictEntries, runListEntries, runDispatch,
    runFieldCrown, optFromMapping, assignFromParent, runFieldAssign, emitRaw, emitLErr,
    unexpCatch, raiseBadType, dictFinish, listFinish, wrapTLE, isTLE, strictCheck, subscript,
    alookup, upsert, assignTo, pyContains, setDiff, requiredKeysOf, Cfg.fieldInfo,
    Cfg.canCollectExtra, Cfg.extraTargets, Cfg.isPacked, hasDeclaredDefault, defaultValue,
    parentNotFoundErr, badTypeErrOf, trailFor, Value.keys, Value.isMapping, Value.isSequence,
    pyLen, runExtraTargetsAssign, targetsAssignRequired, targetsAssignAll, buildRecord,
    buildParams, crownPolicy, extraWrite, collectUnknown, listExtraSlot, rawToExc, c8Cfg]

/-- **C8** (amended). Under the `ALL` level, for one dict branch whose slice of the
input is a mapping: when the branch's body completes, it has appended its
missing-required-fields record exactly once if some lookup-performing child
(a nested branch or a required field leaf) has its key absent from the mapping, and
not at all otherwise — in particular required keys whose children perform no lookup
(`None` leaves) trigger nothing by themselves; when the body aborts, the record was
appended at most once.  The single record always lists the branch's whole
required-key set minus the input's key set. -/
theorem dict_branch_single_missing_fields_error (cfg : Cfg) (hall : cfg.dt = .all)
    (q : Path) (dm : List (String × Value)) (map : List (String × InpCrown))
    (pol : ExtraPolicy) (st : St) :
    (∀ extra2 st2,
        runDictBody cfg q (some (.vdict dm)) map pol st = .ok extra2 st2 →
        st2.errors.filter (isNRFat q)
          = st.errors.filter (isNRFat q)
            ++ (if map.any (fun e => triggersLookup cfg e.2 && (alookup dm e.1).isNone) = true
                then [.load (.noRequiredFields
                        (setDiff (requiredKeysOf cfg map) ((Value.vdict dm).keys)) (.vdict dm)) q]
                else []))
    ∧ (∀ e extra2 st2,
        runDictBody cfg q (some (.vdict dm)) map pol st = .err e extra2 st2 →
        st2.errors.filter (isNRFat q) = st.errors.filter (isNRFat q)
        ∨ st2.errors.filter (isNRFat q)
            = st.errors.filter (isNRFat q)
              ++ [.load (.noRequiredFields
                    (setDiff (requiredKeysOf cfg map) ((Value.vdict dm).keys)) (.vdict dm)) q]) := by
  have hfold := nrf_dictEntries cfg hall q (requiredKeysOf cfg map) dm map false false
    (if cfg.canCollectExtra then some (.vdict []) else Option.none) st
  simp only [runDictBody]
  cases hent : runDictEntries cfg q (some (.vdict dm)) (requiredKeysOf cfg map) map false false
      (if cfg.canCollectExtra then some (.vdict []) else Option.none) st with
  | err e0 x0 s0 =>
    have h2 := hfold.2 e0 x0 s0 hent
    refine ⟨?_, ?_⟩
    · intro extra2 st2 heq
      simp only [wrapTLE, h2.1, Bool.and_false, Bool.false_eq_true, if_false] at heq
      cases heq
    · intro e extra2 st2 heq
      simp only [wrapTLE, h2.1, Bool.and_false, Bool.false_eq_true, if_false] at heq
      cases heq
      rcases h2.2 with h3 | h3
      · exact Or.inl h3
      · exact Or.inr h3.2
  | ok ck0 x0 s0 =>
    have h1 := hfold.1 ck0 x0 s0 hent
    have hf := nrf_dictFinish cfg hall q (some (.vdict dm)) (map.map Prod.fst) pol ck0 x0 s0
    refine ⟨?_, ?_⟩
    · intro extra2 st2 heq
      have hw := nrf_wrapTLE cfg q (dictFinish cfg q (some (.vdict dm)) (map.map Prod.fst) pol ck0 x0 s0)
      rw [heq] at hw
      rw [hf, h1] at hw
      exact hw.trans (congrArg (fun l => List.filter (isNRFat q) st.errors ++ l)
        (if_congr (by simp) rfl rfl))
    · intro e extra2 st2 heq
      have hw := nrf_wrapTLE cfg q (dictFinish cfg q (some (.vdict dm)) (map.map Prod.fst) pol ck0 x0 s0)
      rw [heq] at hw
      rw [hf, h1] at hw
      by_cases hcond : map.any (fun e => triggersLookup cfg e.2 && (alookup dm e.1).isNone) = true
      · right
        exact hw.trans (by rw [if_pos (show false = false ∧ _ = true from ⟨rfl, hcond⟩)])
      · left
        refine hw.trans ?_
        rw [if_neg (show ¬(false = false ∧ _ = true) from fun h => hcond h.2)]
        simp

/-- **C8, witness.** A branch with one required field leaf and one `None` leaf, on
an empty input mapping: the body completes with exactly one missing-required-fields
record, listing both required keys. -/
theorem dict_branch_single_missing_fields_error_witness :
    c8Cfg.dt = .all
    ∧ ∃ extra2 st2,
        runDictBody c8Cfg [] (some (.vdict []))
            [("a", InpCrown.field "a"), ("b", InpCrown.leafNone)] .skip ⟨[], false, [], []⟩
          = .ok extra2 st2
        ∧ st2.errors.filter (isNRFat [])
            = [.load (.noRequiredFields ["a", "b"] (.vdict [])) []] := by
  refine ⟨rfl, ?_⟩
  have hrun : runDictBody c8Cfg [] (some (.vdict []))
      [("a", InpCrown.field "a"), ("b", InpCrown.leafNone)] .skip ⟨[], false, [], []⟩
      = .ok Option.none
          ⟨[.load (.noRequiredFields ["a", "b"] (.vdict [])) []], false, [], []⟩ := by
    simp [runDictBody, runDictEntries, runDispatch, runFieldCrown, assignFromParent,
      runFieldAssign, emitRaw, emitLErr, unexpCatch, raiseBadType, dictFinish, wrapTLE,
      isTLE, subscript, alookup, setDiff, requiredKeysOf, Cfg.fieldInfo, Cfg.canCollectExtra,
      parentNotFoundErr, trailFor, Value.keys, Value.isMapping, c8Cfg]
  refine ⟨Option.none, _, hrun, ?_⟩
  have h := (dict_branch_single_missing_fields_error c8Cfg rfl [] []
      [("a", InpCrown.field "a"), ("b", InpCrown.leafNone)] .skip ⟨[], false, [], []⟩).1
      Option.none _ hrun
  rw [h]
  simp [triggersLookup, alookup, Cfg.fieldInfo, c8Cfg, requiredKeysOf, setDiff, Value.keys,
    isNRFat]

/-! ## Absence of excluded-type rejections (towards claim C5) -/

theorem excFreeList_append (a b : List Exc) :
    excFreeList (a ++ b) = (excFreeList a && excFreeList b) := by
  induction a with
  | nil => simp [excFreeList]
  | cons e r ih => simp [excFreeList, ih, Bool.and_assoc]

theorem excfree_unexpCatch (dt : DebugTrail) (path : Path) (u : UTag) (st : St)
    (hst : excFreeList st.errors = true) :
    excFreeList ((unexpCatch dt path u st).st).errors = true
    ∧ excOptFree (unexpCatch dt path u st).exc = true := by
  cases dt <;> simp [unexpCatch, Res.st, Res.exc, excOptFree, excFree, excFreeList_append,
    excFreeList, hst]

theorem excfree_raiseBadType (dt : DebugTrail) (p : Path) (e : LErr) (st : St)
    (he : lerrFree e = true) (hst : excFreeList st.errors = true) :
    excFreeList ((raiseBadType dt p e st).st).errors = true
    ∧ excOptFree (raiseBadType dt p e st).exc = true := by
  simp only [raiseBadType]
  by_cases hc : p = [] ∧ dt = .all
  · rw [if_pos hc]
    simp [Res.st, Res.exc, excOptFree, excFree, excFreeList, he, hst]
  · rw [if_neg hc]
    simp [Res.st, Res.exc, excOptFree, excFree, he, hst]

theorem excfree_emitLErr (dt : DebugTrail) (path : Path) (e : LErr) (st : St)
    (he : lerrFree e = true) (hst : excFreeList st.errors = true) :
    excFreeList ((emitLErr dt path e st).st).errors = true
    ∧ excOptFree (emitLErr dt path e st).exc = true := by
  cases dt <;> simp [emitLErr, Res.st, Res.exc, excOptFree, excFree, excFreeList_append,
    excFreeList, he, hst]

theorem excfree_emitRaw (dt : DebugTrail) (path : Path) (r : RawExc) (st : St)
    (hr : rawFree r = true) (hst : excFreeList st.errors = true) :
    excFreeList ((emitRaw dt path r st).st).errors = true
    ∧ excOptFree (emitRaw dt path r st).exc = true := by
  cases r with
  | lerr le =>
    cases dt <;> simp_all [emitRaw, rawToExc, rawFree, Res.st, Res.exc, excOptFree, excFree,
      excFreeList_append, excFreeList]
  | unexp u =>
    cases dt <;> simp_all [emitRaw, rawToExc, rawFree, Res.st, Res.exc, excOptFree, excFree,
      excFreeList_append, excFreeList]

theorem excfree_runFieldAssign (cfg : Cfg) (hfree : LoadersFree cfg) (path : Path)
    (fid : String) (arg : Value) (tgt : Target) (st : St)
    (hst : excFreeList st.errors = true) :
    excFreeList ((runFieldAssign cfg path fid arg tgt st).st).errors = true
    ∧ excOptFree (runFieldAssign cfg path fid arg tgt st).exc = true := by
  simp only [runFieldAssign]
  cases hl : cfg.loaders fid arg with
  | ok w =>
    cases tgt <;> simp [assignTo, Res.st, Res.exc, excOptFree, hst]
  | error r =>
    exact excfree_emitRaw cfg.dt path r st (hfree fid arg r hl) hst

theorem lerrFree_parentNotFound (pinfo : ParentInfo) (d : Value) :
    lerrFree (parentNotFoundErr pinfo d) = true := by
  cases pinfo <;> simp [parentNotFoundErr, lerrFree]

theorem lerrFree_badTypeErrOf (keyEl : PathElem) (d : Value) :
    lerrFree (badTypeErrOf keyEl d) = true := by
  cases keyEl <;> simp [badTypeErrOf, lerrFree]

theorem excfree_assignFromParent (cfg : Cfg) (p : Path) (keyEl : PathElem)
    (pinfo : ParentInfo) (pdata : Option Value) (onMissing : OnMissing) (ck hnf : Bool)
    (st : St)
    (honm : ∀ s : St, excFreeList s.errors = true →
      excFreeList ((match onMissing with | .custom act => act s | .branch => s) : St).errors = true)
    (hst : excFreeList st.errors = true) :
    excFreeList ((assignFromParent cfg p keyEl pinfo pdata onMissing ck hnf st).st).errors = true
    ∧ excOptFree (assignFromParent cfg p keyEl pinfo pdata onMissing ck hnf st).exc = true := by
  cases pdata with
  | none =>
    simp only [assignFromParent]
    have h := excfree_unexpCatch cfg.dt (p ++ [keyEl]) .nameError st hst
    cases hu : unexpCatch cfg.dt (p ++ [keyEl]) .nameError st with
    | ok u st' =>
      rw [hu] at h
      exact ⟨h.1, by simp [Res.exc, excOptFree]⟩
    | err e st' =>
      rw [hu] at h
      exact h
  | some d =>
    cases hsub : subscript d keyEl with
    | found v =>
      simp only [assignFromParent, hsub]
      exact ⟨hst, by simp [Res.exc, excOptFree]⟩
    | missing =>
      cases onMissing with
      | custom act =>
        simp only [assignFromParent, hsub]
        exact ⟨honm st hst, by simp [Res.exc, excOptFree]⟩
      | branch =>
        simp only [assignFromParent, hsub]
        cases hdt : cfg.dt with
        | disable =>
          exact ⟨hst, by simp [Res.exc, excOptFree, excFree, lerrFree_parentNotFound]⟩
        | first =>
          exact ⟨hst, by simp [Res.exc, excOptFree, excFree, lerrFree_parentNotFound]⟩
        | all =>
          cases keyEl with
          | key k =>
            cases hnf with
            | true => exact ⟨hst, by simp [Res.exc, excOptFree]⟩
            | false =>
              refine ⟨?_, by simp [Res.exc, excOptFree]⟩
              simp [Res.st, excFreeList_append, excFreeList, excFree, hst,
                lerrFree_parentNotFound]
          | idx i => exact ⟨hst, by simp [Res.exc, excOptFree]⟩
    | badType =>
      cases ck with
      | true =>
        simp only [assignFromParent, hsub, if_true]
        have h := excfree_unexpCatch cfg.dt (p ++ [keyEl]) .pyTypeError st hst
        cases hu : unexpCatch cfg.dt (p ++ [keyEl]) .pyTypeError st with
        | ok u st' =>
          rw [hu] at h
          exact ⟨h.1, by simp [Res.exc, excOptFree]⟩
        | err e st' =>
          rw [hu] at h
          exact h
      | false =>
        simp only [assignFromParent, hsub, Bool.false_eq_true, if_false]
        have h := excfree_raiseBadType cfg.dt p (badTypeErrOf keyEl d) st
          (lerrFree_badTypeErrOf keyEl d) hst
        cases hu : raiseBadType cfg.dt p (badTypeErrOf keyEl d) st with
        | ok u st' =>
          rw [hu] at h
          exact ⟨h.1, by simp [Res.exc, excOptFree]⟩
        | err e st' =>
          rw [hu] at h
          exact h

theorem excfree_optFromMapping (cfg : Cfg) (hfree : LoadersFree cfg) (p : Path)
    (k : String) (fid : String) (tgt : Target) (onMiss : St → St) (pdata : Option Value)
    (ck : Bool) (st : St)
    (honm : ∀ s : St, excFreeList s.errors = true → excFreeList (onMiss s).errors = true)
    (hst : excFreeList st.errors = true) :
    excFreeList ((optFromMapping cfg p k fid tgt onMiss pdata ck st).st).errors = true
    ∧ excOptFree (optFromMapping cfg p k fid tgt onMiss pdata ck st).exc = true := by
  cases ck with
  | true =>
    simp only [optFromMapping, if_true]
    cases pdata with
    | none => exact ⟨hst, by simp [Res.exc, excOptFree, excFree]⟩
    | some d =>
      simp only []
      cases hpc : pyContains d k with
      | error u => exact ⟨hst, by simp [Res.exc, excOptFree, excFree]⟩
      | ok b =>
        cases b with
        | true =>
          simp only []
          cases hsub : subscript d (.key k) with
          | found v => exact excfree_runFieldAssign cfg hfree (p ++ [PathElem.key k]) fid v tgt st hst
          | missing => exact excfree_emitRaw cfg.dt (p ++ [PathElem.key k]) (.unexp .pyTypeError) st (by simp [rawFree]) hst
          | badType => exact excfree_emitRaw cfg.dt (p ++ [PathElem.key k]) (.unexp .pyTypeError) st (by simp [rawFree]) hst
        | false =>
          exact ⟨honm st hst, by simp [Res.exc, excOptFree]⟩
  | false =>
    simp only [optFromMapping, Bool.false_eq_true, if_false]
    cases pdata with
    | none =>
      have h := excfree_unexpCatch cfg.dt (p ++ [PathElem.key k]) .nameError st hst
      cases hu : unexpCatch cfg.dt (p ++ [PathElem.key k]) .nameError st with
      | ok u st' =>
        rw [hu] at h
        exact ⟨h.1, by simp [Res.exc, excOptFree]⟩
      | err e st' =>
        rw [hu] at h
        exact h
    | some d =>
      simp only []
      cases d with
      | vdict m =>
        simp only []
        cases halo : alookup m k with
        | some v => exact excfree_runFieldAssign cfg hfree (p ++ [PathElem.key k]) fid v tgt st hst
        | none => exact ⟨honm st hst, by simp [Res.exc, excOptFree]⟩
      | vstr a =>
        exact excfree_raiseBadType cfg.dt p (.typeLoad .mapping (.vstr a)) st (by simp [lerrFree]) hst
      | vint a =>
        exact excfree_raiseBadType cfg.dt p (.typeLoad .mapping (.vint a)) st (by simp [lerrFree]) hst
      | vbool a =>
        exact excfree_raiseBadType cfg.dt p (.typeLoad .mapping (.vbool a)) st (by simp [lerrFree]) hst
      | vnone =>
        exact excfree_raiseBadType cfg.dt p (.typeLoad .mapping .vnone) st (by simp [lerrFree]) hst
      | vlist a =>
        exact excfree_raiseBadType cfg.dt p (.typeLoad .mapping (.vlist a)) st (by simp [lerrFree]) hst

theorem excfree_runFieldCrown (cfg : Cfg) (hfree : LoadersFree cfg) (p : Path)
    (keyEl : PathElem) (pinfo : ParentInfo) (pdata : Option Value) (fid : String)
    (ck hnf : Bool) (st : St) (hst : excFreeList st.errors = true) :
    excFreeList ((runFieldCrown cfg p keyEl pinfo pdata fid ck hnf st).st).errors = true
    ∧ excOptFree (runFieldCrown cfg p keyEl pinfo pdata fid ck hnf st).exc = true := by
  have honmT : ∀ s : St, excFreeList s.errors = true →
      excFreeList (((if cfg.isPacked (cfg.fieldInfo fid) then id
        else fun s => assignTo s (.tofield fid) (defaultValue (cfg.fieldInfo fid).default)) : St → St) s).errors = true := by
    intro s hs
    cases hpk : cfg.isPacked (cfg.fieldInfo fid) <;> simp_all [assignTo]
  cases hreq : (cfg.fieldInfo fid).isRequired with
  | true =>
    simp only [runFieldCrown, hreq, if_true]
    have h := excfree_assignFromParent cfg p keyEl pinfo pdata .branch ck hnf st
      (fun s hs => hs) hst
    cases hres : assignFromParent cfg p keyEl pinfo pdata .branch ck hnf st with
    | err e st' =>
      rw [hres] at h
      exact h
    | ok a st' =>
      rw [hres] at h
      simp only []
      cases hv : a.value with
      | some v =>
        simp only []
        have h2 := excfree_runFieldAssign cfg hfree (p ++ [keyEl]) fid v (.tofield fid) st' h.1
        cases hfa : runFieldAssign cfg (p ++ [keyEl]) fid v (.tofield fid) st' with
        | ok u st2 =>
          rw [hfa] at h2
          exact ⟨h2.1, by simp [Res.exc, excOptFree]⟩
        | err e st2 =>
          rw [hfa] at h2
          exact h2
      | none =>
        exact ⟨h.1, by simp [Res.exc, excOptFree]⟩
  | false =>
    cases keyEl with
    | idx i =>
      simp only [runFieldCrown, hreq, Bool.false_eq_true, if_false]
      have h := excfree_assignFromParent cfg p (.idx i) pinfo pdata
        (.custom (if cfg.isPacked (cfg.fieldInfo fid) then id
          else fun s => assignTo s (.tofield fid) (defaultValue (cfg.fieldInfo fid).default)))
        ck hnf st (fun s hs => honmT s hs) hst
      cases hres : assignFromParent cfg p (.idx i) pinfo pdata
          (.custom (if cfg.isPacked (cfg.fieldInfo fid) then id
            else fun s => assignTo s (.tofield fid) (defaultValue (cfg.fieldInfo fid).default)))
          ck hnf st with
      | err e st' =>
        rw [hres] at h
        exact h
      | ok a st' =>
        rw [hres] at h
        simp only []
        cases hv : a.value with
        | some v =>
          simp only []
          have h2 := excfree_runFieldAssign cfg hfree (p ++ [PathElem.idx i]) fid v
            (if cfg.isPacked (cfg.fieldInfo fid) then Target.topacked fid
             else Target.tofield fid) st' h.1
          cases hfa : runFieldAssign cfg (p ++ [PathElem.idx i]) fid v
              (if cfg.isPacked (cfg.fieldInfo fid) then Target.topacked fid
               else Target.tofield fid) st' with
          | ok u st2 =>
            rw [hfa] at h2
            exact ⟨h2.1, by simp [Res.exc, excOptFree]⟩
          | err e st2 =>
            rw [hfa] at h2
            exact h2
        | none =>
          exact ⟨h.1, by simp [Res.exc, excOptFree]⟩
    | key k =>
      simp only [runFieldCrown, hreq, Bool.false_eq_true, if_false]
      have h := excfree_optFromMapping cfg hfree p k fid
        (if cfg.isPacked (cfg.fieldInfo fid) then Target.topacked fid else Target.tofield fid)
        (if cfg.isPacked (cfg.fieldInfo fid) then id
         else fun s => assignTo s (.tofield fid) (defaultValue (cfg.fieldInfo fid).default))
        pdata ck st (fun s hs => honmT s hs) hst
      cases hres : optFromMapping cfg p k fid
          (if cfg.isPacked (cfg.fieldInfo fid) then Target.topacked fid else Target.tofield fid)
          (if cfg.isPacked (cfg.fieldInfo fid) then id
           else fun s => assignTo s (.tofield fid) (defaultValue (cfg.fieldInfo fid).default))
          pdata ck st with
      | ok u st' =>
        rw [hres] at h
        exact ⟨h.1, by simp [Res.exc, excOptFree]⟩
      | err e st' =>
        rw [hres] at h
        exact h

theorem excfree_dictFinish (cfg : Cfg) (p : Path) (selfData : Option Value)
    (known : List String) (pol : ExtraPolicy) (ck : Bool) (extra : Option Value) (st : St)
    (hst : excFreeList st.errors = true) :
    excFreeList ((dictFinish cfg p selfData known pol ck extra st).st).errors = true
    ∧ excOptFree (dictFinish cfg p selfData known pol ck extra st).exc = true := by
  have hpol : ∀ (st' : St), excFreeList st'.errors = true → ∀ (d : Value),
      excFreeList ((dictFinish cfg p (some d) known pol true extra st').st).errors = true
      ∧ excOptFree (dictFinish cfg p (some d) known pol true extra st').exc = true := by
    intro st' hst' d
    cases pol with
    | forbid =>
      simp only [dictFinish, if_true]
      by_cases hex : (setDiff d.keys known).isEmpty
      · simp [hex, BRes.st, BRes.exc, excOptFree, hst']
      · rw [Bool.not_eq_true] at hex
        simp only [hex, Bool.false_eq_true, if_false]
        have h := excfree_emitLErr cfg.dt p (.extraFields (setDiff d.keys known) d) st'
          (by simp [lerrFree]) hst'
        cases he : emitLErr cfg.dt p (.extraFields (setDiff d.keys known) d) st' with
        | ok u st2 =>
          rw [he] at h
          exact ⟨h.1, by simp [BRes.exc, excOptFree]⟩
        | err e st2 =>
          rw [he] at h
          exact h
    | collect =>
      cases extra with
      | none => exact ⟨hst', by simp [dictFinish, BRes.exc, excOptFree, excFree]⟩
      | some c => exact ⟨hst', by simp [dictFinish, BRes.exc, excOptFree]⟩
    | skip => exact ⟨hst', by simp [dictFinish, BRes.exc, excOptFree]⟩
  cases ck with
  | true =>
    cases selfData with
    | none =>
      cases pol with
      | forbid => exact ⟨hst, by simp [dictFinish, BRes.exc, excOptFree, excFree]⟩
      | collect => exact ⟨hst, by simp [dictFinish, BRes.exc, excOptFree, excFree]⟩
      | skip => exact ⟨hst, by simp [dictFinish, BRes.exc, excOptFree]⟩
    | some d => exact hpol st hst d
  | false =>
    cases selfData with
    | none => exact ⟨hst, by simp [dictFinish, BRes.exc, excOptFree, excFree]⟩
    | some d =>
      by_cases hm : d.isMapping
      · have heq : dictFinish cfg p (some d) known pol false extra st
            = dictFinish cfg p (some d) known pol true extra st := by
          simp only [dictFinish, Bool.false_eq_true, if_false, hm, if_true]
        rw [heq]
        exact hpol st hst d
      · rw [Bool.not_eq_true] at hm
        simp only [dictFinish, Bool.false_eq_true, if_false, hm]
        have h := excfree_raiseBadType cfg.dt p (.typeLoad .mapping d) st (by simp [lerrFree]) hst
        cases hr : raiseBadType cfg.dt p (.typeLoad .mapping d) st with
        | ok u st2 =>
          rw [hr] at h
          simp only [hr]
          have h2 := hpol st2 h.1 d
          have heq : (match Res.ok u st2 with
              | Res.err e st' => BRes.err e extra st'
              | Res.ok _ st' =>
                dictFinish cfg p (some d) known pol true extra st') = dictFinish cfg p (some d) known pol true extra st2 := rfl
          exact h2
        | err e st2 =>
          rw [hr] at h
          simp only [hr]
          exact h

theorem excfree_listFinish (cfg : Cfg) (p : Path) (selfData : Option Value)
    (expectedLen : Nat) (pol : ExtraPolicy) (ck : Bool) (extra : Option Value) (st : St)
    (hst : excFreeList st.errors = true) :
    excFreeList ((listFinish cfg p selfData expectedLen pol ck extra st).st).errors = true
    ∧ excOptFree (listFinish cfg p selfData expectedLen pol ck extra st).exc = true := by
  have hlen : ∀ (st' : St), excFreeList st'.errors = true → ∀ (d : Value),
      excFreeList ((listFinish cfg p (some d) expectedLen pol true extra st').st).errors = true
      ∧ excOptFree (listFinish cfg p (some d) expectedLen pol true extra st').exc = true := by
    intro st' hst' d
    have hemit : ∀ (e : LErr), lerrFree e = true →
        excFreeList ((match emitLErr cfg.dt p e st' with
          | Res.ok _ st2 => BRes.ok extra st2
          | Res.err e2 st2 => BRes.err e2 extra st2).st).errors = true
        ∧ excOptFree ((match emitLErr cfg.dt p e st' with
          | Res.ok _ st2 => BRes.ok extra st2
          | Res.err e2 st2 => BRes.err e2 extra st2).exc) = true := by
      intro e he
      have h := excfree_emitLErr cfg.dt p e st' he hst'
      cases hr : emitLErr cfg.dt p e st' with
      | ok u st2 =>
        rw [hr] at h
        exact ⟨h.1, by simp [BRes.exc, excOptFree]⟩
      | err e2 st2 =>
        rw [hr] at h
        exact h
    cases pol with
    | forbid =>
      simp only [listFinish, if_true]
      by_cases hne : pyLen d = expectedLen
      · rw [if_neg (show ¬pyLen d ≠ expectedLen from fun h => h hne)]
        exact ⟨hst', by simp [BRes.exc, excOptFree]⟩
      · rw [if_pos hne]
        by_cases hlt : pyLen d < expectedLen
        · rw [if_pos hlt]
          exact hemit _ (by simp [lerrFree])
        · rw [if_neg hlt]
          exact hemit _ (by simp [lerrFree])
    | collect =>
      simp only [listFinish, if_true]
      by_cases hlt : pyLen d < expectedLen
      · rw [if_pos hlt]
        exact hemit _ (by simp [lerrFree])
      · rw [if_neg hlt]
        exact ⟨hst', by simp [BRes.exc, excOptFree]⟩
    | skip =>
      simp only [listFinish, if_true]
      by_cases hlt : pyLen d < expectedLen
      · rw [if_pos hlt]
        exact hemit _ (by simp [lerrFree])
      · rw [if_neg hlt]
        exact ⟨hst', by simp [BRes.exc, excOptFree]⟩
  cases ck with
  | true =>
    cases selfData with
    | none => exact ⟨hst, by simp [listFinish, BRes.exc, excOptFree, excFree]⟩
    | some d => exact hlen st hst d
  | false =>
    cases selfData with
    | none => exact ⟨hst, by simp [listFinish, BRes.exc, excOptFree, excFree]⟩
    | some d =>
      by_cases hm : d.isSequence
      · have heq : listFinish cfg p (some d) expectedLen pol false extra st
            = listFinish cfg p (some d) expectedLen pol true extra st := by
          simp only [listFinish, Bool.false_eq_true, if_false, hm, if_true]
        rw [heq]
        exact hlen st hst d
      · rw [Bool.not_eq_true] at hm
        simp only [listFinish, Bool.false_eq_true, if_false, hm]
        have h := excfree_raiseBadType cfg.dt p (.typeLoad .sequence d) st (by simp [lerrFree]) hst
        cases hr : raiseBadType cfg.dt p (.typeLoad .sequence d) st with
        | ok u st2 =>
          rw [hr] at h
          simp only [hr]
          exact hlen st2 h.1 d
        | err e st2 =>
          rw [hr] at h
          simp only [hr]
          exact h

theorem excfree_wrapTLE (cfg : Cfg) (q : Path) (r : BRes)
    (hst : excFreeList (r.st).errors = true) (hexc : excOptFree r.exc = true) :
    excFreeList (((wrapTLE cfg q r).st).errors) = true
    ∧ excOptFree (wrapTLE cfg q r).exc = true := by
  cases r with
  | ok extra st' => exact ⟨hst, by simp [wrapTLE, BRes.exc, excOptFree]⟩
  | err e extra st' =>
    simp only [wrapTLE]
    by_cases hc : (cfg.dt == .all && !q.isEmpty && isTLE e) = true
    · simp only [hc, if_true]
      refine ⟨?_, by simp [BRes.exc, excOptFree]⟩
      simp only [BRes.st] at hst ⊢
      simp only [BRes.exc, excOptFree] at hexc
      simp [excFreeList_append, excFreeList, hst, hexc]
    · rw [Bool.not_eq_true] at hc
      simp only [hc, Bool.false_eq_true, if_false]
      exact ⟨hst, hexc⟩

mutual

/-- With strict coercion off and leaf loaders that never raise
`ExcludedTypeLoadError`, dispatching a child never produces one either. -/
theorem excfree_dispatch (cfg : Cfg) (hfree : LoadersFree cfg)
    (hstrict : cfg.strictCoercion = false) (p : Path) (pinfo : ParentInfo)
    (pdata : Option Value) (keyEl : PathElem) (c : InpCrown) (ck hnf : Bool)
    (pextra : Option Value) (st : St) (hst : excFreeList st.errors = true) :
    excFreeList ((runDispatch cfg p pinfo pdata keyEl c ck hnf pextra st).st).errors = true
    ∧ excOptFree (runDispatch cfg p pinfo pdata keyEl c ck hnf pextra st).exc = true := by
  cases c with
  | dict m pol =>
    simp only [runDispatch]
    have h := excfree_assignFromParent cfg p keyEl pinfo pdata .branch ck hnf st
      (fun s hs => hs) hst
    cases hres : assignFromParent cfg p keyEl pinfo pdata .branch ck hnf st with
    | err e st' =>
      rw [hres] at h
      exact h
    | ok a st' =>
      rw [hres] at h
      simp only []
      have h2 := excfree_dictBody cfg hfree hstrict (p ++ [keyEl]) a.value m pol st' h.1
      cases hbody : runDictBody cfg (p ++ [keyEl]) a.value m pol st' with
      | ok ce st2 =>
        rw [hbody] at h2
        cases ce with
        | some ev => exact ⟨h2.1, by simp [DRes.exc, excOptFree]⟩
        | none => exact ⟨h2.1, by simp [DRes.exc, excOptFree]⟩
      | err e ex2 st2 =>
        rw [hbody] at h2
        exact h2
  | list m pol =>
    simp only [runDispatch]
    have h := excfree_assignFromParent cfg p keyEl pinfo pdata .branch ck hnf st
      (fun s hs => hs) hst
    cases hres : assignFromParent cfg p keyEl pinfo pdata .branch ck hnf st with
    | err e st' =>
      rw [hres] at h
      exact h
    | ok a st' =>
      rw [hres] at h
      simp only []
      have h2 := excfree_listBody cfg hfree hstrict (p ++ [keyEl]) a.value m pol st' h.1
      cases hbody : runListBody cfg (p ++ [keyEl]) a.value m pol st' with
      | ok ce st2 =>
        rw [hbody] at h2
        cases ce with
        | some ev => exact ⟨h2.1, by simp [DRes.exc, excOptFree]⟩
        | none => exact ⟨h2.1, by simp [DRes.exc, excOptFree]⟩
      | err e ex2 st2 =>
        rw [hbody] at h2
        exact h2
  | field fid =>
    simp only [runDispatch]
    have h := excfree_runFieldCrown cfg hfree p keyEl pinfo pdata fid ck hnf st hst
    cases hres : runFieldCrown cfg p keyEl pinfo pdata fid ck hnf st with
    | ok flags st' =>
      rw [hres] at h
      exact ⟨h.1, by simp [DRes.exc, excOptFree]⟩
    | err e st' =>
      rw [hres] at h
      exact h
  | leafNone =>
    simp only [runDispatch]
    exact ⟨hst, by simp [DRes.exc, excOptFree]⟩
termination_by (sizeOf c, 2)

/-- Excluded-type freedom of the dict-children fold. -/
theorem excfree_dictEntries (cfg : Cfg) (hfree : LoadersFree cfg)
    (hstrict : cfg.strictCoercion = false) (p : Path) (selfData : Option Value)
    (req : List String) (entries : List (String × InpCrown)) (ck hnf : Bool)
    (extra : Option Value) (st : St) (hst : excFreeList st.errors = true) :
    excFreeList ((runDictEntries cfg p selfData req entries ck hnf extra st).st).errors = true
    ∧ excOptFree (runDictEntries cfg p selfData req entries ck hnf extra st).exc = true := by
  cases entries with
  | nil =>
    simp only [runDictEntries]
    exact ⟨hst, by simp [FRes.exc, excOptFree]⟩
  | cons hd rest =>
    obtain ⟨k, c⟩ := hd
    simp only [runDictEntries]
    have h := excfree_dispatch cfg hfree hstrict p (.pdict req) selfData (.key k) c ck hnf
      extra st hst
    cases hdis : runDispatch cfg p (.pdict req) selfData (.key k) c ck hnf extra st with
    | err e extra2 st' =>
      rw [hdis] at h
      exact h
    | ok ck2 hnf2 extra2 st' =>
      rw [hdis] at h
      exact excfree_dictEntries cfg hfree hstrict p selfData req rest ck2 hnf2 extra2 st' h.1
termination_by (sizeOf entries, 0)

/-- Excluded-type freedom of the list-children fold. -/
theorem excfree_listEntries (cfg : Cfg) (hfree : LoadersFree cfg)
    (hstrict : cfg.strictCoercion = false) (p : Path) (selfData : Option Value)
    (total : Nat) (i : Nat) (entries : List InpCrown) (ck : Bool)
    (extra : Option Value) (st : St) (hst : excFreeList st.errors = true) :
    excFreeList ((runListEntries cfg p selfData total i entries ck extra st).st).errors = true
    ∧ excOptFree (runListEntries cfg p selfData total i entries ck extra st).exc = true := by
  cases entries with
  | nil =>
    simp only [runListEntries]
    exact ⟨hst, by simp [FRes.exc, excOptFree]⟩
  | cons c rest =>
    simp only [runListEntries]
    have h := excfree_dispatch cfg hfree hstrict p (.plist total) selfData (.idx i) c ck false
      extra st hst
    cases hdis : runDispatch cfg p (.plist total) selfData (.idx i) c ck false extra st with
    | err e extra2 st' =>
      rw [hdis] at h
      exact h
    | ok ck2 hnf2 extra2 st' =>
      rw [hdis] at h
      exact excfree_listEntries cfg hfree hstrict p selfData total (i + 1) rest ck2 extra2 st' h.1
termination_by (sizeOf entries, 0)

/-- Excluded-type freedom of a dict branch's body. -/
theorem excfree_dictBody (cfg : Cfg) (hfree : LoadersFree cfg)
    (hstrict : cfg.strictCoercion = false) (q : Path) (selfData : Option Value)
    (map : List (String × InpCrown)) (pol : ExtraPolicy) (st : St)
    (hst : excFreeList st.errors = true) :
    excFreeList ((runDictBody cfg q selfData map pol st).st).errors = true
    ∧ excOptFree (runDictBody cfg q selfData map pol st).exc = true := by
  simp only [runDictBody]
  apply excfree_wrapTLE
  case hst =>
    have h := excfree_dictEntries cfg hfree hstrict q selfData (requiredKeysOf cfg map) map
      false false (if cfg.canCollectExtra then some (.vdict []) else Option.none) st hst
    cases hent : runDictEntries cfg q selfData (requiredKeysOf cfg map) map false false
        (if cfg.canCollectExtra then some (.vdict []) else Option.none) st with
    | err e extra st' =>
      rw [hent] at h
      exact h.1
    | ok ck extra st' =>
      rw [hent] at h
      exact (excfree_dictFinish cfg q selfData (map.map Prod.fst) pol ck extra st' h.1).1
  case hexc =>
    have h := excfree_dictEntries cfg hfree hstrict q selfData (requiredKeysOf cfg map) map
      false false (if cfg.canCollectExtra then some (.vdict []) else Option.none) st hst
    cases hent : runDictEntries cfg q selfData (requiredKeysOf cfg map) map false false
        (if cfg.canCollectExtra then some (.vdict []) else Option.none) st with
    | err e extra st' =>
      rw [hent] at h
      exact h.2
    | ok ck extra st' =>
      rw [hent] at h
      exact (excfree_dictFinish cfg q selfData (map.map Prod.fst) pol ck extra st' h.1).2
termination_by (sizeOf map, 1)

/-- Excluded-type freedom of a list branch's body: with strict coercion off, the
forbidden-sequence check is not generated, and nothing else can produce an
`ExcludedTypeLoadError`. -/
theorem excfree_listBody (cfg : Cfg) (hfree : LoadersFree cfg)
    (hstrict : cfg.strictCoercion = false) (q : Path) (selfData : Option Value)
    (map : List InpCrown) (pol : ExtraPolicy) (st : St)
    (hst : excFreeList st.errors = true) :
    excFreeList ((runListBody cfg q selfData map pol st).st).errors = true
    ∧ excOptFree (runListBody cfg q selfData map pol st).exc = true := by
  simp only [runListBody, hstrict, Bool.false_eq_true, if_false]
  apply excfree_wrapTLE
  case hst =>
    have h := excfree_listEntries cfg hfree hstrict q selfData map.length 0 map false
      (if cfg.canCollectExtra then some (.vlist (map.map listExtraSlot)) else Option.none) st hst
    cases hent : runListEntries cfg q selfData map.length 0 map false
        (if cfg.canCollectExtra then some (.vlist (map.map listExtraSlot)) else Option.none)
        st with
    | err e extra st' =>
      rw [hent] at h
      exact h.1
    | ok ck extra st' =>
      rw [hent] at h
      exact (excfree_listFinish cfg q selfData map.length pol ck extra st' h.1).1
  case hexc =>
    have h := excfree_listEntries cfg hfree hstrict q selfData map.length 0 map false
      (if cfg.canCollectExtra then some (.vlist (map.map listExtraSlot)) else Option.none) st hst
    cases hent : runListEntries cfg q selfData map.length 0 map false
        (if cfg.canCollectExtra then some (.vlist (map.map listExtraSlot)) else Option.none)
        st with
    | err e extra st' =>
      rw [hent] at h
      exact h.2
    | ok ck extra st' =>
      rw [hent] at h
      exact (excfree_listFinish cfg q selfData map.length pol ck extra st' h.1).2
termination_by (sizeOf map, 1)

end

theorem excfree_targetsAssignAll (cfg : Cfg) (hfree : LoadersFree cfg) (ids : List String)
    (ev : Value) (st : St) (hst : excFreeList st.errors = true) :
    excFreeList ((targetsAssignAll cfg ids ev st).st).errors = true
    ∧ excOptFree (targetsAssignAll cfg ids ev st).exc = true := by
  induction ids generalizing st with
  | nil =>
    simp only [targetsAssignAll]
    exact ⟨hst, by simp [Res.exc, excOptFree]⟩
  | cons fid rest ih =>
    simp only [targetsAssignAll]
    have h := excfree_runFieldAssign cfg hfree [] fid ev (.tofield fid) st hst
    cases hra : runFieldAssign cfg [] fid ev (.tofield fid) st with
    | ok u st' =>
      rw [hra] at h
      exact ih st' h.1
    | err e st' =>
      rw [hra] at h
      exact h

theorem excfree_targetsAssignRequired (cfg : Cfg) (hfree : LoadersFree cfg)
    (ids : List String) (st : St) (hst : excFreeList st.errors = true) :
    excFreeList ((targetsAssignRequired cfg ids st).st).errors = true
    ∧ excOptFree (targetsAssignRequired cfg ids st).exc = true := by
  induction ids generalizing st with
  | nil =>
    simp only [targetsAssignRequired]
    exact ⟨hst, by simp [Res.exc, excOptFree]⟩
  | cons fid rest ih =>
    simp only [targetsAssignRequired]
    by_cases hreq : (cfg.fieldInfo fid).isRequired = true
    · simp only [hreq, if_true]
      have h := excfree_runFieldAssign cfg hfree [] fid (.vdict []) (.tofield fid) st hst
      cases hra : runFieldAssign cfg [] fid (.vdict []) (.tofield fid) st with
      | ok u st' =>
        rw [hra] at h
        exact ih st' h.1
      | err e st' =>
        rw [hra] at h
        exact h
    · rw [Bool.not_eq_true] at hreq
      simp only [hreq, Bool.false_eq_true, if_false]
      exact ih st hst

theorem excfree_extraTargets (cfg : Cfg) (hfree : LoadersFree cfg) (pol : ExtraPolicy)
    (rootExtra : Option Value) (st : St) (hst : excFreeList st.errors = true) :
    excFreeList ((runExtraTargetsAssign cfg pol rootExtra st).st).errors = true
    ∧ excOptFree (runExtraTargetsAssign cfg pol rootExtra st).exc = true := by
  simp only [runExtraTargetsAssign]
  cases hmv : cfg.extraMove with
  | targets ids =>
    simp only []
    by_cases hp : pol = .collect
    · simp only [hp, if_pos rfl]
      cases rootExtra with
      | some ev => exact excfree_targetsAssignAll cfg hfree ids ev st hst
      | none => exact ⟨hst, by simp [Res.exc, excOptFree, excFree]⟩
    · rw [if_neg hp]
      exact excfree_targetsAssignRequired cfg hfree ids st hst
  | nomove => exact ⟨hst, by simp [Res.exc, excOptFree]⟩
  | kwargs => exact ⟨hst, by simp [Res.exc, excOptFree]⟩
  | saturate f => exact ⟨hst, by simp [Res.exc, excOptFree]⟩

/-- With strict coercion off and excluded-type-free leaf loaders, the whole load
never fails with (or contains) an `ExcludedTypeLoadError`. -/
theorem excfree_loadModel (cfg : Cfg) (hfree : LoadersFree cfg)
    (hstrict : cfg.strictCoercion = false) (crown : InpCrown) (input : Value) (e : Exc)
    (heq : loadModel cfg crown input = .error e) : excFree e = true := by
  have hst0 : excFreeList (⟨[], false, [], []⟩ : St).errors = true := rfl
  have hrest : ∀ (body : BRes),
      excFreeList ((body.st).errors) = true → excOptFree body.exc = true →
      (match body with
        | .err e0 _ _ => Except.error e0
        | .ok rootExtra st1 =>
          match runExtraTargetsAssign cfg (crownPolicy crown) rootExtra st1 with
          | .err e1 _ => Except.error e1
          | .ok _ st2 =>
            if cfg.dt == .all && !st2.errors.isEmpty then
              Except.error (if st2.hasUnexpected then Exc.excGroup st2.errors
                else Exc.aggregate st2.errors)
            else
              match buildRecord cfg st2 with
              | Option.none => Except.error (.unexpected .nameError [])
              | some rec =>
                match cfg.extraMove with
                | .kwargs =>
                  match rootExtra with
                  | some (.vdict ees) => Except.ok (Value.vdict (rec ++ ees))
                  | _ => Except.error (.unexpected .nameError [])
                | .saturate f =>
                  match rootExtra with
                  | some ev => Except.ok (f (.vdict rec) ev)
                  | Option.none => Except.error (.unexpected .nameError [])
                | _ => Except.ok (Value.vdict rec)) = Except.error e →
      excFree e = true := by
    intro body hb1 hb2 hmatch
    cases body with
    | err e0 x s =>
      cases hmatch
      simpa [BRes.exc, excOptFree] using hb2
    | ok rootExtra st1 =>
      simp only [] at hmatch
      have h2 := excfree_extraTargets cfg hfree (crownPolicy crown) rootExtra st1
        (by simpa [BRes.st] using hb1)
      cases hx : runExtraTargetsAssign cfg (crownPolicy crown) rootExtra st1 with
      | err e1 s2 =>
        rw [hx] at hmatch h2
        cases hmatch
        simpa [Res.exc, excOptFree] using h2.2
      | ok u st2 =>
        rw [hx] at hmatch h2
        simp only [] at hmatch
        by_cases hagg : (cfg.dt == .all && !st2.errors.isEmpty) = true
        · simp only [hagg, if_true] at hmatch
          cases hmatch
          cases hu : st2.hasUnexpected with
          | true => simpa [hu, excFree] using h2.1
          | false => simpa [hu, excFree] using h2.1
        · rw [Bool.not_eq_true] at hagg
          simp only [hagg, Bool.false_eq_true, if_false] at hmatch
          cases hbr : buildRecord cfg st2 with
          | none =>
            rw [hbr] at hmatch
            cases hmatch
            rfl
          | some rec =>
            rw [hbr] at hmatch
            simp only [] at hmatch
            cases hmv : cfg.extraMove with
            | kwargs =>
              rw [hmv] at hmatch
              cases rootExtra with
              | none =>
                cases hmatch
                rfl
              | some ev =>
                cases ev with
                | vdict ees => cases hmatch
                | vstr a => cases hmatch; rfl
                | vint a => cases hmatch; rfl
                | vbool a => cases hmatch; rfl
                | vnone => cases hmatch; rfl
                | vlist a => cases hmatch; rfl
            | saturate f =>
              rw [hmv] at hmatch
              cases rootExtra with
              | none => cases hmatch; rfl
              | some ev => cases hmatch
            | nomove =>
              rw [hmv] at hmatch
              cases hmatch
            | targets ids =>
              rw [hmv] at hmatch
              cases hmatch
  cases crown with
  | field fid =>
    simp only [loadModel] at heq
    cases heq
    rfl
  | leafNone =>
    simp only [loadModel] at heq
    cases heq
    rfl
  | dict m pol =>
    simp only [loadModel] at heq
    have h := excfree_dictBody cfg hfree hstrict [] (some input) m pol ⟨[], false, [], []⟩ hst0
    exact hrest _ h.1 h.2 heq
  | list m pol =>
    simp only [loadModel] at heq
    have h := excfree_listBody cfg hfree hstrict [] (some input) m pol ⟨[], false, [], []⟩ hst0
    exact hrest _ h.1 h.2 heq

/-- **C5, counterexample.** Under the `None` (DISABLE) level with strict mode on, a
text in a nested list-crown slot is rejected with an `ExcludedTypeLoadError`, but
the raised error carries an empty trail, not the branch's path `["xs"]`. -/
theorem strict_disable_no_path_counterexample :
    loadModel c5Cfg (.dict [("xs", .list [] .skip)] .skip) (.vdict [("xs", .vstr "ab")])
      = .error (.load (.excludedType (.vstr "ab")) []) := by
  simp [loadModel, runDictBody, runListBody, runDictEntries, runListEntries, runDispatch,
    runFieldCrown, optFromMapping, assignFromParent, runFieldAssign, emitRaw, emitLErr,
    unexpCatch, raiseBadType, dictFinish, listFinish, wrapTLE, isTLE, strictCheck, subscript,
    alookup, upsert, assignTo, pyContains, setDiff, requiredKeysOf, Cfg.fieldInfo,
    Cfg.canCollectExtra, Cfg.extraTargets, Cfg.isPacked, hasDeclaredDefault, defaultValue,
    parentNotFoundErr, badTypeErrOf, trailFor, Value.keys, Value.isMapping, Value.isSequence,
    pyLen, runExtraTargetsAssign, targetsAssignRequired, targetsAssignAll, buildRecord,
    buildParams, crownPolicy, extraWrite, collectUnknown, listExtraSlot, rawToExc, c5Cfg]

/-- **C5** (amended). With strict mode on, a list crown given a text value raises an
`ExcludedTypeLoadError` without dispatching any child (no iteration over the
characters): under `First` the error carries the branch's path, under `None`
(DISABLE) it carries no path, and under `All` it is recorded with the branch's path
and the branch resumes (at the root it aborts as an immediate aggregate).  With
strict mode off, no excluded-type rejection is emitted anywhere in the load,
provided the leaf loaders never raise one. -/
theorem strict_mode_text_rejection (cfg : Cfg) (q : Path) (s : String)
    (map : List InpCrown) (pol : ExtraPolicy) (st : St) :
    (cfg.strictCoercion = true → cfg.dt = .disable →
      runListBody cfg q (some (.vstr s)) map pol st
        = .err (.load (.excludedType (.vstr s)) [])
            (if cfg.canCollectExtra then some (.vlist (map.map listExtraSlot)) else Option.none)
            st)
    ∧ (cfg.strictCoercion = true → cfg.dt = .first →
      runListBody cfg q (some (.vstr s)) map pol st
        = .err (.load (.excludedType (.vstr s)) q)
            (if cfg.canCollectExtra then some (.vlist (map.map listExtraSlot)) else Option.none)
            st)
    ∧ (cfg.strictCoercion = true → cfg.dt = .all → q = [] →
      runListBody cfg q (some (.vstr s)) map pol st
        = .err (.aggregate [.load (.excludedType (.vstr s)) []])
            (if cfg.canCollectExtra then some (.vlist (map.map listExtraSlot)) else Option.none)
            st)
    ∧ (cfg.strictCoercion = true → cfg.dt = .all → q ≠ [] →
      runListBody cfg q (some (.vstr s)) map pol st
        = .ok (if cfg.canCollectExtra then some (.vlist (map.map listExtraSlot)) else Option.none)
            { st with errors := st.errors ++ [.load (.excludedType (.vstr s)) q] })
    ∧ (cfg.strictCoercion = false → LoadersFree cfg →
        ∀ crown input e, loadModel cfg crown input = .error e → excFree e = true) := by
  refine ⟨?_, ?_, ?_, ?_, ?_⟩
  · intro hs hdt
    simp [runListBody, hs, strictCheck, raiseBadType, hdt, trailFor, wrapTLE, isTLE]
  · intro hs hdt
    simp [runListBody, hs, strictCheck, raiseBadType, hdt, trailFor, wrapTLE, isTLE]
  · intro hs hdt hq
    subst hq
    simp [runListBody, hs, strictCheck, raiseBadType, hdt, trailFor, wrapTLE, isTLE]
  · intro hs hdt hq
    cases q with
    | nil => exact absurd rfl hq
    | cons a t =>
      simp [runListBody, hs, strictCheck, raiseBadType, hdt, trailFor, wrapTLE, isTLE]
  · intro hs hf crown input e h
    exact excfree_loadModel cfg hf hs crown input e h

/-- **C5, witness.** Under `All` with strict mode on, a text at the nested path
`["k"]` is recorded as an excluded-type error with that path, and the branch
resumes. -/
theorem strict_mode_text_rejection_witness :
    runListBody ⟨.all, true, true, [], fun _ v => .ok v, .nomove⟩ [PathElem.key "k"]
        (some (.vstr "ab")) [] .skip ⟨[], false, [], []⟩
      = .ok Option.none ⟨[.load (.excludedType (.vstr "ab")) [PathElem.key "k"]], false, [], []⟩ := by
  have h := (strict_mode_text_rejection ⟨.all, true, true, [], fun _ v => .ok v, .nomove⟩
      [PathElem.key "k"] "ab" [] .skip ⟨[], false, [], []⟩).2.2.2.1 rfl rfl (by simp)
  simpa [Cfg.canCollectExtra] using h

/-! ## Round-trip machinery (towards claim C1) -/

theorem framePair_refl (ids : List String) (st : St) : FramePair ids st st :=
  fun _ _ => ⟨rfl, rfl⟩

theorem framePair_trans {ids : List String} {st1 st2 st3 : St}
    (h1 : FramePair ids st1 st2) (h2 : FramePair ids st2 st3) : FramePair ids st1 st3 :=
  fun g hg => ⟨(h2 g hg).1.trans (h1 g hg).1, (h2 g hg).2.trans (h1 g hg).2⟩

theorem framePair_mono {ids ids' : List String} (hsub : ∀ g, g ∈ ids → g ∈ ids')
    {st st' : St} (h : FramePair ids st st') : FramePair ids' st st' :=
  fun g hg => h g (fun hm => hg (hsub g hm))

theorem assignedValue_frame {cfg : Cfg} {ids : List String} {st st' : St}
    (h : FramePair ids st st') {f : String} (hf : f ∉ ids) :
    assignedValue cfg st' f = assignedValue cfg st f := by
  unfold assignedValue
  cases cfg.isPacked (cfg.fieldInfo f) <;> simp [(h f hf).1, (h f hf).2]

theorem leafOK_frame {cfg : Cfg} {ids : List String} {st st' : St}
    (h : FramePair ids st st') {t : Path × String × Value} (hf : t.2.1 ∉ ids)
    (hok : LeafOK cfg st t) : LeafOK cfg st' t := by
  obtain ⟨u, hu, ha⟩ := hok
  exact ⟨u, hu, (assignedValue_frame h hf).trans ha⟩

theorem alookup_append (a b : List (String × Value)) (k : String) :
    alookup (a ++ b) k
      = (match alookup a k with
         | some v => some v
         | Option.none => alookup b k) := by
  induction a with
  | nil => simp [alookup]
  | cons hd rest ih =>
    obtain ⟨k', v⟩ := hd
    by_cases hk : k' = k
    · simp [alookup, hk]
    · simp [alookup, hk, ih]

theorem find?_sat {α : Type} (p : α → Bool) (l : List α) (a : α)
    (h : l.find? p = some a) : p a = true := by
  induction l with
  | nil => cases h
  | cons hd rest ih =>
    by_cases hp : p hd = true
    · simp only [List.find?, hp] at h
      cases h
      exact hp
    · rw [Bool.not_eq_true] at hp
      simp only [List.find?, hp] at h
      exact ih h

theorem find?_mem {α : Type} (p : α → Bool) (l : List α) (a : α)
    (h : l.find? p = some a) : a ∈ l := by
  induction l with
  | nil => cases h
  | cons hd rest ih =>
    by_cases hp : p hd = true
    · simp only [List.find?, hp] at h
      cases h
      exact List.mem_cons.2 (Or.inl rfl)
    · rw [Bool.not_eq_true] at hp
      simp only [List.find?, hp] at h
      exact List.mem_cons_of_mem hd (ih h)

theorem find_id_mem (fields : List InputField) (hN : (fields.map InputField.id).Nodup)
    (fd : InputField) (hfd : fd ∈ fields) :
    fields.find? (fun f => f.id == fd.id) = some fd := by
  induction fields with
  | nil => cases hfd
  | cons hd rest ih =>
    simp only [List.map_cons, List.nodup_cons] at hN
    rcases List.mem_cons.1 hfd with h | h
    · subst h
      simp [List.find?]
    · have hne : ¬(hd.id == fd.id) = true := by
        simp only [beq_iff_eq]
        intro he
        exact hN.1 (he ▸ List.mem_map_of_mem InputField.id h)
      rw [Bool.not_eq_true] at hne
      simp only [List.find?, hne]
      exact ih hN.2 h

theorem fieldInfo_mem (cfg : Cfg) (hN : (cfg.shapeFields.map InputField.id).Nodup)
    (fd : InputField) (hfd : fd ∈ cfg.shapeFields) : cfg.fieldInfo fd.id = fd := by
  unfold Cfg.fieldInfo
  rw [find_id_mem cfg.shapeFields hN fd hfd]
  rfl

theorem buildParams_lookup (cfg : Cfg) (st : St) (fields : List InputField)
    (hN : (fields.map InputField.id).Nodup) (entries : List (String × Value))
    (hbp : buildParams cfg fields st = some entries) (f : String) :
    alookup entries f
      = (match fields.find? (fun fd => fd.id == f) with
         | some fd => if cfg.isPacked fd then Option.none else alookup st.fields f
         | Option.none => Option.none) := by
  induction fields generalizing entries with
  | nil =>
    simp only [buildParams] at hbp
    cases hbp
    simp [alookup, List.find?]
  | cons fd rest ih =>
    simp only [List.map_cons, List.nodup_cons] at hN
    simp only [buildParams] at hbp
    by_cases hpk : cfg.isPacked fd = true
    · rw [if_pos hpk] at hbp
      have := ih hN.2 entries hbp
      rw [this]
      by_cases hid : (fd.id == f) = true
      · simp only [beq_iff_eq] at hid
        subst hid
        simp only [List.find?, beq_self_eq_true]
        cases hfr : rest.find? (fun fd2 => fd2.id == fd.id) with
        | none => simp [hpk]
        | some fd2 =>
          have hmem := find?_mem (fun fd2 => fd2.id == fd.id) rest fd2 hfr
          have hid2 : (fd2.id == fd.id) = true :=
            find?_sat (fun fd2 => fd2.id == fd.id) rest fd2 hfr
          simp only [beq_iff_eq] at hid2
          exact absurd (hid2 ▸ List.mem_map_of_mem InputField.id hmem) hN.1
      · simp only [List.find?, hid]
    · rw [Bool.not_eq_true] at hpk
      rw [if_neg (by simp [hpk])] at hbp
      cases halo : alookup st.fields fd.id with
      | none => rw [halo] at hbp; cases hbp
      | some v =>
        rw [halo] at hbp
        cases hbp2 : buildParams cfg rest st with
        | none => rw [hbp2] at hbp; cases hbp
        | some tl =>
          rw [hbp2] at hbp
          simp only [Option.map_some] at hbp
          cases hbp
          by_cases hid : (fd.id == f) = true
          · simp only [beq_iff_eq] at hid
            subst hid
            simp [alookup, List.find?, hpk, halo]
          · have hne : ¬fd.id = f := by simpa using hid
            simp only [alookup, hne, if_false, List.find?, hid]
            exact ih hN.2 tl hbp2

theorem record_lookup (cfg : Cfg) (hshapeN : (cfg.shapeFields.map InputField.id).Nodup)
    (st : St) (recl : List (String × Value)) (hbr : buildRecord cfg st = some recl)
    (fd : InputField) (hfd : fd ∈ cfg.shapeFields) (u : Value)
    (ha : assignedValue cfg st fd.id = some u) :
    alookup recl fd.id = some u := by
  unfold buildRecord at hbr
  cases hbp : buildParams cfg cfg.shapeFields st with
  | none => rw [hbp] at hbr; cases hbr
  | some entries =>
    rw [hbp] at hbr
    cases hbr
    have hlook := buildParams_lookup cfg st cfg.shapeFields hshapeN entries hbp fd.id
    rw [alookup_append, hlook, find_id_mem cfg.shapeFields hshapeN fd hfd]
    simp only []
    have hfi : cfg.fieldInfo fd.id = fd := fieldInfo_mem cfg hshapeN fd hfd
    unfold assignedValue at ha
    rw [hfi] at ha
    by_cases hpk : cfg.isPacked fd = true
    · rw [if_pos hpk]
      rw [if_pos hpk] at ha
      simpa using ha
    · rw [if_neg hpk]
      rw [if_neg hpk] at ha
      rw [ha]

theorem find_name_mem (fields : List OutField) (hN : (fields.map OutField.name).Nodup)
    (fo : OutField) (hfo : fo ∈ fields) :
    fields.find? (fun f => f.name == fo.name) = some fo := by
  induction fields with
  | nil => cases hfo
  | cons hd rest ih =>
    simp only [List.map_cons, List.nodup_cons] at hN
    rcases List.mem_cons.1 hfo with h | h
    · subst h
      simp [List.find?]
    · have hne : ¬(hd.name == fo.name) = true := by
        simp only [beq_iff_eq]
        intro he
        exact hN.1 (he ▸ List.mem_map_of_mem OutField.name h)
      rw [Bool.not_eq_true] at hne
      simp only [List.find?, hne]
      exact ih hN.2 h

theorem figureField_mem (dcfg : DumpCfg) (hN : (dcfg.figureFields.map OutField.name).Nodup)
    (fo : OutField) (hfo : fo ∈ dcfg.figureFields) : figureField dcfg fo.name = fo := by
  unfold figureField
  rw [find_name_mem dcfg.figureFields hN fo hfo]
  rfl

theorem extractRegular_frame (dcfg : DumpCfg) (record : Value) (fs : List OutField)
    (dst dst' : DSt) (hrun : extractRegular dcfg record fs dst = some dst') :
    ∀ g, g ∉ fs.map OutField.name →
      alookup dst'.dfields g = alookup dst.dfields g
      ∧ alookup dst'.optFields g = alookup dst.optFields g := by
  induction fs generalizing dst with
  | nil =>
    simp only [extractRegular] at hrun
    cases hrun
    exact fun g _ => ⟨rfl, rfl⟩
  | cons f rest ih =>
    intro g hg
    simp only [List.map_cons, List.mem_cons, not_or] at hg
    simp only [extractRegular] at hrun
    by_cases het : dcfg.extraTargetNames.contains f.name = true
    · rw [if_pos het] at hrun
      exact ih dst hrun g hg.2
    · rw [if_neg het] at hrun
      cases hacc : accessField record f.name with
      | some v =>
        simp only [hacc] at hrun
        by_cases hreq : f.isRequired = true
        · rw [if_pos hreq] at hrun
          have := ih _ hrun g hg.2
          simp only [] at this
          refine ⟨?_, this.2⟩
          rw [this.1, alookup_upsert_ne _ _ _ _ (fun he => hg.1 he.symm)]
        · rw [if_neg hreq] at hrun
          have := ih _ hrun g hg.2
          simp only [] at this
          refine ⟨this.1, ?_⟩
          rw [this.2, alookup_upsert_ne _ _ _ _ (fun he => hg.1 he.symm)]
      | none =>
        simp only [hacc] at hrun
        by_cases hreq : f.isRequired = true
        · rw [if_pos hreq] at hrun
          cases hrun
        · rw [if_neg hreq] at hrun
          exact ih dst hrun g hg.2

theorem extractRegular_found (dcfg : DumpCfg) (hnoet : dcfg.extraTargetNames = [])
    (record : Value) (fs : List OutField) (dst dst' : DSt)
    (hN : (fs.map OutField.name).Nodup)
    (hrun : extractRegular dcfg record fs dst = some dst')
    (f : OutField) (hf : f ∈ fs) (v : Value)
    (hacc : accessField record f.name = some v) :
    (if f.isRequired then alookup dst'.dfields f.name else alookup dst'.optFields f.name)
      = some (dcfg.serializers f.name v) := by
  induction fs generalizing dst with
  | nil => cases hf
  | cons f0 rest ih =>
    simp only [List.map_cons, List.nodup_cons] at hN
    simp only [extractRegular, hnoet] at hrun
    simp only [List.contains, List.elem_nil, Bool.false_eq_true, if_false] at hrun
    rcases List.mem_cons.1 hf with h | h
    · subst h
      simp only [hacc] at hrun
      by_cases hreq : f.isRequired = true
      · rw [if_pos hreq] at hrun
        rw [if_pos hreq]
        have hfr := extractRegular_frame dcfg record rest _ dst' hrun f.name hN.1
        rw [hfr.1]
        simp [alookup_upsert_self]
      · rw [if_neg hreq] at hrun
        rw [if_neg hreq]
        have hfr := extractRegular_frame dcfg record rest _ dst' hrun f.name hN.1
        rw [hfr.2]
        simp [alookup_upsert_self]
    · cases hacc0 : accessField record f0.name with
      | some v0 =>
        simp only [hacc0] at hrun
        by_cases hreq0 : f0.isRequired = true
        · rw [if_pos hreq0] at hrun
          exact ih _ hN.2 hrun h
        · rw [if_neg hreq0] at hrun
          exact ih _ hN.2 hrun h
      | none =>
        simp only [hacc0] at hrun
        by_cases hreq0 : f0.isRequired = true
        · rw [if_pos hreq0] at hrun
          cases hrun
        · rw [if_neg hreq0] at hrun
          exact ih _ hN.2 hrun h

theorem retainedDict_mem {m : List (String × InpCrown)} {d : Value}
    {t : Path × String × Value} (ht : t ∈ retainedDict m d) :
    ∃ k c v t0, (k, c) ∈ m ∧ subscript d (.key k) = .found v
      ∧ t0 ∈ retainedLeaves c v ∧ t = (PathElem.key k :: t0.1, t0.2.1, t0.2.2) := by
  induction m with
  | nil => simp [retainedDict] at ht
  | cons hd rest ih =>
    obtain ⟨k0, c0⟩ := hd
    simp only [retainedDict] at ht
    rcases List.mem_append.1 ht with h | h
    · cases hsub : subscript d (.key k0) with
      | found v =>
        rw [hsub] at h
        simp only [List.mem_map] at h
        obtain ⟨t0, ht0, heq⟩ := h
        exact ⟨k0, c0, v, t0, List.mem_cons.2 (Or.inl rfl), hsub, ht0, heq.symm⟩
      | missing => rw [hsub] at h; cases h
      | badType => rw [hsub] at h; cases h
    · obtain ⟨k, c, v, t0, hm, hsub, ht0, heq⟩ := ih h
      exact ⟨k, c, v, t0, List.mem_cons.2 (Or.inr hm), hsub, ht0, heq⟩

theorem retainedDict_mem_intro {m : List (String × InpCrown)} {d : Value}
    {k : String} {c : InpCrown} {v : Value} {t0 : Path × String × Value}
    (hm : (k, c) ∈ m) (hsub : subscript d (.key k) = .found v)
    (ht0 : t0 ∈ retainedLeaves c v) :
    (PathElem.key k :: t0.1, t0.2.1, t0.2.2) ∈ retainedDict m d := by
  induction m with
  | nil => cases hm
  | cons hd rest ih =>
    obtain ⟨k0, c0⟩ := hd
    simp only [retainedDict]
    rcases List.mem_cons.1 hm with h | h
    · cases h
      rw [hsub]
      exact List.mem_append.2 (Or.inl (List.mem_map.2 ⟨t0, ht0, rfl⟩))
    · exact List.mem_append.2 (Or.inr (ih h))

theorem retainedList_mem {m : List InpCrown} {d : Value} {i : Nat}
    {t : Path × String × Value} (ht : t ∈ retainedList i m d) :
    ∃ j c v t0, m.get? j = some c ∧ subscript d (.idx (i + j)) = .found v
      ∧ t0 ∈ retainedLeaves c v ∧ t = (PathElem.idx (i + j) :: t0.1, t0.2.1, t0.2.2) := by
  induction m generalizing i with
  | nil => simp [retainedList] at ht
  | cons c0 rest ih =>
    simp only [retainedList] at ht
    rcases List.mem_append.1 ht with h | h
    · cases hsub : subscript d (.idx i) with
      | found v =>
        rw [hsub] at h
        simp only [List.mem_map] at h
        obtain ⟨t0, ht0, heq⟩ := h
        exact ⟨0, c0, v, t0, rfl, by simpa using hsub, ht0, by simpa using heq.symm⟩
      | missing => rw [hsub] at h; cases h
      | badType => rw [hsub] at h; cases h
    · obtain ⟨j, c, v, t0, hg, hsub, ht0, heq⟩ := ih h
      refine ⟨j + 1, c, v, t0, by simpa using hg, ?_, ht0, ?_⟩
      · have : i + (j + 1) = i + 1 + j := by omega
        rw [this]
        exact hsub
      · have : i + (j + 1) = i + 1 + j := by omega
        rw [this]
        exact heq

theorem retainedList_mem_intro {m : List InpCrown} {d : Value} {i j : Nat}
    {c : InpCrown} {v : Value} {t0 : Path × String × Value}
    (hg : m.get? j = some c) (hsub : subscript d (.idx (i + j)) = .found v)
    (ht0 : t0 ∈ retainedLeaves c v) :
    (PathElem.idx (i + j) :: t0.1, t0.2.1, t0.2.2) ∈ retainedList i m d := by
  induction m generalizing i j with
  | nil => cases hg
  | cons c0 rest ih =>
    simp only [retainedList]
    cases j with
    | zero =>
      simp only [List.get?] at hg
      cases hg
      rw [show i + 0 = i from rfl] at hsub ⊢
      rw [hsub]
      exact List.mem_append.2 (Or.inl (List.mem_map.2 ⟨t0, ht0, rfl⟩))
    | succ j' =>
      simp only [List.get?] at hg
      have harith : i + (j' + 1) = i + 1 + j' := by omega
      rw [harith] at hsub ⊢
      exact List.mem_append.2 (Or.inr (ih hg hsub))

theorem crownWFD_mem {m : List (String × InpCrown)} (hwf : crownWFD m = true)
    {k : String} {c : InpCrown} (hm : (k, c) ∈ m) : crownWF c = true := by
  induction m with
  | nil => cases hm
  | cons hd rest ih =>
    obtain ⟨k0, c0⟩ := hd
    simp only [crownWFD, Bool.and_eq_true] at hwf
    rcases List.mem_cons.1 hm with h | h
    · cases h
      exact hwf.1
    · exact ih hwf.2 h

theorem crownWFL_mem {m : List InpCrown} (hwf : crownWFL m = true)
    {c : InpCrown} (hm : c ∈ m) : crownWF c = true := by
  induction m with
  | nil => cases hm
  | cons c0 rest ih =>
    simp only [crownWFL, Bool.and_eq_true] at hwf
    rcases List.mem_cons.1 hm with h | h
    · cases h
      exact hwf.1
    · exact ih hwf.2 h

theorem createDictOut_alookup (dcfg : DumpCfg) (dst : DSt)
    {m : List (String × InpCrown)} (hwf : nodupKeys (m.map Prod.fst) = true)
    {k : String} {c : InpCrown} (hm : (k, c) ∈ m) {cv : Value}
    (hout : createOutput dcfg dst c = some cv) :
    alookup (createDictOut dcfg dst m) k = some cv := by
  induction m with
  | nil => cases hm
  | cons hd rest ih =>
    obtain ⟨k0, c0⟩ := hd
    simp only [List.map_cons, nodupKeys, Bool.and_eq_true, Bool.not_eq_true'] at hwf
    rcases List.mem_cons.1 hm with h | h
    · cases h
      simp only [createDictOut, hout]
      simp [alookup]
    · have hk : k ≠ k0 := by
        intro he
        have h1 := hwf.1
        simp only [List.contains_eq_any_beq, List.any_eq_false] at h1
        have hmem : k0 ∈ List.map Prod.fst rest := he ▸ List.mem_map_of_mem Prod.fst h
        have := h1 k0 hmem
        simp at this
      simp only [createDictOut]
      cases hc0 : createOutput dcfg dst c0 with
      | some v0 =>
        simp only [alookup, show ¬(k0 = k) from fun he => hk he.symm, if_false]
        exact ih hwf.2 h
      | none =>
        exact ih hwf.2 h

theorem createListOut_get (dcfg : DumpCfg) (dst : DSt)
    {m : List InpCrown} {j : Nat} {c : InpCrown} (hg : m.get? j = some c) :
    (createListOut dcfg dst m).get? j
      = some (match createOutput dcfg dst c with
              | some v => v
              | Option.none => .vnone) := by
  induction m generalizing j with
  | nil => cases hg
  | cons c0 rest ih =>
    cases j with
    | zero =>
      simp only [List.get?] at hg
      cases hg
      simp [createListOut, List.get?]
    | succ j' =>
      simp only [List.get?] at hg
      simp only [createListOut, List.get?]
      exact ih hg

theorem create_some (dcfg : DumpCfg) (dst : DSt) (c : InpCrown) (v : Value)
    (t0 : Path × String × Value) (ht0 : t0 ∈ retainedLeaves c v)
    (hval : extractedValue dcfg dst t0.2.1 = some t0.2.2) :
    ∃ cv, createOutput dcfg dst c = some cv := by
  cases c with
  | dict m pol => exact ⟨.vdict (createDictOut dcfg dst m), by simp [createOutput]⟩
  | list m pol => exact ⟨.vlist (createListOut dcfg dst m), by simp [createOutput]⟩
  | leafNone => simp [retainedLeaves] at ht0
  | field f =>
    simp only [retainedLeaves, List.mem_singleton] at ht0
    subst ht0
    exact ⟨v, by simpa [createOutput] using hval⟩

/-- The created output agrees with the extracted values on every retained path
(size-bounded auxiliary form). -/
theorem create_valueAt_aux (dcfg : DumpCfg) (dst : DSt) :
    ∀ (n : Nat) (c : InpCrown), sizeOf c ≤ n → ∀ (v : Value), crownWF c = true →
    (∀ t ∈ retainedLeaves c v, extractedValue dcfg dst t.2.1 = some t.2.2) →
    ∀ t ∈ retainedLeaves c v, ∀ out, createOutput dcfg dst c = some out →
      valueAt out t.1 = some t.2.2 := by
  intro n
  induction n with
  | zero =>
    intro c hc
    exfalso
    cases c <;> simp at hc
  | succ n ih =>
    intro c hc v hwf hvals t ht out hout
    cases c with
    | field f =>
      simp only [retainedLeaves, List.mem_singleton] at ht
      subst ht
      simp only [createOutput] at hout
      have hv := hvals ([], f, v) (by simp [retainedLeaves])
      simp only [] at hv
      have hov : some out = some v := hout.symm.trans hv
      cases hov
      simp [valueAt]
    | leafNone => simp [retainedLeaves] at ht
    | dict m pol =>
      simp only [createOutput] at hout
      cases hout
      simp only [retainedLeaves] at ht hvals
      simp only [crownWF, Bool.and_eq_true] at hwf
      simp only [InpCrown.dict.sizeOf_spec] at hc
      have hD : ∀ (m' : List (String × InpCrown)),
          (∀ p ∈ m', sizeOf p.2 ≤ n) →
          nodupKeys (m'.map Prod.fst) = true → crownWFD m' = true →
          (∀ t' ∈ retainedDict m' v, extractedValue dcfg dst t'.2.1 = some t'.2.2) →
          ∀ t' ∈ retainedDict m' v,
            valueAt (.vdict (createDictOut dcfg dst m')) t'.1 = some t'.2.2 := by
        intro m'
        induction m' with
        | nil =>
          intro _ _ _ _ t' ht'
          simp [retainedDict] at ht'
        | cons hd rest ihm =>
          obtain ⟨k0, c0⟩ := hd
          intro hsz hk hwfD hvalsD t' ht'
          simp only [List.map_cons, nodupKeys, Bool.and_eq_true, Bool.not_eq_true'] at hk
          simp only [crownWFD, Bool.and_eq_true] at hwfD
          simp only [retainedDict] at ht'
          rcases List.mem_append.1 ht' with h | h
          · cases hsub : subscript v (.key k0) with
            | found w =>
              rw [hsub] at h
              simp only [List.mem_map] at h
              obtain ⟨t0, ht0, heq⟩ := h
              subst heq
              have hvals0 : ∀ t2 ∈ retainedLeaves c0 w,
                  extractedValue dcfg dst t2.2.1 = some t2.2.2 := by
                intro t2 ht2
                have := hvalsD (PathElem.key k0 :: t2.1, t2.2.1, t2.2.2)
                  (by
                    simp only [retainedDict]
                    exact List.mem_append.2 (Or.inl (by
                      rw [hsub]
                      exact List.mem_map.2 ⟨t2, ht2, rfl⟩)))
                simpa using this
              obtain ⟨cv, hcv⟩ := create_some dcfg dst c0 w t0 ht0 (hvals0 t0 ht0)
              simp only [createDictOut, hcv]
              simp only [valueAt, subscript, alookup, if_pos rfl]
              exact ih c0 (hsz (k0, c0) (List.mem_cons.2 (Or.inl rfl))) w hwfD.1
                hvals0 t0 ht0 cv hcv
            | missing => rw [hsub] at h; cases h
            | badType => rw [hsub] at h; cases h
          · obtain ⟨k', c', w', t0, hm', hsub', ht0', heq'⟩ := retainedDict_mem h
            have hk' : ¬(k0 = k') := by
              intro he
              have h1 := hk.1
              simp only [List.contains_eq_any_beq, List.any_eq_false] at h1
              have hmem : k0 ∈ List.map Prod.fst rest := he ▸ List.mem_map_of_mem Prod.fst hm'
              have := h1 k0 hmem
              simp at this
            have hrec := ihm (fun p hp => hsz p (List.mem_cons.2 (Or.inr hp))) hk.2 hwfD.2
              (fun t2 ht2 => hvalsD t2 (by
                simp only [retainedDict]
                exact List.mem_append.2 (Or.inr ht2))) t' h
            rw [heq'] at hrec ⊢
            simp only [valueAt, subscript] at hrec ⊢
            simp only [createDictOut]
            cases hc0 : createOutput dcfg dst c0 with
            | some v0 =>
              simp only [alookup, hk', if_false]
              exact hrec
            | none =>
              exact hrec
      refine hD m ?_ hwf.1 hwf.2 hvals t ht
      intro p hp
      obtain ⟨a, b⟩ := p
      have h1 := List.sizeOf_lt_of_mem hp
      simp only [Prod.mk.sizeOf_spec] at h1
      simp only []
      omega
    | list m pol =>
      simp only [createOutput] at hout
      cases hout
      simp only [retainedLeaves] at ht hvals
      simp only [crownWF] at hwf
      simp only [InpCrown.list.sizeOf_spec] at hc
      have hL : ∀ (m' : List InpCrown) (i : Nat) (L : List Value),
          (∀ c' ∈ m', sizeOf c' ≤ n) →
          crownWFL m' = true →
          (∀ j c', m'.get? j = some c' →
            L.get? (i + j) = some (match createOutput dcfg dst c' with
                                   | some u => u
                                   | Option.none => .vnone)) →
          (∀ t' ∈ retainedList i m' v, extractedValue dcfg dst t'.2.1 = some t'.2.2) →
          ∀ t' ∈ retainedList i m' v, valueAt (.vlist L) t'.1 = some t'.2.2 := by
        intro m'
        induction m' with
        | nil =>
          intro i L _ _ _ _ t' ht'
          simp [retainedList] at ht'
        | cons c0 rest ihm =>
          intro i L hsz hwfL hLk hvalsL t' ht'
          simp only [crownWFL, Bool.and_eq_true] at hwfL
          simp only [retainedList] at ht'
          rcases List.mem_append.1 ht' with h | h
          · cases hsub : subscript v (.idx i) with
            | found w =>
              rw [hsub] at h
              simp only [List.mem_map] at h
              obtain ⟨t0, ht0, heq⟩ := h
              subst heq
              have hvals0 : ∀ t2 ∈ retainedLeaves c0 w,
                  extractedValue dcfg dst t2.2.1 = some t2.2.2 := by
                intro t2 ht2
                have := hvalsL (PathElem.idx i :: t2.1, t2.2.1, t2.2.2)
                  (by
                    simp only [retainedList]
                    exact List.mem_append.2 (Or.inl (by
                      rw [hsub]
                      exact List.mem_map.2 ⟨t2, ht2, rfl⟩)))
                simpa using this
              obtain ⟨cv, hcv⟩ := create_some dcfg dst c0 w t0 ht0 (hvals0 t0 ht0)
              have hget := hLk 0 c0 rfl
              rw [hcv] at hget
              simp only [valueAt, subscript]
              rw [show i + 0 = i from rfl] at hget
              rw [hget]
              exact ih c0 (hsz c0 (List.mem_cons.2 (Or.inl rfl))) w hwfL.1
                hvals0 t0 ht0 cv hcv
            | missing => rw [hsub] at h; cases h
            | badType => rw [hsub] at h; cases h
          · refine ihm (i + 1) L (fun c' hc' => hsz c' (List.mem_cons.2 (Or.inr hc'))) hwfL.2
              ?_
              (fun t2 ht2 => hvalsL t2 (by
                simp only [retainedList]
                exact List.mem_append.2 (Or.inr ht2))) t' h
            intro j c' hg
            have := hLk (j + 1) c' (by simpa using hg)
            rw [show i + (j + 1) = i + 1 + j from by omega] at this
            exact this
      refine hL m 0 (createListOut dcfg dst m) ?_ hwf
        (fun j c' hg => by simpa using createListOut_get dcfg dst hg) hvals t ht
      intro c' hc'
      have h1 := List.sizeOf_lt_of_mem hc'
      omega

/-- The created output agrees with the extracted values on every retained path. -/
theorem create_valueAt (dcfg : DumpCfg) (dst : DSt) (c : InpCrown) (v : Value)
    (hwf : crownWF c = true)
    (hvals : ∀ t ∈ retainedLeaves c v, extractedValue dcfg dst t.2.1 = some t.2.2)
    (t : Path × String × Value) (ht : t ∈ retainedLeaves c v)
    (out : Value) (hout : createOutput dcfg dst c = some out) :
    valueAt out t.1 = some t.2.2 :=
  create_valueAt_aux dcfg dst (sizeOf c) c le_rfl v hwf hvals t ht out hout

theorem isPacked_required (cfg : Cfg) (f : InputField) (hreq : f.isRequired = true) :
    cfg.isPacked f = false := by
  unfold Cfg.isPacked
  by_cases hc : (cfg.useDefaultForOmitted && hasDeclaredDefault f.default) = true
  · rw [if_pos hc]
  · rw [if_neg hc]
    simp [hreq]

theorem assignTo_fields_frame (st : St) (fid : String) (u : Value) (g : String)
    (hg : ¬g = fid) :
    alookup (assignTo st (.tofield fid) u).fields g = alookup st.fields g
    ∧ alookup (assignTo st (.tofield fid) u).packed g = alookup st.packed g := by
  constructor
  · simp only [assignTo]
    exact alookup_upsert_ne _ _ _ _ (fun he => hg he.symm)
  · rfl

theorem assignTo_packed_frame (st : St) (fid : String) (u : Value) (g : String)
    (hg : ¬g = fid) :
    alookup (assignTo st (.topacked fid) u).fields g = alookup st.fields g
    ∧ alookup (assignTo st (.topacked fid) u).packed g = alookup st.packed g := by
  constructor
  · rfl
  · simp only [assignTo]
    exact alookup_upsert_ne _ _ _ _ (fun he => hg he.symm)

/-- Under `DISABLE`, a successful field assignment means the loader accepted the
argument and the result was stored. -/
theorem loaded_runFieldAssign (cfg : Cfg) (path : Path) (fid : String) (arg : Value)
    (tgt : Target) (st : St) (u : Unit) (st' : St) (hdt : cfg.dt = .disable)
    (heq : runFieldAssign cfg path fid arg tgt st = .ok u st') :
    ∃ w, cfg.loaders fid arg = .ok w ∧ st' = assignTo st tgt w := by
  simp only [runFieldAssign] at heq
  cases hl : cfg.loaders fid arg with
  | ok w =>
    rw [hl] at heq
    simp only [] at heq
    cases heq
    exact ⟨w, rfl, rfl⟩
  | error r =>
    rw [hl, hdt] at heq
    simp only [emitRaw] at heq
    cases heq

/-- Under `DISABLE`, a successful branch-style parent assignment means the slice was
found and nothing changed. -/
theorem loaded_assignBranch (cfg : Cfg) (p : Path) (keyEl : PathElem) (pinfo : ParentInfo)
    (pd : Value) (ck hnf : Bool) (st : St) (a : AOut) (st1 : St)
    (hdt : cfg.dt = .disable)
    (heq : assignFromParent cfg p keyEl pinfo (some pd) .branch ck hnf st = .ok a st1) :
    ∃ v, subscript pd keyEl = .found v ∧ a = ⟨some v, true, hnf⟩ ∧ st1 = st := by
  simp only [assignFromParent] at heq
  cases hsub : subscript pd keyEl with
  | found v =>
    rw [hsub] at heq
    simp only [] at heq
    cases heq
    exact ⟨v, rfl, rfl, rfl⟩
  | missing =>
    rw [hsub, hdt] at heq
    simp only [] at heq
    cases heq
  | badType =>
    rw [hsub] at heq
    cases ck with
    | true =>
      simp only [if_true, hdt, unexpCatch] at heq
      cases heq
    | false =>
      simp only [Bool.false_eq_true, if_false, hdt, raiseBadType] at heq
      rw [if_neg (show ¬(p = [] ∧ DebugTrail.disable = DebugTrail.all) from
        fun h => by cases h.2)] at heq
      simp only [] at heq
      cases heq

theorem framePair_assign_tofield (st : St) (fid : String) (u : Value) :
    FramePair [fid] st (assignTo st (.tofield fid) u) := by
  intro g hg
  exact assignTo_fields_frame st fid u g (by simpa using hg)

theorem framePair_assign_topacked (st : St) (fid : String) (u : Value) :
    FramePair [fid] st (assignTo st (.topacked fid) u) := by
  intro g hg
  exact assignTo_packed_frame st fid u g (by simpa using hg)

/-- Under `DISABLE`, a successful optional-from-mapping extraction touches only the
field's own slot, and when the key is present the loader accepted the raw slice. -/
theorem loaded_optFromMapping (cfg : Cfg) (p : Path) (k fid : String) (tgt : Target)
    (onMiss : St → St) (pd : Value) (ck : Bool) (st : St) (u : Unit) (st' : St)
    (hdt : cfg.dt = .disable)
    (htgt : ∀ s w, FramePair [fid] s (assignTo s tgt w))
    (honMiss : ∀ s, FramePair [fid] s (onMiss s))
    (heq : optFromMapping cfg p k fid tgt onMiss (some pd) ck st = .ok u st') :
    FramePair [fid] st st'
    ∧ ∀ v, subscript pd (.key k) = .found v →
        ∃ w, cfg.loaders fid v = .ok w ∧ st' = assignTo st tgt w := by
  simp only [optFromMapping] at heq
  cases ck with
  | true =>
    rw [if_pos rfl] at heq
    cases hpc : pyContains pd k with
    | error uu =>
      rw [hpc] at heq
      cases heq
    | ok b =>
      rw [hpc] at heq
      cases b with
      | true =>
        simp only [] at heq
        cases hsub : subscript pd (.key k) with
        | found v =>
          rw [hsub] at heq
          simp only [] at heq
          obtain ⟨w, hw, hst⟩ := loaded_runFieldAssign cfg _ fid v tgt st u st' hdt heq
          refine ⟨hst ▸ htgt st w, ?_⟩
          intro v' hv'
          injection hv' with hvv
          subst hvv
          exact ⟨w, hw, hst⟩
        | missing =>
          rw [hsub, hdt] at heq
          simp only [emitRaw] at heq
          cases heq
        | badType =>
          rw [hsub, hdt] at heq
          simp only [emitRaw] at heq
          cases heq
      | false =>
        simp only [] at heq
        cases heq
        refine ⟨honMiss st, ?_⟩
        intro v hv
        cases pd with
        | vdict m =>
          simp only [pyContains] at hpc
          simp only [subscript] at hv
          cases halk : alookup m k with
          | some w =>
            rw [halk] at hpc
            simp at hpc
          | none =>
            rw [halk] at hv
            cases hv
        | vstr s => simp only [subscript] at hv; cases hv
        | vint n => simp only [subscript] at hv; cases hv
        | vbool b => simp only [subscript] at hv; cases hv
        | vnone => simp only [subscript] at hv; cases hv
        | vlist xs => simp only [subscript] at hv; cases hv
  | false =>
    rw [if_neg (by simp)] at heq
    cases pd with
    | vdict m =>
      simp only [] at heq
      cases halk : alookup m k with
      | some v =>
        rw [halk] at heq
        simp only [] at heq
        obtain ⟨w, hw, hst⟩ := loaded_runFieldAssign cfg _ fid v tgt st u st' hdt heq
        refine ⟨hst ▸ htgt st w, ?_⟩
        intro v' hv'
        simp only [subscript, halk] at hv'
        injection hv' with hvv
        subst hvv
        exact ⟨w, hw, hst⟩
      | none =>
        rw [halk] at heq
        simp only [] at heq
        cases heq
        refine ⟨honMiss st, ?_⟩
        intro v hv
        simp only [subscript, halk] at hv
        cases hv
    | vstr s =>
      rw [hdt] at heq
      simp only [raiseBadType] at heq
      split at heq <;> cases heq
    | vint n =>
      rw [hdt] at heq
      simp only [raiseBadType] at heq
      split at heq <;> cases heq
    | vbool b =>
      rw [hdt] at heq
      simp only [raiseBadType] at heq
      split at heq <;> cases heq
    | vnone =>
      rw [hdt] at heq
      simp only [raiseBadType] at heq
      split at heq <;> cases heq
    | vlist xs =>
      rw [hdt] at heq
      simp only [raiseBadType] at heq
      split at heq <;> cases heq

theorem raiseBadType_disable_err (p : Path) (e : LErr) (st : St) :
    raiseBadType DebugTrail.disable p e st
      = Res.err (.load e (trailFor DebugTrail.disable p)) st := by
  simp only [raiseBadType]
  rw [if_neg (fun h => by cases h.2)]

theorem framePair_assign_either (st : St) (fid : String) (w : Value) (tgt : Target)
    (h : tgt = .tofield fid ∨ tgt = .topacked fid) :
    FramePair [fid] st (assignTo st tgt w) := by
  cases h with
  | inl h => subst h; exact framePair_assign_tofield st fid w
  | inr h => subst h; exact framePair_assign_topacked st fid w

theorem assignedValue_assignTo_sel (cfg : Cfg) (st : St) (fid : String) (w : Value) :
    assignedValue cfg
      (assignTo st
        (if cfg.isPacked (cfg.fieldInfo fid) then Target.topacked fid
         else Target.tofield fid) w) fid = some w := by
  by_cases hp : cfg.isPacked (cfg.fieldInfo fid) = true
  · simp [hp, assignedValue, assignTo, alookup_upsert_self]
  · rw [Bool.not_eq_true] at hp
    simp [hp, assignedValue, assignTo, alookup_upsert_self]

theorem assignedValue_assignTo_tofield (cfg : Cfg) (st : St) (fid : String) (w : Value)
    (h : cfg.isPacked (cfg.fieldInfo fid) = false) :
    assignedValue cfg (assignTo st (.tofield fid) w) fid = some w := by
  simp [assignedValue, h, assignTo, alookup_upsert_self]

/-- Under `DISABLE`, a successful custom-on-missing parent assignment either found
the slice (leaving the state alone) or ran the custom action. -/
theorem loaded_assignCustom (cfg : Cfg) (p : Path) (keyEl : PathElem) (pinfo : ParentInfo)
    (pd : Value) (act : St → St) (ck hnf : Bool) (st : St) (a : AOut) (st1 : St)
    (hdt : cfg.dt = .disable)
    (heq : assignFromParent cfg p keyEl pinfo (some pd) (.custom act) ck hnf st
      = .ok a st1) :
    (st1 = st ∨ st1 = act st)
    ∧ ∀ v, subscript pd keyEl = .found v → a.value = some v ∧ st1 = st := by
  simp only [assignFromParent] at heq
  cases hsub : subscript pd keyEl with
  | found v =>
    rw [hsub] at heq
    simp only [] at heq
    cases heq
    exact ⟨Or.inl rfl, fun v' hv' => by injection hv' with h; subst h; exact ⟨rfl, rfl⟩⟩
  | missing =>
    rw [hsub] at heq
    simp only [] at heq
    cases heq
    refine ⟨Or.inr rfl, fun v hv => ?_⟩
    cases hv
  | badType =>
    rw [hsub] at heq
    cases ck with
    | true =>
      simp only [if_true, hdt, unexpCatch] at heq
      cases heq
    | false =>
      simp only [Bool.false_eq_true, if_false, hdt] at heq
      rw [raiseBadType_disable_err] at heq
      simp only [] at heq
      cases heq

/-- Under `DISABLE`, a successful field-crown dispatch touches only the field's own
slot, and when the slice is present the loader accepted it and the result is stored. -/
theorem loaded_runFieldCrown (cfg : Cfg) (p : Path) (keyEl : PathElem)
    (pinfo : ParentInfo) (pd : Value) (fid : String) (ck hnf : Bool) (st : St)
    (flags : Bool × Bool) (st' : St) (hdt : cfg.dt = .disable)
    (heq : runFieldCrown cfg p keyEl pinfo (some pd) fid ck hnf st = .ok flags st') :
    FramePair [fid] st st'
    ∧ ∀ v, subscript pd keyEl = .found v →
        ∃ w, cfg.loaders fid v = .ok w ∧ assignedValue cfg st' fid = some w := by
  cases hreq : (cfg.fieldInfo fid).isRequired with
  | true =>
    simp only [runFieldCrown, hreq, if_true] at heq
    cases hres : assignFromParent cfg p keyEl pinfo (some pd) .branch ck hnf st with
    | err e st1 =>
      rw [hres] at heq
      cases heq
    | ok a st1 =>
      rw [hres] at heq
      obtain ⟨v, hsub, ha, hst1⟩ := loaded_assignBranch cfg p keyEl pinfo pd ck hnf st
        a st1 hdt hres
      subst ha
      rw [hst1] at heq
      simp only [] at heq
      cases hfa : runFieldAssign cfg (p ++ [keyEl]) fid v (.tofield fid) st with
      | err e st2 =>
        rw [hfa] at heq
        cases heq
      | ok uu st2 =>
        rw [hfa] at heq
        injection heq with hfl hstq
        obtain ⟨w, hw, hst2⟩ := loaded_runFieldAssign cfg (p ++ [keyEl]) fid v
          (.tofield fid) st uu st2 hdt hfa
        rw [← hstq, hst2]
        refine ⟨framePair_assign_tofield st fid w, ?_⟩
        intro v' hv'
        rw [hsub] at hv'
        injection hv' with hvv
        subst hvv
        exact ⟨w, hw, assignedValue_assignTo_tofield cfg st fid w
          (isPacked_required cfg (cfg.fieldInfo fid) hreq)⟩
  | false =>
    have honMiss : ∀ s : St,
        FramePair [fid] s
          ((if cfg.isPacked (cfg.fieldInfo fid) then id
            else fun s =>
              assignTo s (.tofield fid) (defaultValue (cfg.fieldInfo fid).default)) s) := by
      intro s
      by_cases hp : cfg.isPacked (cfg.fieldInfo fid) = true
      · rw [if_pos hp]
        exact framePair_refl [fid] s
      · rw [Bool.not_eq_true] at hp
        rw [if_neg (by rw [hp]; exact Bool.false_ne_true)]
        exact framePair_assign_tofield s fid _
    have htgt : ∀ (s : St) (w : Value),
        FramePair [fid] s
          (assignTo s
            (if cfg.isPacked (cfg.fieldInfo fid) then Target.topacked fid
             else Target.tofield fid) w) := by
      intro s w
      refine framePair_assign_either s fid w _ ?_
      by_cases hp : cfg.isPacked (cfg.fieldInfo fid) = true
      · rw [if_pos hp]
        exact Or.inr rfl
      · rw [Bool.not_eq_true] at hp
        rw [if_neg (by rw [hp]; exact Bool.false_ne_true)]
        exact Or.inl rfl
    cases keyEl with
    | idx i =>
      simp only [runFieldCrown, hreq, Bool.false_eq_true, if_false] at heq
      cases hres : assignFromParent cfg p (.idx i) pinfo (some pd)
          (.custom (if cfg.isPacked (cfg.fieldInfo fid) then id
            else fun s =>
              assignTo s (.tofield fid) (defaultValue (cfg.fieldInfo fid).default)))
          ck hnf st with
      | err e st1 =>
        rw [hres] at heq
        cases heq
      | ok a st1 =>
        rw [hres] at heq
        simp only [] at heq
        obtain ⟨hst1, hfound⟩ := loaded_assignCustom cfg p (.idx i) pinfo pd _ ck hnf st
          a st1 hdt hres
        have hfr1 : FramePair [fid] st st1 := by
          cases hst1 with
          | inl h => rw [h]; exact framePair_refl [fid] st
          | inr h => rw [h]; exact honMiss st
        cases hv : a.value with
        | some v =>
          rw [hv] at heq
          simp only [] at heq
          cases hfa : runFieldAssign cfg (p ++ [PathElem.idx i]) fid v
              (if cfg.isPacked (cfg.fieldInfo fid) then Target.topacked fid
               else Target.tofield fid) st1 with
          | err e st2 =>
            rw [hfa] at heq
            cases heq
          | ok uu st2 =>
            rw [hfa] at heq
            injection heq with hfl hstq
            obtain ⟨w, hw, hst2⟩ := loaded_runFieldAssign cfg (p ++ [PathElem.idx i])
              fid v _ st1 uu st2 hdt hfa
            rw [← hstq, hst2]
            refine ⟨framePair_trans hfr1 (htgt st1 w), ?_⟩
            intro v' hv'
            obtain ⟨hav, hst1eq⟩ := hfound v' hv'
            rw [hv] at hav
            injection hav with hvv
            subst hvv
            exact ⟨w, hw, assignedValue_assignTo_sel cfg st1 fid w⟩
        | none =>
          rw [hv] at heq
          simp only [] at heq
          injection heq with hfl hstq
          rw [← hstq]
          refine ⟨hfr1, ?_⟩
          intro v' hv'
          obtain ⟨hav, _⟩ := hfound v' hv'
          rw [hv] at hav
          cases hav
    | key k =>
      simp only [runFieldCrown, hreq, Bool.false_eq_true, if_false] at heq
      cases hopt : optFromMapping cfg p k fid
          (if cfg.isPacked (cfg.fieldInfo fid) then Target.topacked fid
           else Target.tofield fid)
          (if cfg.isPacked (cfg.fieldInfo fid) then id
           else fun s =>
             assignTo s (.tofield fid) (defaultValue (cfg.fieldInfo fid).default))
          (some pd) ck st with
      | err e st1 =>
        rw [hopt] at heq
        cases heq
      | ok uu st1 =>
        rw [hopt] at heq
        injection heq with hfl hstq
        obtain ⟨hfr, hfound⟩ := loaded_optFromMapping cfg p k fid _ _ pd ck st uu st1
          hdt htgt honMiss hopt
        rw [← hstq]
        refine ⟨hfr, ?_⟩
        intro v hv
        obtain ⟨w, hw, hst1⟩ := hfound v hv
        rw [hst1]
        exact ⟨w, hw, assignedValue_assignTo_sel cfg st fid w⟩

mutual

theorem retained_ids (c : InpCrown) (v : Value) :
    ∀ t ∈ retainedLeaves c v, t.2.1 ∈ crownFieldIds c := by
  cases c with
  | field f =>
    intro t ht
    simp only [retainedLeaves] at ht
    rw [List.mem_singleton] at ht
    subst ht
    simp [crownFieldIds]
  | leafNone =>
    intro t ht
    simp only [retainedLeaves] at ht
    exact absurd ht (List.not_mem_nil t)
  | dict m pol =>
    intro t ht
    simp only [retainedLeaves] at ht
    simp only [crownFieldIds]
    exact retainedD_ids m v t ht
  | list m pol =>
    intro t ht
    simp only [retainedLeaves] at ht
    simp only [crownFieldIds]
    exact retainedL_ids 0 m v t ht
termination_by (sizeOf c, 1)

theorem retainedD_ids (m : List (String × InpCrown)) (d : Value) :
    ∀ t ∈ retainedDict m d, t.2.1 ∈ crownFieldIdsD m := by
  cases m with
  | nil =>
    intro t ht
    simp only [retainedDict] at ht
    exact absurd ht (List.not_mem_nil t)
  | cons hd rest =>
    obtain ⟨k, c⟩ := hd
    intro t ht
    simp only [retainedDict] at ht
    rw [List.mem_append] at ht
    simp only [crownFieldIdsD]
    rw [List.mem_append]
    cases ht with
    | inl hl =>
      cases hsub : subscript d (.key k) with
      | found v =>
        rw [hsub] at hl
        rw [List.mem_map] at hl
        obtain ⟨t0, ht0, hteq⟩ := hl
        rw [← hteq]
        exact Or.inl (retained_ids c v t0 ht0)
      | missing =>
        rw [hsub] at hl
        exact absurd hl (List.not_mem_nil t)
      | badType =>
        rw [hsub] at hl
        exact absurd hl (List.not_mem_nil t)
    | inr hr => exact Or.inr (retainedD_ids rest d t hr)
termination_by (sizeOf m, 0)

theorem retainedL_ids (i : Nat) (m : List InpCrown) (d : Value) :
    ∀ t ∈ retainedList i m d, t.2.1 ∈ crownFieldIdsL m := by
  cases m with
  | nil =>
    intro t ht
    simp only [retainedList] at ht
    exact absurd ht (List.not_mem_nil t)
  | cons c rest =>
    intro t ht
    simp only [retainedList] at ht
    rw [List.mem_append] at ht
    simp only [crownFieldIdsL]
    rw [List.mem_append]
    cases ht with
    | inl hl =>
      cases hsub : subscript d (.idx i) with
      | found v =>
        rw [hsub] at hl
        rw [List.mem_map] at hl
        obtain ⟨t0, ht0, hteq⟩ := hl
        rw [← hteq]
        exact Or.inl (retained_ids c v t0 ht0)
      | missing =>
        rw [hsub] at hl
        exact absurd hl (List.not_mem_nil t)
      | badType =>
        rw [hsub] at hl
        exact absurd hl (List.not_mem_nil t)
    | inr hr => exact Or.inr (retainedL_ids (i + 1) rest d t hr)
termination_by (sizeOf m, 0)

end

theorem raiseBadType_ne_ok (dt : DebugTrail) (p : Path) (e : LErr) (st : St) (u : Unit)
    (st' : St) (h : raiseBadType dt p e st = .ok u st') : False := by
  simp only [raiseBadType] at h
  split at h <;> cases h

theorem emitLErr_ok_frame (dt : DebugTrail) (path : Path) (e : LErr) (st : St) (u : Unit)
    (st' : St) (h : emitLErr dt path e st = .ok u st') :
    st'.fields = st.fields ∧ st'.packed = st.packed := by
  cases dt with
  | all =>
    simp only [emitLErr] at h
    injection h with h1 h2
    rw [← h2]
    exact ⟨rfl, rfl⟩
  | first => simp only [emitLErr] at h; cases h
  | disable => simp only [emitLErr] at h; cases h

theorem strictCheck_ok_st (cfg : Cfg) (path : Path) (d : Value) (st : St) (u : Unit)
    (st' : St) (h : strictCheck cfg path (some d) st = .ok u st') : st' = st := by
  cases d with
  | vstr s =>
    simp only [strictCheck] at h
    exact absurd h (fun h => raiseBadType_ne_ok cfg.dt path _ st u st' h)
  | vint n => simp only [strictCheck] at h; injection h with h1 h2; exact h2.symm
  | vbool b => simp only [strictCheck] at h; injection h with h1 h2; exact h2.symm
  | vnone => simp only [strictCheck] at h; injection h with h1 h2; exact h2.symm
  | vlist xs => simp only [strictCheck] at h; injection h with h1 h2; exact h2.symm
  | vdict m => simp only [strictCheck] at h; injection h with h1 h2; exact h2.symm

theorem wrapTLE_disable (cfg : Cfg) (path : Path) (r : BRes) (hdt : cfg.dt = .disable) :
    wrapTLE cfg path r = r := by
  cases r with
  | err e extra st => simp [wrapTLE, hdt]
  | ok extra st => simp [wrapTLE]

theorem leafOK_of_eq (cfg : Cfg) {st st2 : St} (hf : st2.fields = st.fields)
    (hp : st2.packed = st.packed) {t : Path × String × Value}
    (h : LeafOK cfg st t) : LeafOK cfg st2 t := by
  obtain ⟨u, hu, ha⟩ := h
  refine ⟨u, hu, ?_⟩
  unfold assignedValue at ha ⊢
  rw [hf, hp]
  exact ha

theorem framePair_of_eq {ids : List String} {st st1 st2 : St}
    (hf : st2.fields = st1.fields) (hp : st2.packed = st1.packed)
    (h : FramePair ids st st1) : FramePair ids st st2 := by
  intro g hg
  rw [hf, hp]
  exact h g hg

/-- A successful `dictFinish` only appends errors: the value stores are unchanged. -/
theorem dictFinish_fp (cfg : Cfg) (path : Path) (sd : Option Value) (known : List String)
    (pol : ExtraPolicy) (ck : Bool) (extra : Option Value) (st : St)
    (extra2 : Option Value) (st2 : St)
    (h : dictFinish cfg path sd known pol ck extra st = .ok extra2 st2) :
    st2.fields = st.fields ∧ st2.packed = st.packed := by
  simp only [dictFinish] at h
  split at h
  · cases h
  · rename_i uu st1 hstep
    have hst1 : st1 = st := by
      by_cases hck : ck = true
      · rw [if_pos hck] at hstep
        injection hstep with h1 h2
        exact h2.symm
      · rw [Bool.not_eq_true] at hck
        rw [if_neg (by rw [hck]; exact Bool.false_ne_true)] at hstep
        cases sd with
        | none => cases hstep
        | some d =>
          simp only [] at hstep
          by_cases hm : d.isMapping = true
          · rw [if_pos hm] at hstep
            injection hstep with h1 h2
            exact h2.symm
          · rw [Bool.not_eq_true] at hm
            rw [if_neg (by rw [hm]; exact Bool.false_ne_true)] at hstep
            exact absurd hstep (fun hh => raiseBadType_ne_ok _ _ _ _ _ _ hh)
    rw [hst1] at h
    cases pol with
    | forbid =>
      cases sd with
      | none => cases h
      | some d =>
        simp only [] at h
        by_cases hex : (setDiff d.keys known).isEmpty = true
        · rw [if_pos hex] at h
          injection h with h1 h2
          rw [← h2]
          exact ⟨rfl, rfl⟩
        · rw [Bool.not_eq_true] at hex
          rw [if_neg (by rw [hex]; exact Bool.false_ne_true)] at h
          cases hemit : emitLErr cfg.dt path (.extraFields (setDiff d.keys known) d) st with
          | ok u2 st3 =>
            rw [hemit] at h
            simp only [] at h
            injection h with h1 h2
            rw [← h2]
            exact emitLErr_ok_frame _ _ _ _ _ _ hemit
          | err e st3 =>
            rw [hemit] at h
            simp only [] at h
            cases h
    | collect =>
      cases sd with
      | none => cases h
      | some d =>
        cases extra with
        | some c =>
          simp only [] at h
          injection h with h1 h2
          rw [← h2]
          exact ⟨rfl, rfl⟩
        | none =>
          simp only [] at h
          cases h
    | skip =>
      simp only [] at h
      injection h with h1 h2
      rw [← h2]
      exact ⟨rfl, rfl⟩

/-- A successful `listFinish` only appends errors: the value stores are unchanged. -/
theorem listFinish_fp (cfg : Cfg) (path : Path) (sd : Option Value) (expectedLen : Nat)
    (pol : ExtraPolicy) (ck : Bool) (extra : Option Value) (st : St)
    (extra2 : Option Value) (st2 : St)
    (h : listFinish cfg path sd expectedLen pol ck extra st = .ok extra2 st2) :
    st2.fields = st.fields ∧ st2.packed = st.packed := by
  simp only [listFinish] at h
  split at h
  · cases h
  · rename_i uu st1 hstep
    have hst1 : st1 = st := by
      by_cases hck : ck = true
      · rw [if_pos hck] at hstep
        injection hstep with h1 h2
        exact h2.symm
      · rw [Bool.not_eq_true] at hck
        rw [if_neg (by rw [hck]; exact Bool.false_ne_true)] at hstep
        cases sd with
        | none => cases hstep
        | some d =>
          simp only [] at hstep
          by_cases hm : d.isSequence = true
          · rw [if_pos hm] at hstep
            injection hstep with h1 h2
            exact h2.symm
          · rw [Bool.not_eq_true] at hm
            rw [if_neg (by rw [hm]; exact Bool.false_ne_true)] at hstep
            exact absurd hstep (fun hh => raiseBadType_ne_ok _ _ _ _ _ _ hh)
    rw [hst1] at h
    cases sd with
    | none => cases h
    | some d =>
      simp only [] at h
      split at h
      · rename_i u2 st3 hlen
        injection h with h1 h2
        rw [← h2]
        cases pol with
        | forbid =>
          simp only [] at hlen
          by_cases hne : pyLen d ≠ expectedLen
          · rw [if_pos hne] at hlen
            by_cases hlt : pyLen d < expectedLen
            · rw [if_pos hlt] at hlen
              exact emitLErr_ok_frame _ _ _ _ _ _ hlen
            · rw [if_neg hlt] at hlen
              exact emitLErr_ok_frame _ _ _ _ _ _ hlen
          · rw [if_neg hne] at hlen
            injection hlen with h3 h4
            rw [← h4]
            exact ⟨rfl, rfl⟩
        | collect =>
          simp only [] at hlen
          by_cases hlt : pyLen d < expectedLen
          · rw [if_pos hlt] at hlen
            exact emitLErr_ok_frame _ _ _ _ _ _ hlen
          · rw [if_neg hlt] at hlen
            injection hlen with h3 h4
            rw [← h4]
            exact ⟨rfl, rfl⟩
        | skip =>
          simp only [] at hlen
          by_cases hlt : pyLen d < expectedLen
          · rw [if_pos hlt] at hlen
            exact emitLErr_ok_frame _ _ _ _ _ _ hlen
          · rw [if_neg hlt] at hlen
            injection hlen with h3 h4
            rw [← h4]
            exact ⟨rfl, rfl⟩
      · cases h

mutual

/-- Under `DISABLE`, a successful child dispatch only writes the child's own field
slots, and every leaf retained below a present slice holds its loaded value. -/
theorem loaded_dispatch (cfg : Cfg) (hdt : cfg.dt = .disable) (p : Path)
    (pinfo : ParentInfo) (pd : Value) (keyEl : PathElem) (c : InpCrown) (ck hnf : Bool)
    (pextra : Option Value) (st : St) (ck2 hnf2 : Bool) (pextra2 : Option Value)
    (st2 : St) :
    (crownFieldIds c).Nodup →
    runDispatch cfg p pinfo (some pd) keyEl c ck hnf pextra st
      = .ok ck2 hnf2 pextra2 st2 →
    FramePair (crownFieldIds c) st st2
    ∧ ∀ v, subscript pd keyEl = .found v → ∀ t ∈ retainedLeaves c v, LeafOK cfg st2 t := by
  cases c with
  | leafNone =>
    intro hnodup heq
    simp only [runDispatch] at heq
    injection heq with h1 h2 h3 h4
    rw [← h4]
    refine ⟨framePair_refl _ st, ?_⟩
    intro v hv t ht
    simp only [retainedLeaves] at ht
    exact absurd ht (List.not_mem_nil t)
  | field fid =>
    intro hnodup heq
    simp only [runDispatch] at heq
    cases hfc : runFieldCrown cfg p keyEl pinfo (some pd) fid ck hnf st with
    | err e st1 =>
      rw [hfc] at heq
      cases heq
    | ok flags st1 =>
      rw [hfc] at heq
      simp only [] at heq
      injection heq with h1 h2 h3 h4
      rw [← h4]
      obtain ⟨hfr, hfound⟩ := loaded_runFieldCrown cfg p keyEl pinfo pd fid ck hnf st
        flags st1 hdt hfc
      refine ⟨?_, ?_⟩
      · simp only [crownFieldIds]
        exact hfr
      · intro v hv t ht
        simp only [retainedLeaves] at ht
        rw [List.mem_singleton] at ht
        subst ht
        obtain ⟨w, hw, ha⟩ := hfound v hv
        exact ⟨w, hw, ha⟩
  | dict m pol =>
    intro hnodup heq
    simp only [runDispatch] at heq
    cases hres : assignFromParent cfg p keyEl pinfo (some pd) .branch ck hnf st with
    | err e st1 =>
      rw [hres] at heq
      cases heq
    | ok a st1 =>
      rw [hres] at heq
      obtain ⟨v, hsub, ha, hst1⟩ := loaded_assignBranch cfg p keyEl pinfo pd ck hnf st
        a st1 hdt hres
      subst ha
      rw [hst1] at heq
      simp only [] at heq
      cases hbody : runDictBody cfg (p ++ [keyEl]) (some v) m pol st with
      | err e ce st3 =>
        rw [hbody] at heq
        simp only [] at heq
        cases heq
      | ok ce st3 =>
        rw [hbody] at heq
        simp only [] at heq
        obtain ⟨hfr, hleaf⟩ := loaded_dictBody cfg hdt (p ++ [keyEl]) v m pol st ce st3
          (by simpa [crownFieldIds] using hnodup) hbody
        have hst3 : st3 = st2 := by
          cases ce with
          | some ev => injection heq with h1 h2 h3 h4
          | none => injection heq with h1 h2 h3 h4
        rw [← hst3]
        refine ⟨?_, ?_⟩
        · simp only [crownFieldIds]
          exact hfr
        · intro v' hv' t ht
          rw [hsub] at hv'
          injection hv' with hvv
          subst hvv
          simp only [retainedLeaves] at ht
          exact hleaf t ht
  | list m pol =>
    intro hnodup heq
    simp only [runDispatch] at heq
    cases hres : assignFromParent cfg p keyEl pinfo (some pd) .branch ck hnf st with
    | err e st1 =>
      rw [hres] at heq
      cases heq
    | ok a st1 =>
      rw [hres] at heq
      obtain ⟨v, hsub, ha, hst1⟩ := loaded_assignBranch cfg p keyEl pinfo pd ck hnf st
        a st1 hdt hres
      subst ha
      rw [hst1] at heq
      simp only [] at heq
      cases hbody : runListBody cfg (p ++ [keyEl]) (some v) m pol st with
      | err e ce st3 =>
        rw [hbody] at heq
        simp only [] at heq
        cases heq
      | ok ce st3 =>
        rw [hbody] at heq
        simp only [] at heq
        obtain ⟨hfr, hleaf⟩ := loaded_listBody cfg hdt (p ++ [keyEl]) v m pol st ce st3
          (by simpa [crownFieldIds] using hnodup) hbody
        have hst3 : st3 = st2 := by
          cases ce with
          | some ev => injection heq with h1 h2 h3 h4
          | none => injection heq with h1 h2 h3 h4
        rw [← hst3]
        refine ⟨?_, ?_⟩
        · simp only [crownFieldIds]
          exact hfr
        · intro v' hv' t ht
          rw [hsub] at hv'
          injection hv' with hvv
          subst hvv
          simp only [retainedLeaves] at ht
          exact hleaf t ht
termination_by (sizeOf c, 2)

/-- Under `DISABLE`, a successful fold over a dict crown's children only writes the
children's field slots; every leaf retained below the parent data holds its value. -/
theorem loaded_dictEntries (cfg : Cfg) (hdt : cfg.dt = .disable) (p : Path) (d : Value)
    (req : List String) (entries : List (String × InpCrown)) (ck hnf : Bool)
    (extra : Option Value) (st : St) (ck2 : Bool) (extra2 : Option Value) (st2 : St) :
    (crownFieldIdsD entries).Nodup →
    runDictEntries cfg p (some d) req entries ck hnf extra st = .ok ck2 extra2 st2 →
    FramePair (crownFieldIdsD entries) st st2
    ∧ ∀ t ∈ retainedDict entries d, LeafOK cfg st2 t := by
  cases entries with
  | nil =>
    intro hnodup heq
    simp only [runDictEntries] at heq
    injection heq with h1 h2 h3
    rw [← h3]
    refine ⟨framePair_refl _ st, ?_⟩
    intro t ht
    simp only [retainedDict] at ht
    exact absurd ht (List.not_mem_nil t)
  | cons hd rest =>
    obtain ⟨k, c⟩ := hd
    intro hnodup heq
    simp only [runDictEntries] at heq
    simp only [crownFieldIdsD] at hnodup
    obtain ⟨hn1, hn2, hdisj⟩ := List.nodup_append.1 hnodup
    cases hdis : runDispatch cfg p (.pdict req) (some d) (.key k) c ck hnf extra st with
    | err e extra1 st1 =>
      rw [hdis] at heq
      cases heq
    | ok ck1 hnf1 extra1 st1 =>
      rw [hdis] at heq
      simp only [] at heq
      obtain ⟨hfr1, hfound1⟩ := loaded_dispatch cfg hdt p (.pdict req) d (.key k) c
        ck hnf extra st ck1 hnf1 extra1 st1 hn1 hdis
      obtain ⟨hfr2, hleaf2⟩ := loaded_dictEntries cfg hdt p d req rest ck1 hnf1 extra1
        st1 ck2 extra2 st2 hn2 heq
      refine ⟨?_, ?_⟩
      · simp only [crownFieldIdsD]
        exact framePair_trans
          (framePair_mono (fun g hgm => List.mem_append_left _ hgm) hfr1)
          (framePair_mono (fun g hgm => List.mem_append_right _ hgm) hfr2)
      · intro t ht
        simp only [retainedDict] at ht
        rw [List.mem_append] at ht
        cases ht with
        | inl hl =>
          cases hsub : subscript d (.key k) with
          | found v =>
            rw [hsub] at hl
            rw [List.mem_map] at hl
            obtain ⟨t0, ht0, hteq⟩ := hl
            have h0 : LeafOK cfg st1 t0 := hfound1 v hsub t0 ht0
            have hid : t0.2.1 ∈ crownFieldIds c := retained_ids c v t0 ht0
            have hnot : t0.2.1 ∉ crownFieldIdsD rest := fun hmem => hdisj hid hmem
            have h1 : LeafOK cfg st2 t0 := leafOK_frame hfr2 hnot h0
            rw [← hteq]
            exact h1
          | missing =>
            rw [hsub] at hl
            exact absurd hl (List.not_mem_nil t)
          | badType =>
            rw [hsub] at hl
            exact absurd hl (List.not_mem_nil t)
        | inr hr => exact hleaf2 t hr
termination_by (sizeOf entries, 0)

/-- Under `DISABLE`, the analogue of `loaded_dictEntries` for list crowns. -/
theorem loaded_listEntries (cfg : Cfg) (hdt : cfg.dt = .disable) (p : Path) (d : Value)
    (total : Nat) (i : Nat) (entries : List InpCrown) (ck : Bool)
    (extra : Option Value) (st : St) (ck2 : Bool) (extra2 : Option Value) (st2 : St) :
    (crownFieldIdsL entries).Nodup →
    runListEntries cfg p (some d) total i entries ck extra st = .ok ck2 extra2 st2 →
    FramePair (crownFieldIdsL entries) st st2
    ∧ ∀ t ∈ retainedList i entries d, LeafOK cfg st2 t := by
  cases entries with
  | nil =>
    intro hnodup heq
    simp only [runListEntries] at heq
    injection heq with h1 h2 h3
    rw [← h3]
    refine ⟨framePair_refl _ st, ?_⟩
    intro t ht
    simp only [retainedList] at ht
    exact absurd ht (List.not_mem_nil t)
  | cons c rest =>
    intro hnodup heq
    simp only [runListEntries] at heq
    simp only [crownFieldIdsL] at hnodup
    obtain ⟨hn1, hn2, hdisj⟩ := List.nodup_append.1 hnodup
    cases hdis : runDispatch cfg p (.plist total) (some d) (.idx i) c ck false extra st with
    | err e extra1 st1 =>
      rw [hdis] at heq
      cases heq
    | ok ck1 hnf1 extra1 st1 =>
      rw [hdis] at heq
      simp only [] at heq
      obtain ⟨hfr1, hfound1⟩ := loaded_dispatch cfg hdt p (.plist total) d (.idx i) c
        ck false extra st ck1 hnf1 extra1 st1 hn1 hdis
      obtain ⟨hfr2, hleaf2⟩ := loaded_listEntries cfg hdt p d total (i + 1) rest ck1
        extra1 st1 ck2 extra2 st2 hn2 heq
      refine ⟨?_, ?_⟩
      · simp only [crownFieldIdsL]
        exact framePair_trans
          (framePair_mono (fun g hgm => List.mem_append_left _ hgm) hfr1)
          (framePair_mono (fun g hgm => List.mem_append_right _ hgm) hfr2)
      · intro t ht
        simp only [retainedList] at ht
        rw [List.mem_append] at ht
        cases ht with
        | inl hl =>
          cases hsub : subscript d (.idx i) with
          | found v =>
            rw [hsub] at hl
            rw [List.mem_map] at hl
            obtain ⟨t0, ht0, hteq⟩ := hl
            have h0 : LeafOK cfg st1 t0 := hfound1 v hsub t0 ht0
            have hid : t0.2.1 ∈ crownFieldIds c := retained_ids c v t0 ht0
            have hnot : t0.2.1 ∉ crownFieldIdsL rest := fun hmem => hdisj hid hmem
            have h1 : LeafOK cfg st2 t0 := leafOK_frame hfr2 hnot h0
            rw [← hteq]
            exact h1
          | missing =>
            rw [hsub] at hl
            exact absurd hl (List.not_mem_nil t)
          | badType =>
            rw [hsub] at hl
            exact absurd hl (List.not_mem_nil t)
        | inr hr => exact hleaf2 t hr
termination_by (sizeOf entries, 0)

/-- Under `DISABLE`, a successful dict-crown body only writes its children's field
slots; every leaf retained below the branch data holds its loaded value. -/
theorem loaded_dictBody (cfg : Cfg) (hdt : cfg.dt = .disable) (q : Path) (d : Value)
    (map : List (String × InpCrown)) (pol : ExtraPolicy) (st : St)
    (extra2 : Option Value) (st2 : St) :
    (crownFieldIdsD map).Nodup →
    runDictBody cfg q (some d) map pol st = .ok extra2 st2 →
    FramePair (crownFieldIdsD map) st st2
    ∧ ∀ t ∈ retainedDict map d, LeafOK cfg st2 t := by
  intro hnodup heq
  simp only [runDictBody] at heq
  rw [wrapTLE_disable cfg q _ hdt] at heq
  cases hent : runDictEntries cfg q (some d) (requiredKeysOf cfg map) map false false
      (if cfg.canCollectExtra then some (.vdict []) else Option.none) st with
  | err e ex st1 =>
    rw [hent] at heq
    simp only [] at heq
    cases heq
  | ok ck1 extra1 st1 =>
    rw [hent] at heq
    simp only [] at heq
    obtain ⟨hfr, hleaf⟩ := loaded_dictEntries cfg hdt q d (requiredKeysOf cfg map) map
      false false _ st ck1 extra1 st1 hnodup hent
    obtain ⟨hf, hp2⟩ := dictFinish_fp cfg q (some d) (map.map Prod.fst) pol ck1 extra1
      st1 extra2 st2 heq
    exact ⟨framePair_of_eq hf hp2 hfr, fun t ht => leafOK_of_eq cfg hf hp2 (hleaf t ht)⟩
termination_by (sizeOf map, 1)

/-- Under `DISABLE`, the analogue of `loaded_dictBody` for list crowns. -/
theorem loaded_listBody (cfg : Cfg) (hdt : cfg.dt = .disable) (q : Path) (d : Value)
    (map : List InpCrown) (pol : ExtraPolicy) (st : St)
    (extra2 : Option Value) (st2 : St) :
    (crownFieldIdsL map).Nodup →
    runListBody cfg q (some d) map pol st = .ok extra2 st2 →
    FramePair (crownFieldIdsL map) st st2
    ∧ ∀ t ∈ retainedList 0 map d, LeafOK cfg st2 t := by
  intro hnodup heq
  simp only [runListBody] at heq
  rw [wrapTLE_disable cfg q _ hdt] at heq
  cases hstr : (if cfg.strictCoercion then strictCheck cfg q (some d) st
      else (.ok () st : Res Unit)) with
  | err e st1 =>
    rw [hstr] at heq
    simp only [] at heq
    cases heq
  | ok uu st1 =>
    rw [hstr] at heq
    simp only [] at heq
    have hst1 : st1 = st := by
      by_cases hsc : cfg.strictCoercion = true
      · rw [if_pos hsc] at hstr
        exact strictCheck_ok_st cfg q d st uu st1 hstr
      · rw [Bool.not_eq_true] at hsc
        rw [if_neg (by rw [hsc]; exact Bool.false_ne_true)] at hstr
        injection hstr with h1 h2
        exact h2.symm
    rw [hst1] at heq
    cases hent : runListEntries cfg q (some d) map.length 0 map false
        (if cfg.canCollectExtra then some (.vlist (map.map listExtraSlot)) else Option.none)
        st with
    | err e ex st3 =>
      rw [hent] at heq
      simp only [] at heq
      cases heq
    | ok ck1 extra1 st3 =>
      rw [hent] at heq
      simp only [] at heq
      obtain ⟨hfr, hleaf⟩ := loaded_listEntries cfg hdt q d map.length 0 map false _ st
        ck1 extra1 st3 hnodup hent
      obtain ⟨hf, hp2⟩ := listFinish_fp cfg q (some d) map.length pol ck1 extra1 st3
        extra2 st2 heq
      exact ⟨framePair_of_eq hf hp2 hfr, fun t ht => leafOK_of_eq cfg hf hp2 (hleaf t ht)⟩
termination_by (sizeOf map, 1)

end

/-- The dump half of the round trip: a record holding every retained leaf's loaded
value dumps, through inverse serializers, to an output carrying the original raw
value at every retained path. -/
theorem roundtrip_core (cfg : Cfg) (dcfg : DumpCfg) (crown : InpCrown)
    (input rec out : Value) (st1 : St) (recl : List (String × Value))
    (hshapeN : (cfg.shapeFields.map InputField.id).Nodup)
    (hfigN : (dcfg.figureFields.map OutField.name).Nodup)
    (hids : ∀ f ∈ crownFieldIds crown, ∃ fd ∈ cfg.shapeFields, fd.id = f)
    (hfig : ∀ f ∈ crownFieldIds crown, ∃ fo ∈ dcfg.figureFields, fo.name = f)
    (hinv : ∀ f v w, cfg.loaders f v = .ok w → dcfg.serializers f w = v)
    (hwf : crownWF crown = true)
    (hnoextra : dcfg.extra = .noextra)
    (hLO : ∀ t ∈ retainedLeaves crown input, LeafOK cfg st1 t)
    (hbr : buildRecord cfg st1 = some recl)
    (hrec : Value.vdict recl = rec)
    (hdump : dumpModel dcfg crown rec = some out) :
    ∀ t ∈ retainedLeaves crown input, valueAt out t.1 = some t.2.2 := by
  have hnoet : dcfg.extraTargetNames = [] := by
    simp only [DumpCfg.extraTargetNames, hnoextra]
  simp only [dumpModel] at hdump
  cases hex : extractAll dcfg rec with
  | none =>
    rw [hex] at hdump
    cases hdump
  | some dst =>
    rw [hex] at hdump
    simp only [extractAll] at hex
    cases hreg : extractRegular dcfg rec dcfg.figureFields ⟨[], [], Option.none⟩ with
    | none =>
      rw [hreg] at hex
      cases hex
    | some dst1 =>
      rw [hreg] at hex
      simp only [hnoextra] at hex
      injection hex with hdst
      subst hdst
      intro t ht
      refine create_valueAt dcfg dst1 crown input hwf ?_ t ht out hdump
      intro t' ht'
      obtain ⟨u, hu, ha⟩ := hLO t' ht'
      have hidmem : t'.2.1 ∈ crownFieldIds crown := retained_ids crown input t' ht'
      obtain ⟨fd, hfd, hfdid⟩ := hids t'.2.1 hidmem
      have hrl : alookup recl t'.2.1 = some u := by
        rw [← hfdid]
        exact record_lookup cfg hshapeN st1 recl hbr fd hfd u (by rw [hfdid]; exact ha)
      obtain ⟨fo, hfo, hfon⟩ := hfig t'.2.1 hidmem
      have hacc : accessField rec fo.name = some u := by
        rw [← hrec]
        simp only [accessField]
        rw [hfon]
        exact hrl
      have hfound := extractRegular_found dcfg hnoet rec dcfg.figureFields
        ⟨[], [], Option.none⟩ dst1 hfigN hreg fo hfo u hacc
      have hser : dcfg.serializers fo.name u = t'.2.2 := by
        rw [hfon]
        exact hinv t'.2.1 t'.2.2 u hu
      have hff : figureField dcfg t'.2.1 = fo := by
        rw [← hfon]
        exact figureField_mem dcfg hfigN fo hfo
      unfold extractedValue
      rw [hff, ← hfon, hfound, hser]

/-- C1: for a valid crown/input pair (wellformed crown with distinct field ids all
declared in the shape and the figure, loaders inverted by the serializers, no
extra-data movement) a successful load followed by a successful dump reproduces,
at every position the crown retains on this input, the original external value;
skipped or defaulted positions are exempt (only retained leaves are constrained). -/
theorem load_dump_roundtrip (cfg : Cfg) (dcfg : DumpCfg) (crown : InpCrown)
    (input rec out : Value)
    (hdt : cfg.dt = .disable)
    (hmove : cfg.extraMove = .nomove)
    (hnoextra : dcfg.extra = .noextra)
    (hnodup : (crownFieldIds crown).Nodup)
    (hwf : crownWF crown = true)
    (hshapeN : (cfg.shapeFields.map InputField.id).Nodup)
    (hfigN : (dcfg.figureFields.map OutField.name).Nodup)
    (hids : ∀ f ∈ crownFieldIds crown, ∃ fd ∈ cfg.shapeFields, fd.id = f)
    (hfig : ∀ f ∈ crownFieldIds crown, ∃ fo ∈ dcfg.figureFields, fo.name = f)
    (hinv : ∀ f v w, cfg.loaders f v = .ok w → dcfg.serializers f w = v)
    (hload : loadModel cfg crown input = .ok rec)
    (hdump : dumpModel dcfg crown rec = some out) :
    ∀ t ∈ retainedLeaves crown input, valueAt out t.1 = some t.2.2 := by
  simp only [loadModel] at hload
  cases crown with
  | field fid =>
    simp only [] at hload
    cases hload
  | leafNone =>
    simp only [] at hload
    cases hload
  | dict m pol =>
    simp only [] at hload
    cases hbody : runDictBody cfg [] (some input) m pol ⟨[], false, [], []⟩ with
    | err e ce stx =>
      rw [hbody] at hload
      simp only [] at hload
      cases hload
    | ok rootExtra st1 =>
      rw [hbody] at hload
      simp only [] at hload
      have hext : runExtraTargetsAssign cfg (crownPolicy (.dict m pol)) rootExtra st1
          = .ok () st1 := by
        simp only [runExtraTargetsAssign, hmove]
      rw [hext] at hload
      simp only [] at hload
      rw [hdt] at hload
      simp only [show (DebugTrail.disable == DebugTrail.all) = false from rfl,
        Bool.false_and, Bool.false_eq_true, if_false] at hload
      cases hbr : buildRecord cfg st1 with
      | none =>
        rw [hbr] at hload
        simp only [] at hload
        cases hload
      | some recl =>
        rw [hbr] at hload
        simp only [hmove] at hload
        injection hload with hrec
        obtain ⟨hfr, hleaf⟩ := loaded_dictBody cfg hdt [] input m pol ⟨[], false, [], []⟩
          rootExtra st1 (by simpa [crownFieldIds] using hnodup) hbody
        refine roundtrip_core cfg dcfg (.dict m pol) input rec out st1 recl hshapeN
          hfigN hids hfig hinv hwf hnoextra ?_ hbr hrec hdump
        intro t ht
        simp only [retainedLeaves] at ht
        exact hleaf t ht
  | list m pol =>
    simp only [] at hload
    cases hbody : runListBody cfg [] (some input) m pol ⟨[], false, [], []⟩ with
    | err e ce stx =>
      rw [hbody] at hload
      simp only [] at hload
      cases hload
    | ok rootExtra st1 =>
      rw [hbody] at hload
      simp only [] at hload
      have hext : runExtraTargetsAssign cfg (crownPolicy (.list m pol)) rootExtra st1
          = .ok () st1 := by
        simp only [runExtraTargetsAssign, hmove]
      rw [hext] at hload
      simp only [] at hload
      rw [hdt] at hload
      simp only [show (DebugTrail.disable == DebugTrail.all) = false from rfl,
        Bool.false_and, Bool.false_eq_true, if_false] at hload
      cases hbr : buildRecord cfg st1 with
      | none =>
        rw [hbr] at hload
        simp only [] at hload
        cases hload
      | some recl =>
        rw [hbr] at hload
        simp only [hmove] at hload
        injection hload with hrec
        obtain ⟨hfr, hleaf⟩ := loaded_listBody cfg hdt [] input m pol ⟨[], false, [], []⟩
          rootExtra st1 (by simpa [crownFieldIds] using hnodup) hbody
        refine roundtrip_core cfg dcfg (.list m pol) input rec out st1 recl hshapeN
          hfigN hids hfig hinv hwf hnoextra ?_ hbr hrec hdump
        intro t ht
        simp only [retainedLeaves] at ht
        exact hleaf t ht

theorem load_dump_roundtrip_witness :
    loadModel rtCfg rtCrown rtInput = .ok (.vdict [("a", .vstr "x")])
    ∧ dumpModel rtDcfg rtCrown (.vdict [("a", .vstr "x")]) = some (.vdict [("k", .vstr "x")])
    ∧ ∀ t ∈ retainedLeaves rtCrown rtInput,
        valueAt (.vdict [("k", .vstr "x")]) t.1 = some t.2.2 := by
  have hload : loadModel rtCfg rtCrown rtInput = .ok (.vdict [("a", .vstr "x")]) := by
    simp [loadModel, runDictBody, runListBody, runDictEntries, runListEntries, runDispatch,
      runFieldCrown, optFromMapping, assignFromParent, runFieldAssign, emitRaw, emitLErr,
      unexpCatch, raiseBadType, dictFinish, listFinish, wrapTLE, isTLE, strictCheck, subscript,
      alookup, upsert, assignTo, pyContains, setDiff, requiredKeysOf, Cfg.fieldInfo,
      Cfg.canCollectExtra, Cfg.extraTargets, Cfg.isPacked, hasDeclaredDefault, defaultValue,
      parentNotFoundErr, badTypeErrOf, trailFor, Value.keys, Value.isMapping, Value.isSequence,
      pyLen, runExtraTargetsAssign, targetsAssignRequired, targetsAssignAll, buildRecord,
      buildParams, crownPolicy, extraWrite, collectUnknown, listExtraSlot, rawToExc,
      rtCfg, rtCrown, rtInput]
  have hdump : dumpModel rtDcfg rtCrown (.vdict [("a", .vstr "x")])
      = some (.vdict [("k", .vstr "x")]) := by
    simp [dumpModel, extractAll, extractRegular, extractExtraTargets, accessField,
      createOutput, createDictOut, createListOut, extractedValue, figureField, alookup,
      upsert, DumpCfg.extraTargetNames, rtDcfg, rtCrown]
  refine ⟨hload, hdump, ?_⟩
  refine load_dump_roundtrip rtCfg rtDcfg rtCrown rtInput (.vdict [("a", .vstr "x")])
    (.vdict [("k", .vstr "x")]) rfl rfl rfl ?_ ?_ ?_ ?_ ?_ ?_ ?_ hload hdump
  · simp [rtCrown, crownFieldIds, crownFieldIdsD]
  · simp [rtCrown, crownWF, crownWFD, nodupKeys]
  · simp [rtCfg]
  · simp [rtDcfg]
  · intro f hf
    simp [rtCrown, crownFieldIds, crownFieldIdsD] at hf
    subst hf
    exact ⟨⟨"a", true, .noDefault⟩, by simp [rtCfg], rfl⟩
  · intro f hf
    simp [rtCrown, crownFieldIds, crownFieldIdsD] at hf
    subst hf
    exact ⟨⟨"a", true⟩, by simp [rtDcfg], rfl⟩
  · intro f v w h
    injection h with h2
    exact h2.symm

end Adaptix